import Mathlib

/-!
Verification development for the merkle-mountain-range crate.

The file embeds `src/mmr.rs` shallowly in Lean.  Machine integers (`u64`)
become `Nat`; the only arithmetic the algorithms perform is addition,
truncated subtraction, comparisons and powers of two, none of which can
overflow for reachable MMR sizes, so no `% 2^64` reduction is inserted.
Rust `Result` values become the `RunResult` type below; `.out` marks
executions that do not return a value in Rust (a panicking index/expect, or
exhaustion of the fuel that makes the unstructured `while` loops of the
source total in Lean).  Loop fuels are chosen generously; lemmas in the
second half of the file show the fuelled loops never run out on the
executions the theorems talk about.

Parts of the crate are not present under `src/` (only `mmr.rs`, a stale
`error.rs`, and tests are):

* the position-arithmetic helpers of `helper.rs`
  (`pos_height_in_tree`, `get_peaks`, `get_peak_map`, `parent_offset`,
  `sibling_offset`, `is_descendant_pos`) are modelled from spec section 4.1;
* the store of `mmr_store.rs` is modelled from spec section 6: the staged
  batch and the backing store are collapsed into a single position-indexed
  list, `get_elem pos` returning `Some` exactly for persisted positions;
* the `Merge` capability is modelled from spec section 6 as a pair of total
  functions `merge` and `mergePeaks` (the spec interface has no failure);
* the error enum is modelled from spec section 7 together with the variants
  `mmr.rs` actually constructs (the `error.rs` under `src/` is an older
  revision lacking them);
* the `nodeproofs` cargo feature of `verify` is modelled as an explicit
  boolean parameter (`false` is the default build per spec section 4.6).
-/

namespace Mmr

/-- Modelled from the spec: section 7 error kinds, matching the variants
constructed by `mmr.rs` (the `error.rs` under `src/` is a stale revision). -/
inductive Error : Type where
  | GetRootOnEmpty
  | InconsistentStore
  | StoreError
  | CorruptedProof
  | GenProofForInvalidNodes
  | NodeProofsNotSupported
  | AncestorRootNotPredecessor
deriving DecidableEq, Repr

/-- Outcome of running a piece of Rust code: a returned value, a returned
`Err`, or `.out` for executions that do not return (panicking index or
`expect`, or exhaustion of the fuel making a `while` loop total in Lean). -/
inductive RunResult (α : Type) : Type where
  | ok : α → RunResult α
  | err : Error → RunResult α
  | out : RunResult α
deriving DecidableEq, Repr

/-- Free magma used as the item type of concrete example MMRs: `merge`
instantiated with `Tree.node` is injective, so distinct computations give
distinct hashes. -/
inductive Tree : Type where
  | leaf : ℕ → Tree
  | node : Tree → Tree → Tree
deriving DecidableEq, Repr

/-! ## Position arithmetic (modelled from the spec, section 4.1) -/

/-- Fuelled bit-length: `bitlenF f n` is the number of binary digits of `n`
provided `f ≥ n`. -/
def bitlenF : ℕ → ℕ → ℕ
  | 0, _ => 0
  | f + 1, n => if n = 0 then 0 else bitlenF f (n / 2) + 1

/-- Number of binary digits of `n` (0 for 0). -/
def bitlen (n : ℕ) : ℕ := bitlenF n n

/-- Fuelled jump-left loop of the canonical height computation, on 1-based
positions: while `x` is not of the form `2^k - 1`, replace `x` by
`x - (2^(bitlen x - 1) - 1)`; when it is, the height is `k - 1`. -/
def heightJumpF : ℕ → ℕ → ℕ
  | 0, _ => 0
  | f + 1, x =>
    if x + 1 = 2 ^ bitlen x then bitlen x - 1
    else heightJumpF f (x - (2 ^ (bitlen x - 1) - 1))

/-- Modelled from the spec: `height(pos)`, the canonical jump-left
computation of section 4.1 applied to the 1-based position `pos + 1`.
Each jump strictly decreases the positive 1-based position, so fuel
`pos + 1` always suffices. -/
def pos_height_in_tree (pos : ℕ) : ℕ := heightJumpF (pos + 1) (pos + 1)

/-- Fuelled population count. -/
def popcountF : ℕ → ℕ → ℕ
  | 0, _ => 0
  | f + 1, n => if n = 0 then 0 else n % 2 + popcountF f (n / 2)

/-- Number of set bits of `n`. -/
def popcount (n : ℕ) : ℕ := popcountF n n

/-- Modelled from the spec: the MMR size determined by a leaf count
(`2L - popcount L` nodes for `L` leaves); `leaf_index_to_mmr_size i` of the
source is this at `i + 1`. -/
def mmr_size_of_leaf_count (L : ℕ) : ℕ := 2 * L - popcount L

/-- Valid MMR sizes are exactly those reachable by repeated `push`
(spec section 3), i.e. the sizes determined by some leaf count. -/
def is_valid_size (n : ℕ) : Prop := ∃ L, n = mmr_size_of_leaf_count L

/-- Descending scan of candidate perfect-tree sizes `2^j - 1`, accumulating
the leaf-count bitmap; mirrors the halving loop described by the spec. -/
def getPeakMapGo : ℕ → ℕ → ℕ
  | 0, _ => 0
  | j + 1, pos =>
    if 2 ^ (j + 1) - 1 ≤ pos then 2 ^ j + getPeakMapGo j (pos - (2 ^ (j + 1) - 1))
    else getPeakMapGo j pos

/-- Modelled from the spec: `get_peak_map(mmr_size)`, the leaf count viewed
as a bitmap; bit `k` is set iff a perfect subtree of height `k` is present. -/
def get_peak_map (n : ℕ) : ℕ := getPeakMapGo (bitlen n) n

/-- Descending scan of candidate perfect-tree sizes accumulating peak
positions, threading the offset of the next unplaced subtree. -/
def getPeaksGo : ℕ → ℕ → ℕ → List ℕ
  | 0, _, _ => []
  | j + 1, pos, off =>
    if 2 ^ (j + 1) - 1 ≤ pos then
      (off + (2 ^ (j + 1) - 1) - 1) :: getPeaksGo j (pos - (2 ^ (j + 1) - 1)) (off + (2 ^ (j + 1) - 1))
    else getPeaksGo j pos off

/-- Modelled from the spec: `get_peaks(mmr_size)`, peak positions in
left-to-right order (strictly descending heights). -/
def get_peaks (n : ℕ) : List ℕ := getPeaksGo (bitlen n) n 0

/-- Modelled from the spec: `parent_offset(height) = 2^(height+1)`. -/
def parent_offset (height : ℕ) : ℕ := 2 ^ (height + 1)

/-- Modelled from the spec: `sibling_offset(height) = 2^(height+1) - 1`. -/
def sibling_offset (height : ℕ) : ℕ := 2 ^ (height + 1) - 1

/-- Modelled from the spec: `is_descendant_pos(ancestor, descendant)` is
true iff `descendant` lies within the perfect subtree rooted at `ancestor`
(inclusive); that subtree spans positions
`[ancestor - (2^(h+1) - 2), ancestor]` for `h` the height of `ancestor`. -/
def is_descendant_pos (anc desc : ℕ) : Bool :=
  decide (desc ≤ anc ∧ anc + 2 ≤ desc + 2 ^ (pos_height_in_tree anc + 1))

/-! ## List machinery mirroring the Rust container operations -/

/-- Insert into a list sorted by the `ℕ` key, after strictly smaller keys
and before greater-or-equal keys coming later; stable. -/
def insPair {T : Type} (x : ℕ × T) : List (ℕ × T) → List (ℕ × T)
  | [] => [x]
  | y :: rest => if y.1 < x.1 then y :: insPair x rest else x :: y :: rest

/-- Stable insertion sort by position; models `sort_by_key`/`sorted_by_key`
on `(position, item)` pairs. -/
def sortPairs {T : Type} : List (ℕ × T) → List (ℕ × T)
  | [] => []
  | x :: rest => insPair x (sortPairs rest)

/-- Keep the head of a run of consecutive entries sharing its position. -/
def dedupPairRun {T : Type} [DecidableEq T] : (ℕ × T) → List (ℕ × T) → List (ℕ × T)
  | x, [] => [x]
  | x, y :: rest => if x.1 = y.1 then dedupPairRun x rest else x :: dedupPairRun y rest

/-- Models itertools `dedup_by(|a, b| a.0 == b.0)`: collapse consecutive
entries with equal positions, keeping the first of each run. -/
def dedupPairs {T : Type} [DecidableEq T] : List (ℕ × T) → List (ℕ × T)
  | [] => []
  | x :: rest => dedupPairRun x rest

/-- Insertion into a sorted `List ℕ`. -/
def insNat (x : ℕ) : List ℕ → List ℕ
  | [] => [x]
  | y :: rest => if y < x then y :: insNat x rest else x :: y :: rest

/-- Models `sort_unstable` on a `Vec<u64>` (order of equal keys is
irrelevant for numbers). -/
def sortNat : List ℕ → List ℕ
  | [] => []
  | x :: rest => insNat x (sortNat rest)

/-- Keep the head of a run of consecutive equal numbers. -/
def dedupNatRun : ℕ → List ℕ → List ℕ
  | x, [] => [x]
  | x, y :: rest => if x = y then dedupNatRun x rest else x :: dedupNatRun y rest

/-- Models `Vec::dedup`: collapse consecutive equal numbers. -/
def dedupNat : List ℕ → List ℕ
  | [] => []
  | x :: rest => dedupNatRun x rest

/-! ## Data model -/

/-- An MMR handle: the size and the collapsed staged-batch-plus-store
contents (modelled from spec section 6: position `p` is persisted iff it
indexes into the list). -/
structure MMRState (T : Type) : Type where
  mmr_size : ℕ
  store : List T
deriving DecidableEq, Repr

/-- The `MerkleProof` object: recorded MMR size and the proof items, a
sequence of `(position, item)` pairs. -/
structure MerkleProof (T : Type) : Type where
  mmr_size : ℕ
  proof : List (ℕ × T)
deriving DecidableEq, Repr

/-- The `AncestryProof` object. -/
structure AncestryProof (T : Type) : Type where
  prev_peaks : List T
  prev_size : ℕ
  proof : MerkleProof T
deriving DecidableEq, Repr

section Core

variable {T : Type} [DecidableEq T] (merge mergePeaks : T → T → T)

/-- `MMR::find_elem`: read position `pos` from the tail `hashes` being
built (when `pos ≥ mmr_size`) or from the store. -/
def find_elem (s : MMRState T) (pos : ℕ) (hashes : List T) : RunResult T :=
  match (if s.mmr_size ≤ pos then hashes.get? (pos - s.mmr_size) else none) with
  | some e => .ok e
  | none =>
    match s.store.get? pos with
    | some e => .ok e
    | none => .err .InconsistentStore

/-- Carry loop of `MMR::push`: at step `k` test bit `k` of the peak map;
while set, advance the cursor and append the merge of the left sibling and
the last built element.  Fuel `peak_map + 1` suffices (at most
`bitlen peak_map` iterations run). -/
def pushLoopF (s : MMRState T) (peak_map : ℕ) :
    ℕ → ℕ → ℕ → List T → RunResult (ℕ × List T)
  | 0, _, _, _ => .out
  | f + 1, k, pos, elems =>
    if peak_map.testBit k then
      match find_elem s (pos + 1 - 2 ^ (k + 1)) elems with
      | .err e => .err e
      | .out => .out
      | .ok left_elem =>
        match elems.getLast? with
        | none => .out
        | some right_elem =>
          pushLoopF s peak_map f (k + 1) (pos + 1) (elems ++ [merge left_elem right_elem])
    else .ok (pos, elems)

/-- `MMR::push`: append a leaf, create the carried parents, extend the
store, and return the position of the leaf together with the new state. -/
def push (s : MMRState T) (elem : T) : RunResult (ℕ × MMRState T) :=
  match pushLoopF merge s (get_peak_map s.mmr_size)
      (get_peak_map s.mmr_size + 1) 0 s.mmr_size [elem] with
  | .err e => .err e
  | .out => .out
  | .ok (pos, elems) => .ok (s.mmr_size, ⟨pos + 1, s.store ++ elems⟩)

/-- Read a list of positions from the store, failing on the first miss;
models `.map(get_elem).collect::<Result<Vec<_>>>()`. -/
def getElems (s : MMRState T) : List ℕ → RunResult (List T)
  | [] => .ok []
  | p :: ps =>
    match s.store.get? p with
    | none => .err .InconsistentStore
    | some v =>
      match getElems s ps with
      | .ok vs => .ok (v :: vs)
      | .err e => .err e
      | .out => .out

/-- Fuelled bagging loop, operating on the reversed peak list: repeatedly
replace the two front elements `right, left` by `mergePeaks right left`.
Fuel `length` suffices. -/
def bagRevF : ℕ → List T → Option T
  | _, [] => none
  | _, [x] => some x
  | 0, _ :: _ :: _ => none
  | f + 1, r :: l :: rest => bagRevF f (mergePeaks r l :: rest)

/-- `MMR::bag_rhs_peaks`: pop the two rightmost peaks and push their
`merge_peaks` until at most one remains (merging is total here, so the
`Result` wrapper of the source degenerates). -/
def bag_rhs_peaks (rhs_peaks : List T) : Option T :=
  bagRevF mergePeaks rhs_peaks.length rhs_peaks.reverse

/-- `MMR::get_root`. -/
def get_root (s : MMRState T) : RunResult T :=
  if s.mmr_size = 0 then .err .GetRootOnEmpty
  else if s.mmr_size = 1 then
    match s.store.get? 0 with
    | some e => .ok e
    | none => .err .InconsistentStore
  else
    match getElems s (get_peaks s.mmr_size) with
    | .err e => .err e
    | .out => .out
    | .ok peaks =>
      match bag_rhs_peaks mergePeaks peaks with
      | some r => .ok r
      | none => .err .InconsistentStore

/-- `MMR::get_ancestor_peaks_and_root`. -/
def get_ancestor_peaks_and_root (s : MMRState T) (prev_mmr_size : ℕ) :
    RunResult (List T × T) :=
  if s.mmr_size = 0 then .err .GetRootOnEmpty
  else if s.mmr_size = 1 ∧ prev_mmr_size = 1 then
    match s.store.get? 0 with
    | some e => .ok ([e], e)
    | none => .err .InconsistentStore
  else if s.mmr_size < prev_mmr_size then .err .AncestorRootNotPredecessor
  else
    match getElems s (get_peaks prev_mmr_size) with
    | .err e => .err e
    | .out => .out
    | .ok peaks =>
      match bag_rhs_peaks mergePeaks peaks with
      | some r => .ok (peaks, r)
      | none => .err .InconsistentStore

/-- Sibling handling of one `gen_proof_for_peak` iteration: consume the
sibling if it is next in the queue, skip it if the next queued position
lies under it, and otherwise fetch it from the store and push it onto the
proof subject to the redundancy checks. -/
def genSibStep (s : MMRState T) (pos_list : List ℕ) (proof : List (ℕ × T))
    (queue : List (ℕ × ℕ)) (sib_pos height : ℕ) :
    RunResult (List (ℕ × ℕ) × List (ℕ × T)) :=
  match queue.head? with
  | some (qpos, _) =>
    if qpos = sib_pos then .ok (queue.tail, proof)
    else if is_descendant_pos sib_pos qpos then .ok (queue, proof)
    else
      match s.store.get? sib_pos with
      | none => .err .InconsistentStore
      | some v =>
        if height = 0 ∨ (¬ (sib_pos, v) ∈ proof ∧ ¬ sib_pos ∈ pos_list) then
          .ok (queue, proof ++ [(sib_pos, v)])
        else .ok (queue, proof)
  | none =>
    match s.store.get? sib_pos with
    | none => .err .InconsistentStore
    | some v =>
      if height = 0 ∨ (¬ (sib_pos, v) ∈ proof ∧ ¬ sib_pos ∈ pos_list) then
        .ok (queue, proof ++ [(sib_pos, v)])
      else .ok (queue, proof)

/-- Queue loop of `MMR::gen_proof_for_peak`.  Entries are `(pos, height)`;
`pos_list` is the (sorted) input used by the `binary_search` membership
test.  Every iteration strictly decreases the sum of `peak_pos + 1 - pos`
over the queue, so the fuel chosen by the wrapper suffices. -/
def genProofLoopF (s : MMRState T) (pos_list : List ℕ) (peak_pos : ℕ) :
    ℕ → List (ℕ × ℕ) → List (ℕ × T) → RunResult (List (ℕ × T))
  | 0, _, _ => .out
  | _ + 1, [], proof => .ok proof
  | f + 1, (pos, height) :: queue, proof =>
    if pos = peak_pos then
      match queue with
      | [] => .ok proof
      | _ :: _ => genProofLoopF s pos_list peak_pos f queue proof
    else
      match (if height < pos_height_in_tree (pos + 1)
             then (pos - sibling_offset height, pos + 1)
             else (pos + sibling_offset height, pos + parent_offset height)) with
      | (sib_pos, parent_pos) =>
        match genSibStep s pos_list proof queue sib_pos height with
        | .err e => .err e
        | .out => .out
        | .ok (queue', proof') =>
          genProofLoopF s pos_list peak_pos f
            (if parent_pos < peak_pos then queue' ++ [(parent_pos, height + 1)]
             else queue') proof'

/-- `MMR::gen_proof_for_peak`. -/
def gen_proof_for_peak (s : MMRState T) (proof : List (ℕ × T))
    (pos_list : List ℕ) (peak_pos : ℕ) : RunResult (List (ℕ × T)) :=
  if pos_list = [peak_pos] then .ok proof
  else if pos_list = [] then
    match s.store.get? peak_pos with
    | some v => .ok (proof ++ [(peak_pos, v)])
    | none => .err .InconsistentStore
  else
    genProofLoopF s pos_list peak_pos ((pos_list.length + 1) * (peak_pos + 2))
      (pos_list.map fun p => (p, pos_height_in_tree p)) proof

/-- Peak iteration shared by `gen_proof` and `gen_ancestry_proof`: split
off the positions up to each peak, track the run of trailing peaks with
nothing to prove, and run the per-peak generation.  Returns the proof, the
bagging track, and the unconsumed positions. -/
def genProofPeaksGo (s : MMRState T) :
    List ℕ → List ℕ → List (ℕ × T) → ℕ → RunResult (List (ℕ × T) × ℕ × List ℕ)
  | [], posl, proof, track => .ok (proof, track, posl)
  | peak :: rest, posl, proof, track =>
    match gen_proof_for_peak s proof (posl.takeWhile fun p => p ≤ peak) peak with
    | .ok proof' =>
      genProofPeaksGo s rest (posl.dropWhile fun p => p ≤ peak) proof'
        (if posl.takeWhile (fun p => p ≤ peak) = [] then track + 1 else 0)
    | .err e => .err e
    | .out => .out

/-- Replace the last `track` proof entries (the grabbed rightmost peaks) by
a single pre-bagged entry keyed by the leftmost of their positions.  `.out`
models the panicking `rhs_peaks[0]` / `expect` on an impossible shape. -/
def bagProofTail (proof : List (ℕ × T)) (track : ℕ) : RunResult (List (ℕ × T)) :=
  match proof.drop (proof.length - track) with
  | [] => .out
  | (p0, v0) :: rtail =>
    match bag_rhs_peaks mergePeaks (v0 :: rtail.map Prod.snd) with
    | some bagged => .ok (proof.take (proof.length - track) ++ [(p0, bagged)])
    | none => .out

/-- `MMR::gen_proof`. -/
def gen_proof (s : MMRState T) (pos_list : List ℕ) : RunResult (MerkleProof T) :=
  if pos_list = [] then .err .GenProofForInvalidNodes
  else if s.mmr_size = 1 ∧ pos_list = [0] then .ok ⟨s.mmr_size, []⟩
  else
    let posl := dedupNat (sortNat pos_list)
    match genProofPeaksGo s (get_peaks s.mmr_size) posl [] 0 with
    | .err e => .err e
    | .out => .out
    | .ok (proof, track, remaining) =>
      if ¬ remaining = [] then .err .GenProofForInvalidNodes
      else
        match (if 1 < track then bagProofTail mergePeaks proof track else .ok proof) with
        | .err e => .err e
        | .out => .out
        | .ok proof' => .ok ⟨s.mmr_size, sortPairs proof'⟩

/-- `MMR::gen_ancestry_proof`. -/
def gen_ancestry_proof (s : MMRState T) (prev_mmr_size : ℕ) :
    RunResult (AncestryProof T) :=
  let pos_list := get_peaks prev_mmr_size
  if pos_list = [] then .err .GenProofForInvalidNodes
  else if s.mmr_size = 1 ∧ pos_list = [0] then
    .ok ⟨[], s.mmr_size, ⟨s.mmr_size, []⟩⟩
  else
    let posl := dedupNat (sortNat pos_list)
    match genProofPeaksGo s (get_peaks s.mmr_size) posl [] 0 with
    | .err e => .err e
    | .out => .out
    | .ok (proof, track, remaining) =>
      if ¬ remaining = [] then .err .GenProofForInvalidNodes
      else
        match (if 1 < track then bagProofTail mergePeaks proof track else .ok proof) with
        | .err e => .err e
        | .out => .out
        | .ok proof' =>
          match get_ancestor_peaks_and_root mergePeaks s prev_mmr_size with
          | .err e => .err e
          | .out => .out
          | .ok (prev_peaks, _prev_root) =>
            .ok ⟨prev_peaks, prev_mmr_size, ⟨s.mmr_size, sortPairs proof'⟩⟩

/-- Shared tail of a `calculate_peak_root` iteration: check
`parent_pos ≤ peak_pos`, then push the freshly merged parent to the front
unless it is already at the front or was recorded as a back-processed
sibling.  Returns the next queue, or the error to return. -/
def crParentStep (peak_pos : ℕ) (queue sibs : List (ℕ × T × ℕ))
    (parent_pos : ℕ) (parent_item : T) (height : ℕ) :
    (RunResult T) ⊕ (List (ℕ × T × ℕ)) :=
  if parent_pos ≤ peak_pos then
    if peak_pos = parent_pos ∨
        (¬ queue.head? = some (parent_pos, parent_item, height + 1) ∧
          ¬ (parent_pos, parent_item, height + 1) ∈ sibs) then
      .inr ((parent_pos, parent_item, height + 1) :: queue)
    else .inr queue
  else .inl (.err .CorruptedProof)

/-- One sibling-and-parent step of `calculate_peak_root` for a popped
non-peak entry `(pos, item, height)`: locate the sibling at the queue's
front or back (or rotate the entry to the back when the front is a strict
descendant of the sibling), merge, and hand the parent to `crParentStep`.
Returns either the loop's result or the next `(queue, sibs)`. -/
def crStep (merge : T → T → T) (peak_pos : ℕ) (queue sibs : List (ℕ × T × ℕ))
    (pos : ℕ) (item : T) (height : ℕ) :
    (RunResult T) ⊕ (List (ℕ × T × ℕ) × List (ℕ × T × ℕ)) :=
  if height < pos_height_in_tree (pos + 1) then
    -- `pos` is a right sibling
    match queue.head? with
    | some (fpos, fitem, _) =>
      if fpos = pos - sibling_offset height then
        match crParentStep peak_pos queue.tail sibs (pos + 1)
            (merge fitem item) height with
        | .inl r => .inl r
        | .inr q => .inr (q, sibs)
      else
        match queue.getLast? with
        | some (bpos, bitem, _) =>
          if bpos = pos - sibling_offset height then
            match crParentStep peak_pos queue.dropLast sibs (pos + 1)
                (merge bitem item) height with
            | .inl r => .inl r
            | .inr q => .inr (q, sibs)
          else if 0 < height ∧
              is_descendant_pos (pos - sibling_offset height) fpos then
            .inr (queue ++ [(pos, item, height)], sibs)
          else .inl (.err .CorruptedProof)
        | none => .inl (.err .CorruptedProof)
    | none => .inl (.err .CorruptedProof)
  else
    -- `pos` is a left sibling
    match queue.head? with
    | some (fpos, fitem, _) =>
      if fpos = pos + sibling_offset height then
        match crParentStep peak_pos queue.tail sibs (pos + parent_offset height)
            (merge item fitem) height with
        | .inl r => .inl r
        | .inr q => .inr (q, sibs)
      else
        match queue.getLast? with
        | some (bpos, bitem, _) =>
          if bpos = pos + sibling_offset height then
            match crParentStep peak_pos queue.dropLast
                (sibs ++ [(pos + sibling_offset height, bitem, height)])
                (pos + parent_offset height) (merge item bitem) height with
            | .inl r => .inl r
            | .inr q => .inr (q, sibs ++ [(pos + sibling_offset height, bitem, height)])
          else if 0 < height ∧
              is_descendant_pos (pos + sibling_offset height) fpos then
            .inr (queue ++ [(pos, item, height)], sibs)
          else .inl (.err .CorruptedProof)
        | none => .inl (.err .CorruptedProof)
    | none => .inl (.err .CorruptedProof)

/-- Queue loop of `calculate_peak_root`.  Entries are
`(pos, item, height)`; `sibs` is `sibs_processed_from_back`. -/
def calcPeakRootLoopF (merge : T → T → T) (peak_pos : ℕ) :
    ℕ → List (ℕ × T × ℕ) → List (ℕ × T × ℕ) → RunResult T
  | 0, _, _ => .out
  | _ + 1, [], _ => .err .CorruptedProof
  | f + 1, (pos, item, height) :: queue, sibs =>
    if pos = peak_pos then
      match queue with
      | [] => .ok item
      | _ :: _ =>
        if queue.any fun e => e.1 = peak_pos ∧ ¬ e.2.1 = item then
          .err .CorruptedProof
        else if queue.all fun e => e.1 = peak_pos ∧ e.2.1 = item ∧ e.2.2 = height then
          .ok item
        else calcPeakRootLoopF merge peak_pos f (queue ++ [(pos, item, height)]) sibs
    else
      match crStep merge peak_pos queue sibs pos item height with
      | .inl r => r
      | .inr (q, sb) => calcPeakRootLoopF merge peak_pos f q sb

/-- `calculate_peak_root`. -/
def calculate_peak_root (nodes : List (ℕ × T)) (peak_pos : ℕ) : RunResult T :=
  calcPeakRootLoopF merge peak_pos ((nodes.length + 2) * (nodes.length + 2) * (peak_pos + 2))
    (nodes.map fun e => (e.1, e.2, pos_height_in_tree e.1)) []

/-- Merging stage of `calculate_peaks_hashes`: chain the claimed nodes with
the proof items, stable-sort by position, and collapse consecutive entries
sharing a position. -/
def combine_nodes (nodes proof : List (ℕ × T)) : List (ℕ × T) :=
  dedupPairs (sortPairs (nodes ++ proof))

/-- Peak loop of `calculate_peaks_hashes`: returns the peak hashes and the
unconsumed nodes (the loop `break`s early when a peak gets no nodes). -/
def peaksHashesGo (merge : T → T → T) :
    List ℕ → List (ℕ × T) → List T → RunResult (List T × List (ℕ × T))
  | [], nodes, acc => .ok (acc, nodes)
  | peak :: rest, nodes, acc =>
    let cur := nodes.takeWhile fun e => e.1 ≤ peak
    let remaining := nodes.dropWhile fun e => e.1 ≤ peak
    match cur with
    | [] => .ok (acc, nodes)
    | (p, v) :: curRest =>
      if curRest = [] ∧ p = peak then peaksHashesGo merge rest remaining (acc ++ [v])
      else
        match calculate_peak_root merge ((p, v) :: curRest) peak with
        | .ok root => peaksHashesGo merge rest remaining (acc ++ [root])
        | .err e => .err e
        | .out => .out

/-- `calculate_peaks_hashes`. -/
def calculate_peaks_hashes (nodes : List (ℕ × T)) (mmr_size : ℕ)
    (proof : List (ℕ × T)) : RunResult (List T) :=
  match mmr_size, nodes with
  | 1, [(0, v)] => .ok [v]
  | mmr_size, nodes =>
    match peaksHashesGo merge (get_peaks mmr_size) (combine_nodes nodes proof) [] with
    | .ok (hashes, remaining) =>
      if ¬ remaining = [] then .err .CorruptedProof else .ok hashes
    | .err e => .err e
    | .out => .out

/-- `bagging_peaks_hashes`: the same right-to-left loop as
`bag_rhs_peaks`, with an empty input reported as `CorruptedProof`. -/
def bagging_peaks_hashes (peaks_hashes : List T) : RunResult T :=
  match bagRevF mergePeaks peaks_hashes.length peaks_hashes.reverse with
  | some root => .ok root
  | none => .err .CorruptedProof

/-- `calculate_root`. -/
def calculate_root (nodes : List (ℕ × T)) (mmr_size : ℕ)
    (proof : List (ℕ × T)) : RunResult T :=
  match calculate_peaks_hashes merge nodes mmr_size proof with
  | .ok peaks_hashes => bagging_peaks_hashes mergePeaks peaks_hashes
  | .err e => .err e
  | .out => .out

/-- `MerkleProof::calculate_root`. -/
def proof_calculate_root (pf : MerkleProof T) (nodes : List (ℕ × T)) : RunResult T :=
  calculate_root merge mergePeaks nodes pf.mmr_size pf.proof

/-- `MerkleProof::calculate_root_with_new_leaf`.  The `.out` branch models
the panicking `peaks_pos[i]` index when every new peak lies left of
`new_pos`. -/
def calculate_root_with_new_leaf (pf : MerkleProof T) (nodes : List (ℕ × T))
    (new_pos : ℕ) (new_elem : T) (new_mmr_size : ℕ) : RunResult T :=
  let pos_height := pos_height_in_tree new_pos
  let next_height := pos_height_in_tree (new_pos + 1)
  if pos_height < next_height then
    match calculate_peaks_hashes merge nodes pf.mmr_size pf.proof with
    | .err e => .err e
    | .out => .out
    | .ok peaks_hashes =>
      let peaks_pos := get_peaks new_mmr_size
      let i := (peaks_pos.takeWhile fun p => p < new_pos).length
      if i = peaks_pos.length then .out
      else
        let ph := peaks_hashes.take i ++ (peaks_hashes.drop i).reverse
        let pp := peaks_pos.take i ++ (peaks_pos.drop i).reverse
        calculate_root merge mergePeaks [(new_pos, new_elem)] new_mmr_size (pp.zip ph)
  else
    calculate_root merge mergePeaks (nodes ++ [(new_pos, new_elem)]) new_mmr_size pf.proof

/-- `MerkleProof::verify`; `nodeproofs` models the cargo feature of the
same name (`false` in the default build). -/
def verify (nodeproofs : Bool) (pf : MerkleProof T) (root : T)
    (nodes : List (ℕ × T)) : RunResult Bool :=
  if nodeproofs = false ∧ nodes.any (fun e => 0 < pos_height_in_tree e.1) then
    .err .NodeProofsNotSupported
  else
    match proof_calculate_root merge mergePeaks pf nodes with
    | .ok calculated_root => .ok (decide (calculated_root = root))
    | .err e => .err e
    | .out => .out

/-- `AncestryProof::verify_ancestor`. -/
def verify_ancestor (nodeproofs : Bool) (ap : AncestryProof T)
    (root prev_root : T) : RunResult Bool :=
  let current_leaves_count := get_peak_map ap.proof.mmr_size
  if current_leaves_count ≤ ap.prev_peaks.length then .err .CorruptedProof
  else
    let prev_peaks_positions := get_peaks ap.prev_size
    if ¬ prev_peaks_positions.length = ap.prev_peaks.length then .err .CorruptedProof
    else
      match bagging_peaks_hashes mergePeaks ap.prev_peaks with
      | .err e => .err e
      | .out => .out
      | .ok calculated_prev_root =>
        if ¬ calculated_prev_root = prev_root then .ok false
        else
          let nodes := (ap.prev_peaks.zip prev_peaks_positions).map fun e => (e.2, e.1)
          verify merge mergePeaks nodeproofs ap.proof root nodes

/-- Push a whole sequence of leaves starting from a state. -/
def pushAll (s : MMRState T) : List T → RunResult (MMRState T)
  | [] => .ok s
  | x :: xs =>
    match push merge s x with
    | .ok (_, s') => pushAll s' xs
    | .err e => .err e
    | .out => .out

end Core

/-! ## Spec-side definitions used to state the claims -/

/-- Right-to-left bagging fold as the spec words it: the rightmost peak is
combined with its left neighbour by `merge_peaks(right, left)`, and the
running result keeps absorbing the next peak to the left. -/
def specBag {T : Type} (mergePeaks : T → T → T) (l : List T) : Option T :=
  match l.reverse with
  | [] => none
  | x :: xs => some (xs.foldl mergePeaks x)

/-- Keep each entry of a list iff it is the first entry carrying its
position, regardless of the items; the spec-side description of a
dedup-by-position that keeps first occurrences. -/
def keepFirstByPos {T : Type} : List (ℕ × T) → List (ℕ × T)
  | [] => []
  | x :: rest => x :: keepFirstByPos (rest.filter fun y => ¬ y.1 = x.1)
termination_by l => l.length
decreasing_by
  simp only [List.length_cons]
  exact Nat.lt_succ_of_le (List.length_filter_le _ _)

/-- Fuelled count of consecutive set bits from bit 0. -/
def trailingOnesF : ℕ → ℕ → ℕ
  | 0, _ => 0
  | f + 1, n => if n % 2 = 1 then trailingOnesF f (n / 2) + 1 else 0

/-- Number of consecutive set bits of `n` starting at bit 0. -/
def trailing_ones (n : ℕ) : ℕ := trailingOnesF (n + 1) n

/-- The cursor value reached by the carry loop of `push` as the spec words
it: the returned position advanced once per set bit consumed from the peak
bitmap of the old size. -/
def spec_cursor (n : ℕ) : ℕ := n + trailing_ones (get_peak_map n)

/-- Store length matches the recorded size: every position below
`mmr_size` is persisted and nothing beyond is. -/
def store_complete {T : Type} (s : MMRState T) : Prop :=
  s.store.length = s.mmr_size

/-- Ordering of `(position, item)` pairs by position. -/
def keyLE {T : Type} (a b : ℕ × T) : Prop := a.1 ≤ b.1

/-- Total of `peak_pos + 1 - pos` over a proof-generation queue; it
strictly decreases along every iteration of `genProofLoopF`, bounding the
iteration count. -/
def queueMeasure (peak_pos : ℕ) (queue : List (ℕ × ℕ)) : ℕ :=
  (queue.map fun e => peak_pos + 1 - e.1).sum

/-- Layout of a peak list: `PeaksFrom lo rem peaks` says `peaks` are the
roots of successive perfect subtrees tiling positions `[lo, lo + rem)`,
each later forest fitting strictly inside the first tree's size, and with
every height in the span agreeing with the height of its local coordinate. -/
inductive PeaksFrom : ℕ → ℕ → List ℕ → Prop where
  | nil : ∀ lo, PeaksFrom lo 0 []
  | cons : ∀ lo k rem' rest,
      rem' ≤ 2 ^ (k + 1) - 2 →
      (∀ q, q < 2 ^ (k + 1) - 1 + rem' →
        pos_height_in_tree (lo + q) = pos_height_in_tree q) →
      PeaksFrom (lo + (2 ^ (k + 1) - 1)) rem' rest →
      PeaksFrom lo (2 ^ (k + 1) - 1 + rem') ((lo + (2 ^ (k + 1) - 2)) :: rest)

/-- Fuelled greedy peak list of a leaf count: the root of the highest-bit
perfect tree followed by the shifted peaks of the remaining leaves. -/
def peaksListF : ℕ → ℕ → List ℕ
  | 0, _ => []
  | f + 1, L =>
    if L = 0 then []
    else (2 ^ bitlen L - 2) ::
      (peaksListF f (L - 2 ^ (bitlen L - 1))).map (· + (2 ^ bitlen L - 1))

/-- Greedy peak list of a leaf count. -/
def peaksList (L : ℕ) : List ℕ := peaksListF L L

/-- The two-leaf example MMR over the free magma: leaves at positions 0
and 1, their merge at position 2. -/
def exTwo : MMRState Tree :=
  ⟨3, [Tree.leaf 0, Tree.leaf 1, Tree.node (Tree.leaf 0) (Tree.leaf 1)]⟩

/-! ## Subtree covers and the verifier state space (for the round-trip
correctness of `gen_proof` and `verify`) -/

/-- `inSpan q p`: position `p` lies in the perfect subtree rooted at
position `q` (whose height is `pos_height_in_tree q`); the subtree spans
positions `[q - (2^(h+1) - 2), q]`.  This is the positional test behind
`is_descendant_pos`. -/
def inSpan (q p : ℕ) : Prop :=
  p ≤ q ∧ q + 2 ≤ p + 2 ^ (pos_height_in_tree q + 1)

instance (q p : ℕ) : Decidable (inSpan q p) :=
  inferInstanceAs (Decidable (p ≤ q ∧ q + 2 ≤ p + 2 ^ (pos_height_in_tree q + 1)))

/-- `SpanCover lo k ps`: `ps` lists, in ascending position order, the
roots of pairwise disjoint perfect subtrees that exactly tile the perfect
subtree of height `k` spanning positions `[lo, lo + 2^(k+1) - 2]`: either
the subtree's own root, or a cover of the left half followed by a cover of
the right half. -/
inductive SpanCover : ℕ → ℕ → List ℕ → Prop where
  | root : ∀ lo k, SpanCover lo k [lo + (2 ^ (k + 1) - 2)]
  | split : ∀ lo k lps rps,
      SpanCover lo k lps →
      SpanCover (lo + (2 ^ (k + 1) - 1)) k rps →
      SpanCover lo (k + 1) (lps ++ rps)

/-- The cover determined by a set of requested positions: split a subtree
exactly while its span contains a requested position.  The members are the
requested leaves together with the whole sibling subtrees hung off their
ascending paths — the shape of `gen_proof`'s per-peak output. -/
def coverOf (S : List ℕ) : ℕ → ℕ → List ℕ
  | lo, 0 => [lo]
  | lo, k + 1 =>
    if S.any fun p => lo ≤ p ∧ p ≤ lo + (2 ^ (k + 2) - 2) then
      coverOf S lo k ++ coverOf S (lo + (2 ^ (k + 1) - 1)) k
    else [lo + (2 ^ (k + 2) - 2)]

/-- Verifier queue entries for a list of positions: each position carries
its item (through an assignment `f`) and its height, as built by
`calculate_peak_root`. -/
def toEntries {T : Type} (f : ℕ → T) (ps : List ℕ) : List (ℕ × T × ℕ) :=
  ps.map fun p => (p, f p, pos_height_in_tree p)

/-- A Merkle-consistent item assignment on positions below `n`: every
internal position holds the merge of its two children (left child at
`p - 2^height`, right child at `p - 1`).  This is the structural law of a
store built by `push`. -/
def merkle_store {T : Type} (merge : T → T → T) (f : ℕ → T) (n : ℕ) : Prop :=
  ∀ p, p < n → 0 < pos_height_in_tree p →
    f p = merge (f (p - 2 ^ pos_height_in_tree p)) (f (p - 1))

/-- Reachable queue shapes of `calculate_peak_root` on an honest cover of
the subtree of height `k` at `lo`: the queue is `B ++ A` where `A` stacks
the whole left-sibling roots already rotated to the back (shallowest
first) and `B` holds the still-unmerged cover material.  `fresh` is an
untouched cover; `left` descends into the left half leaving the right
half's cover queued behind; `right` descends into the right half with the
completed left root rotated into `A`. -/
inductive VState : ℕ → ℕ → List ℕ → List ℕ → Prop where
  | fresh : ∀ lo k C, SpanCover lo k C → VState lo k C []
  | left : ∀ lo k B A Cr,
      VState lo k B A →
      SpanCover (lo + (2 ^ (k + 1) - 1)) k Cr →
      VState lo (k + 1) (B ++ Cr) A
  | right : ∀ lo k B A,
      VState (lo + (2 ^ (k + 1) - 1)) k B A →
      VState lo (k + 1) B ((lo + (2 ^ (k + 1) - 2)) :: A)

/-! # Theorems -/

/-! ## Fuel elimination for the fuelled helpers -/

theorem size_div_two_succ {n : ℕ} (h : n ≠ 0) : Nat.size n = Nat.size (n / 2) + 1 := by
  apply le_antisymm
  · rw [Nat.size_le]
    have h1 : n / 2 < 2 ^ Nat.size (n / 2) := Nat.lt_size_self _
    calc n < 2 * (n / 2) + 2 := by omega
    _ ≤ 2 * 2 ^ Nat.size (n / 2) := by omega
    _ = 2 ^ (Nat.size (n / 2) + 1) := by ring
  · have : Nat.size (n / 2) < Nat.size n := by
      rw [Nat.lt_size]
      rcases Nat.lt_or_ge n 2 with h2 | h2
      · interval_cases n
        · exact absurd rfl h
        · simp [Nat.size_zero]
      · have hd : 1 ≤ n / 2 := by omega
        have : 0 < Nat.size (n / 2) := Nat.size_pos.2 (by omega)
        have h3 : 2 ^ (Nat.size (n / 2) - 1) ≤ n / 2 := by
          rw [← Nat.lt_size]; omega
        calc 2 ^ Nat.size (n / 2) = 2 * 2 ^ (Nat.size (n / 2) - 1) := by
              rw [← pow_succ']
              congr 1
              omega
        _ ≤ 2 * (n / 2) := by omega
        _ ≤ n := by omega
    omega

theorem bitlenF_eq_size : ∀ f n : ℕ, n ≤ f → bitlenF f n = Nat.size n := by
  intro f
  induction f with
  | zero => intro n h; interval_cases n; simp [bitlenF, Nat.size_zero]
  | succ f ih =>
    intro n h
    rw [bitlenF]
    split
    · simp_all [Nat.size_zero]
    · rename_i hn
      rw [ih (n / 2) (by omega), ← size_div_two_succ hn]

theorem bitlen_eq_size (n : ℕ) : bitlen n = Nat.size n :=
  bitlenF_eq_size n n le_rfl

theorem bitlen_pos {n : ℕ} (h : 0 < n) : 0 < bitlen n := by
  rw [bitlen_eq_size]; exact Nat.size_pos.2 h

theorem bitlen_lower {n : ℕ} (h : 0 < n) : 2 ^ (bitlen n - 1) ≤ n := by
  rw [bitlen_eq_size, ← Nat.lt_size]
  have := Nat.size_pos.2 h
  omega

theorem bitlen_upper (n : ℕ) : n < 2 ^ bitlen n := by
  rw [bitlen_eq_size]; exact Nat.lt_size_self n

/-- The number with binary digit count: `bitlen n = k+1` iff `2^k ≤ n < 2^(k+1)`. -/
theorem bitlen_eq_iff {n k : ℕ} : bitlen n = k + 1 ↔ 2 ^ k ≤ n ∧ n < 2 ^ (k + 1) := by
  rw [bitlen_eq_size]
  constructor
  · intro h
    refine ⟨?_, ?_⟩
    · rw [← Nat.lt_size]; omega
    · rw [← h]; exact Nat.lt_size_self n
  · rintro ⟨h1, h2⟩
    have ha : Nat.size n ≤ k + 1 := Nat.size_le.2 h2
    have hb : k < Nat.size n := Nat.lt_size.2 h1
    omega

theorem heightJumpF_congr : ∀ f f' x : ℕ, x ≤ f → x ≤ f' →
    heightJumpF f x = heightJumpF f' x := by
  intro f
  induction f with
  | zero =>
    intro f' x h h'
    interval_cases x
    cases f' with
    | zero => rfl
    | succ f' =>
      rw [heightJumpF, heightJumpF]
      norm_num [bitlen, bitlenF]
  | succ f ih =>
    intro f' x h h'
    cases f' with
    | zero =>
      interval_cases x
      rw [heightJumpF, heightJumpF]
      norm_num [bitlen, bitlenF]
    | succ f' =>
      rw [heightJumpF, heightJumpF]
      split
      · rfl
      · rename_i hno
        have hx2 : 2 ≤ x := by
          by_contra hlt
          interval_cases x
          · exact hno (by norm_num [bitlen, bitlenF])
          · exact hno (by norm_num [bitlen, bitlenF])
        have hbl : 2 ≤ bitlen x := by
          have := bitlen_eq_iff (n := x) (k := 0)
          have hp := bitlen_pos (n := x) (by omega)
          by_contra hc
          have : bitlen x = 1 := by omega
          rw [bitlen_eq_iff] at this
          omega
        have hsub : 1 ≤ 2 ^ (bitlen x - 1) - 1 := by
          have : 2 ^ 1 ≤ 2 ^ (bitlen x - 1) := Nat.pow_le_pow_right (by norm_num) (by omega)
          omega
        exact ih f' (x - (2 ^ (bitlen x - 1) - 1)) (by omega) (by omega)

/-- Evaluate one jump of the height computation when the 1-based position
is not all-ones. -/
theorem pos_height_jump {pos : ℕ}
    (h : pos + 2 ≠ 2 ^ bitlen (pos + 1)) :
    pos_height_in_tree pos =
      heightJumpF (pos + 1) (pos + 1 - (2 ^ (bitlen (pos + 1) - 1) - 1)) := by
  rw [pos_height_in_tree, heightJumpF]
  simp only [h, if_false]
  have hx2 : 2 ≤ pos + 1 := by
    by_contra hlt
    have : pos = 0 := by omega
    subst this
    exact h (by norm_num [bitlen, bitlenF])
  have hbl : 2 ≤ bitlen (pos + 1) := by
    by_contra hc
    have h1 : bitlen (pos + 1) = 1 := by
      have := bitlen_pos (n := pos + 1) (by omega)
      omega
    rw [bitlen_eq_iff] at h1
    omega
  have hsub : 1 ≤ 2 ^ (bitlen (pos + 1) - 1) - 1 := by
    have : 2 ^ 1 ≤ 2 ^ (bitlen (pos + 1) - 1) := Nat.pow_le_pow_right (by norm_num) (by omega)
    omega
  exact heightJumpF_congr _ _ _ (by omega) (by omega)

/-- Value of the height computation on an all-ones 1-based position. -/
theorem pos_height_all_ones {pos : ℕ}
    (h : pos + 2 = 2 ^ bitlen (pos + 1)) :
    pos_height_in_tree pos = bitlen (pos + 1) - 1 := by
  rw [pos_height_in_tree, heightJumpF]
  simp [h]

theorem popcountF_congr : ∀ f f' n : ℕ, n ≤ f → n ≤ f' →
    popcountF f n = popcountF f' n := by
  intro f
  induction f with
  | zero =>
    intro f' n h h'
    interval_cases n
    cases f' with
    | zero => rfl
    | succ f' => simp [popcountF]
  | succ f ih =>
    intro f' n h h'
    cases f' with
    | zero => interval_cases n; simp [popcountF]
    | succ f' =>
      rw [popcountF, popcountF]
      split
      · rfl
      · rename_i hn
        rw [ih f' (n / 2) (by omega) (by omega)]

theorem popcount_rec {n : ℕ} (h : n ≠ 0) : popcount n = n % 2 + popcount (n / 2) := by
  obtain ⟨m, rfl⟩ : ∃ m, n = m + 1 := ⟨n - 1, by omega⟩
  rw [popcount, popcount]
  rw [show popcountF (m + 1) (m + 1) =
        if m + 1 = 0 then 0 else (m + 1) % 2 + popcountF m ((m + 1) / 2) from rfl]
  rw [if_neg h, popcountF_congr m ((m + 1) / 2) ((m + 1) / 2) (by omega) le_rfl]

theorem popcount_zero : popcount 0 = 0 := rfl

theorem bagRevF_eq_fold {T : Type} (mergePeaks : T → T → T) :
    ∀ (f : ℕ) (l : List T), l.length ≤ f + 1 →
      bagRevF mergePeaks f l =
        (match l with
          | [] => none
          | x :: xs => some (xs.foldl mergePeaks x)) := by
  intro f
  induction f with
  | zero =>
    intro l h
    match l with
    | [] => rfl
    | [x] => rfl
    | x :: y :: rest => simp at h
  | succ f ih =>
    intro l h
    match l with
    | [] => rfl
    | [x] => rfl
    | r :: l :: rest =>
      rw [bagRevF, ih (mergePeaks r l :: rest) (by simp at h ⊢; omega)]
      simp

/-- The bagging loop is the right-to-left fold the spec describes. -/
theorem bag_rhs_peaks_eq_specBag {T : Type} (mergePeaks : T → T → T) (l : List T) :
    bag_rhs_peaks mergePeaks l = specBag mergePeaks l := by
  rw [bag_rhs_peaks, specBag,
    bagRevF_eq_fold mergePeaks l.length l.reverse (by simp)]

theorem bagging_eq_bag {T : Type} (mergePeaks : T → T → T) (l : List T) :
    bagging_peaks_hashes mergePeaks l =
      (match bag_rhs_peaks mergePeaks l with
        | some r => .ok r
        | none => .err .CorruptedProof) := by
  rw [bagging_peaks_hashes, bag_rhs_peaks]

theorem getElems_eq_filterMap {T : Type} (s : MMRState T) :
    ∀ ps : List ℕ, (∀ p ∈ ps, (s.store.get? p).isSome) →
      getElems s ps = .ok (ps.filterMap s.store.get?) := by
  intro ps
  induction ps with
  | nil => intro _; rfl
  | cons p ps ih =>
    intro h
    have hp := h p (by simp)
    rw [getElems]
    match hget : s.store.get? p with
    | none => rw [hget] at hp; simp at hp
    | some v =>
      rw [ih fun q hq => h q (by simp [hq])]
      have hget' : s.store[p]? = some v := by
        rw [← List.get?_eq_getElem?]; exact hget
      simp [List.filterMap_cons, hget']

/-! ## C3: bagging is the right-to-left fold, shared by prover and verifier -/

/-- Claim C3: for an MMR of size at least 2 whose peak positions are
persisted, `get_root` returns the right-to-left `merge_peaks` fold of the
peak items, and the verifier-side `bagging_peaks_hashes` computes exactly
the same fold as the prover-side `bag_rhs_peaks` on every list of peak
items (an empty list yielding `CorruptedProof`). -/
theorem c3_bagging_fold {T : Type} [DecidableEq T] (mergePeaks : T → T → T)
    (s : MMRState T) (l : List T)
    (h2 : 2 ≤ s.mmr_size)
    (hc : ∀ p ∈ get_peaks s.mmr_size, (s.store.get? p).isSome) :
    get_root mergePeaks s =
      (match specBag mergePeaks ((get_peaks s.mmr_size).filterMap s.store.get?) with
        | some r => .ok r
        | none => .err .InconsistentStore) ∧
    bag_rhs_peaks mergePeaks l = specBag mergePeaks l ∧
    bagging_peaks_hashes mergePeaks l =
      (match specBag mergePeaks l with
        | some r => .ok r
        | none => .err .CorruptedProof) := by
  refine ⟨?_, bag_rhs_peaks_eq_specBag mergePeaks l, ?_⟩
  · rw [get_root]
    have h0 : ¬ s.mmr_size = 0 := by omega
    have h1 : ¬ s.mmr_size = 1 := by omega
    simp only [h0, h1, if_false]
    rw [getElems_eq_filterMap s _ hc]
    dsimp only
    rw [bag_rhs_peaks_eq_specBag]
  · rw [bagging_eq_bag, bag_rhs_peaks_eq_specBag]

/-- Witness for C3 on the two-leaf MMR and a two-element peak list. -/
theorem c3_bagging_fold_witness :
    (2 ≤ exTwo.mmr_size ∧ ∀ p ∈ get_peaks exTwo.mmr_size, ((exTwo.store.get? p).isSome : Prop)) ∧
    (get_root Tree.node exTwo =
      (match specBag Tree.node ((get_peaks exTwo.mmr_size).filterMap exTwo.store.get?) with
        | some r => .ok r
        | none => .err .InconsistentStore) ∧
    bag_rhs_peaks Tree.node [Tree.leaf 7, Tree.leaf 8] =
      specBag Tree.node [Tree.leaf 7, Tree.leaf 8] ∧
    bagging_peaks_hashes Tree.node [Tree.leaf 7, Tree.leaf 8] =
      (match specBag Tree.node [Tree.leaf 7, Tree.leaf 8] with
        | some r => .ok r
        | none => .err .CorruptedProof)) :=
  ⟨⟨by decide, by decide⟩,
    c3_bagging_fold Tree.node exTwo [Tree.leaf 7, Tree.leaf 8] (by decide) (by decide)⟩

/-! ## C8: leaf-only verifier rejects internal claimed nodes -/

/-- Claim C8: with node-proof mode disabled (the default build), `verify`
returns `Err(NodeProofsNotSupported)` whenever the claimed nodes contain a
position of height greater than 0, whatever the proof, the root and the
other nodes are — the rejection precedes any root computation. -/
theorem c8_nodeproofs_rejected {T : Type} [DecidableEq T]
    (merge mergePeaks : T → T → T) (pf : MerkleProof T) (root : T)
    (nodes : List (ℕ × T))
    (h : ∃ e ∈ nodes, 0 < pos_height_in_tree e.1) :
    verify merge mergePeaks false pf root nodes = .err .NodeProofsNotSupported := by
  rw [verify, if_pos]
  refine ⟨rfl, ?_⟩
  rcases h with ⟨e, he, hh⟩
  exact List.any_eq_true.2 ⟨e, he, by simpa using hh⟩

/-- Witness for C8: claiming the internal node at position 2 is rejected. -/
theorem c8_nodeproofs_rejected_witness :
    (∃ e ∈ [((2 : ℕ), Tree.leaf 0)], 0 < pos_height_in_tree e.1) ∧
    verify Tree.node Tree.node false ⟨3, []⟩ (Tree.leaf 5) [(2, Tree.leaf 0)] =
      .err .NodeProofsNotSupported :=
  ⟨⟨(2, Tree.leaf 0), by decide, by decide⟩,
    c8_nodeproofs_rejected Tree.node Tree.node ⟨3, []⟩ (Tree.leaf 5) _
      ⟨(2, Tree.leaf 0), by decide, by decide⟩⟩

/-! ## C10: a single-leaf MMR's own ancestry proof never verifies -/

/-- Claim C10: on any MMR of size 1, `gen_ancestry_proof(1)` succeeds and
returns an `AncestryProof` with empty `prev_peaks` and `prev_size` equal to
the current size 1, and `verify_ancestor` on that proof returns
`Err(CorruptedProof)` for every pair of roots and either feature mode
(`get_peaks(1)` has length 1, never matching the empty `prev_peaks`). -/
theorem c10_single_leaf_ancestry {T : Type} [DecidableEq T]
    (merge mergePeaks : T → T → T) (store : List T) (nodeproofs : Bool)
    (root prev_root : T) :
    gen_ancestry_proof mergePeaks ⟨1, store⟩ 1 = .ok ⟨[], 1, ⟨1, []⟩⟩ ∧
    verify_ancestor merge mergePeaks nodeproofs ⟨[], 1, ⟨1, []⟩⟩ root prev_root =
      .err .CorruptedProof := by
  constructor
  · rfl
  · rfl

/-! ## C5: duplicate positions in `calculate_root` -/

/-- Counterexample to claim C5: two claimed entries share position 0 with
unequal items, yet `calculate_root` does not fail with `CorruptedProof`; the
second entry is silently dropped and the root computes from the first. -/
theorem c5_counterexample :
    calculate_root Tree.node Tree.node
        [(0, Tree.leaf 1), (0, Tree.leaf 2)] 3 [(1, Tree.leaf 5)] =
      .ok (Tree.node (Tree.leaf 1) (Tree.leaf 5)) ∧
    calculate_root Tree.node Tree.node
        [(0, Tree.leaf 1), (0, Tree.leaf 2)] 3 [(1, Tree.leaf 5)] ≠
      .err .CorruptedProof := by
  constructor
  · rfl
  · decide

theorem insPair_mem {T : Type} (x : ℕ × T) :
    ∀ (l : List (ℕ × T)) (a : ℕ × T), a ∈ insPair x l → a = x ∨ a ∈ l := by
  intro l
  induction l with
  | nil => intro a ha; simpa [insPair] using ha
  | cons y rest ih =>
    intro a ha
    rw [insPair] at ha
    split at ha
    · rw [List.mem_cons] at ha
      rcases ha with rfl | ha
      · right; simp
      · rcases ih a ha with h | h
        · left; exact h
        · right; simp [h]
    · rw [List.mem_cons] at ha
      rcases ha with rfl | ha
      · left; rfl
      · right; exact ha

theorem insPair_sorted {T : Type} (x : ℕ × T) :
    ∀ l : List (ℕ × T), List.Sorted keyLE l → List.Sorted keyLE (insPair x l) := by
  intro l
  induction l with
  | nil => intro _; simp [insPair, List.sorted_singleton]
  | cons y rest ih =>
    intro hs
    rw [List.sorted_cons] at hs
    rw [insPair]
    split
    · rename_i hyx
      rw [List.sorted_cons]
      refine ⟨?_, ih hs.2⟩
      intro b hb
      rcases insPair_mem x rest b hb with h | h
      · subst h; exact le_of_lt hyx
      · exact hs.1 b h
    · rename_i hyx
      rw [List.sorted_cons]
      refine ⟨?_, List.sorted_cons.2 hs⟩
      intro b hb
      rw [List.mem_cons] at hb
      rcases hb with rfl | hb
      · exact Nat.le_of_not_lt hyx
      · exact le_trans (Nat.le_of_not_lt hyx) (hs.1 b hb)

theorem sortPairs_sorted {T : Type} :
    ∀ l : List (ℕ × T), List.Sorted keyLE (sortPairs l) := by
  intro l
  induction l with
  | nil => simp [sortPairs]
  | cons x rest ih => exact insPair_sorted x _ ih

theorem dedupRun_eq_keepFirst {T : Type} [DecidableEq T] :
    ∀ (rest : List (ℕ × T)) (x : ℕ × T), List.Sorted keyLE (x :: rest) →
      dedupPairRun x rest = keepFirstByPos (x :: rest) := by
  intro rest
  induction rest with
  | nil => intro x _; simp [dedupPairRun, keepFirstByPos]
  | cons y rest' ih =>
    intro x hs
    rw [dedupPairRun]
    split
    · rename_i hxy
      have hs' : List.Sorted keyLE (x :: rest') := by
        rw [List.sorted_cons] at hs ⊢
        exact ⟨fun b hb => hs.1 b (by simp [hb]), (List.sorted_cons.1 hs.2).2⟩
      rw [ih x hs']
      rw [keepFirstByPos, keepFirstByPos]
      congr 2
      simp only [List.filter_cons]
      rw [if_neg (by simp [hxy])]
    · rename_i hxy
      have hyrest : ∀ b ∈ rest', y.1 ≤ b.1 := by
        intro b hb
        exact (List.sorted_cons.1 (List.sorted_cons.1 hs).2).1 b hb
      have hxy' : x.1 < y.1 := by
        have := (List.sorted_cons.1 hs).1 y (by simp)
        rcases Nat.lt_or_ge x.1 y.1 with h | h
        · exact h
        · exact absurd (le_antisymm this h) hxy
      rw [keepFirstByPos]
      rw [ih y (List.sorted_cons.1 hs).2]
      congr 1
      have hne : ∀ b ∈ y :: rest', ¬ b.1 = x.1 := by
        intro b hb
        rw [List.mem_cons] at hb
        rcases hb with rfl | hb
        · omega
        · have := hyrest b hb; omega
      rw [List.filter_eq_self.2 (by intro b hb; simpa using hne b hb)]

/-- On a position-sorted list, itertools-style consecutive dedup by
position equals keeping the first entry of every position. -/
theorem dedupPairs_sorted_eq_keepFirst {T : Type} [DecidableEq T]
    (l : List (ℕ × T)) (h : List.Sorted keyLE l) :
    dedupPairs l = keepFirstByPos l := by
  match l with
  | [] => simp [dedupPairs, keepFirstByPos]
  | x :: rest => exact dedupRun_eq_keepFirst rest x h

/-- Claim C5 as amended: the merging stage of `calculate_root` chains the
claimed nodes with the proof items, stable-sorts by position and dedupes by
position keeping the first entry of each position — equal duplicates
collapse to one, and duplicates carrying unequal items also collapse to the
first occurrence; no `CorruptedProof` arises from the dedup itself. -/
theorem c5_amended_dedup_keeps_first {T : Type} [DecidableEq T]
    (nodes proof : List (ℕ × T)) :
    combine_nodes nodes proof = keepFirstByPos (sortPairs (nodes ++ proof)) := by
  rw [combine_nodes, dedupPairs_sorted_eq_keepFirst _ (sortPairs_sorted _)]

/-! ## C6: `calculate_root_with_new_leaf` disagrees with `push` + `get_root` -/

/-- Claim C6 fails on the code: push one leaf, generate the (empty) proof
for it, push a second leaf; `calculate_root_with_new_leaf` then returns
`Err(CorruptedProof)` although `push` + `get_root` give the extended root.
This is the scenario of the crate's own `test_gen_root_from_proof` tests
(any odd starting leaf count takes the same broken branch). -/
theorem c6_new_leaf_code_bug :
    pushAll Tree.node ⟨0, []⟩ [Tree.leaf 0, Tree.leaf 1] =
      .ok ⟨3, [Tree.leaf 0, Tree.leaf 1, Tree.node (Tree.leaf 0) (Tree.leaf 1)]⟩ ∧
    get_root Tree.node ⟨3, [Tree.leaf 0, Tree.leaf 1, Tree.node (Tree.leaf 0) (Tree.leaf 1)]⟩ =
      .ok (Tree.node (Tree.leaf 0) (Tree.leaf 1)) ∧
    gen_proof Tree.node ⟨1, [Tree.leaf 0]⟩ [0] = .ok ⟨1, []⟩ ∧
    calculate_root_with_new_leaf Tree.node Tree.node ⟨1, []⟩
        [(0, Tree.leaf 0)] 1 (Tree.leaf 1) 3 = .err .CorruptedProof := by
  refine ⟨rfl, rfl, rfl, rfl⟩

/-! ## C9: ancestry calls with `prev_mmr_size > mmr_size` -/

/-- Counterexample to claim C9: on the two-leaf MMR (size 3) with
`prev_mmr_size = 4 > 3`, `gen_ancestry_proof` fails, but with
`Err(GenProofForInvalidNodes)` — not `Err(AncestorRootNotPredecessor)` as
the claim states for every ancestry call. -/
theorem c9_counterexample :
    gen_ancestry_proof Tree.node exTwo 4 = .err .GenProofForInvalidNodes ∧
    gen_ancestry_proof Tree.node exTwo 4 ≠ .err .AncestorRootNotPredecessor := by
  constructor
  · rfl
  · decide

/-! ## Arithmetic of leaf counts, sizes and heights -/

theorem popcount_le_self : ∀ n : ℕ, popcount n ≤ n := by
  intro n
  induction n using Nat.strong_induction_on with
  | _ n ih =>
    rcases Nat.eq_zero_or_pos n with rfl | hn
    · simp [popcount_zero]
    · rw [popcount_rec (by omega)]
      have := ih (n / 2) (by omega)
      omega

theorem popcount_pos {n : ℕ} (h : 0 < n) : 0 < popcount n := by
  induction n using Nat.strong_induction_on with
  | _ n ih =>
    rw [popcount_rec (by omega)]
    rcases Nat.even_or_odd n with he | ho
    · have h2 : n % 2 = 0 := Nat.even_iff.1 he
      have := ih (n / 2) (by omega) (by omega)
      omega
    · have h2 : n % 2 = 1 := Nat.odd_iff.1 ho
      omega

theorem popcount_two_pow_add : ∀ k r : ℕ, r < 2 ^ k →
    popcount (2 ^ k + r) = 1 + popcount r := by
  intro k
  induction k with
  | zero =>
    intro r hr
    interval_cases r
    simp [popcount_zero]
    decide
  | succ k ih =>
    intro r hr
    have hpow : 2 ^ (k + 1) = 2 * 2 ^ k := by ring
    have hne : 2 ^ (k + 1) + r ≠ 0 := by positivity
    rw [popcount_rec hne, hpow]
    have hmod : (2 * 2 ^ k + r) % 2 = r % 2 := by omega
    have hdiv : (2 * 2 ^ k + r) / 2 = 2 ^ k + r / 2 := by omega
    rw [hmod, hdiv, ih (r / 2) (by omega)]
    rcases Nat.eq_zero_or_pos r with rfl | hr0
    · simp [popcount_zero]
    · have hb := popcount_rec (n := r) (by omega)
      omega

theorem popcount_succ_le : ∀ n : ℕ, popcount (n + 1) ≤ popcount n + 1 := by
  intro n
  induction n using Nat.strong_induction_on with
  | _ n ih =>
    rcases Nat.eq_zero_or_pos n with rfl | hn
    · decide
    rcases Nat.even_or_odd n with he | ho
    · have h2 : n % 2 = 0 := Nat.even_iff.1 he
      have ha : popcount (n + 1) = 1 + popcount (n / 2) := by
        rw [popcount_rec (n := n + 1) (by omega)]
        have hm : (n + 1) % 2 = 1 := by omega
        have hd : (n + 1) / 2 = n / 2 := by omega
        rw [hm, hd]
      have hb := popcount_rec (n := n) (by omega)
      omega
    · have h2 : n % 2 = 1 := Nat.odd_iff.1 ho
      have ha : popcount (n + 1) = popcount (n / 2 + 1) := by
        rw [popcount_rec (n := n + 1) (by omega)]
        have hm : (n + 1) % 2 = 0 := by omega
        have hd : (n + 1) / 2 = n / 2 + 1 := by omega
        rw [hm, hd]
        omega
      have h5 := ih (n / 2) (by omega)
      have hb := popcount_rec (n := n) (by omega)
      omega

theorem size_of_leaf_count_ge (L : ℕ) : L ≤ mmr_size_of_leaf_count L := by
  have := popcount_le_self L
  rw [mmr_size_of_leaf_count]
  omega

theorem size_of_leaf_count_le (L : ℕ) (h : 0 < L) :
    mmr_size_of_leaf_count L ≤ 2 * L - 1 := by
  have := popcount_pos h
  rw [mmr_size_of_leaf_count]
  omega

theorem size_of_leaf_count_strictMono : StrictMono mmr_size_of_leaf_count := by
  apply strictMono_nat_of_lt_succ
  intro L
  have h1 := popcount_succ_le L
  have h2 := popcount_le_self L
  have h3 := popcount_le_self (L + 1)
  rw [mmr_size_of_leaf_count, mmr_size_of_leaf_count]
  omega

theorem bitlen_two_pow_add {k r : ℕ} (hr : r < 2 ^ k) :
    bitlen (2 ^ k + r) = k + 1 := by
  rw [bitlen_eq_iff]
  constructor
  · omega
  · have : 2 ^ (k + 1) = 2 * 2 ^ k := by ring
    omega

/-- Greedy decomposition of a leaf count along its highest bit, at the
level of MMR sizes. -/
theorem size_of_leaf_count_decomp {L : ℕ} (h : 0 < L) :
    mmr_size_of_leaf_count L =
      (2 ^ bitlen L - 1) + mmr_size_of_leaf_count (L - 2 ^ (bitlen L - 1)) := by
  obtain ⟨k, hbk⟩ : ∃ k, bitlen L = k + 1 :=
    ⟨bitlen L - 1, by have := bitlen_pos h; omega⟩
  rw [hbk]
  rw [show (2 : ℕ) ^ (k + 1 - 1) = 2 ^ k by congr 1]
  have hlow : 2 ^ k ≤ L := by
    have := bitlen_lower h; rw [hbk] at this; simpa using this
  have hup : L < 2 ^ (k + 1) := by
    have := bitlen_upper L; rwa [hbk] at this
  have h2 : 2 ^ (k + 1) = 2 * 2 ^ k := by ring
  have hrk : L - 2 ^ k < 2 ^ k := by omega
  have hpc : popcount L = 1 + popcount (L - 2 ^ k) := by
    have hL : L = 2 ^ k + (L - 2 ^ k) := by omega
    calc popcount L = popcount (2 ^ k + (L - 2 ^ k)) := by rw [← hL]
    _ = 1 + popcount (L - 2 ^ k) := popcount_two_pow_add k _ hrk
  have hpcr := popcount_le_self (L - 2 ^ k)
  rw [mmr_size_of_leaf_count, mmr_size_of_leaf_count, hpc]
  omega

/-- Translation of heights across a leading perfect subtree: positions
strictly inside the forest layout after the size-`2^(k+1) - 1` tree have
the height of their local coordinate. -/
theorem height_shift (k q : ℕ) (hq : q + 1 ≤ 2 ^ (k + 1) - 1) :
    pos_height_in_tree ((2 ^ (k + 1) - 1) + q) = pos_height_in_tree q := by
  set c := 2 ^ (k + 1) - 1 with hc
  have hc1 : 2 ^ (k + 1) = c + 1 := by
    have : 1 ≤ 2 ^ (k + 1) := Nat.one_le_two_pow
    omega
  have hbl : bitlen (c + q + 1) = k + 2 := by
    have h1 : 2 ^ (k + 1) ≤ c + q + 1 := by omega
    have h2 : c + q + 1 < 2 ^ (k + 2) := by
      have : 2 ^ (k + 2) = 2 * 2 ^ (k + 1) := by ring
      omega
    have := bitlen_eq_iff (n := c + q + 1) (k := k + 1)
    omega
  have hno : (c + q) + 2 ≠ 2 ^ bitlen ((c + q) + 1) := by
    rw [show (c + q) + 1 = c + q + 1 from rfl] at *
    rw [hbl]
    have : 2 ^ (k + 2) = 2 * 2 ^ (k + 1) := by ring
    omega
  rw [pos_height_jump hno]
  have hsub : c + q + 1 - (2 ^ (bitlen (c + q + 1) - 1) - 1) = q + 1 := by
    rw [hbl, show (2 : ℕ) ^ (k + 2 - 1) = 2 ^ (k + 1) by congr 1]
    omega
  rw [show (c + q) + 1 = c + q + 1 from rfl, hsub]
  rw [pos_height_in_tree]
  exact heightJumpF_congr _ _ _ (by omega) le_rfl

/-- The root of a perfect subtree of height `k` laid out from position 0
sits at position `2^(k+1) - 2` and has height `k`. -/
theorem height_perfect_root (k : ℕ) :
    pos_height_in_tree (2 ^ (k + 1) - 2) = k := by
  have h1 : 1 ≤ 2 ^ (k + 1) := Nat.one_le_two_pow
  have h2 : 2 ≤ 2 ^ (k + 1) := by
    have : 2 ^ 1 ≤ 2 ^ (k + 1) := Nat.pow_le_pow_right (by norm_num) (by omega)
    omega
  have hx : (2 ^ (k + 1) - 2) + 1 = 2 ^ (k + 1) - 1 := by omega
  have hbl : bitlen (2 ^ (k + 1) - 1) = k + 1 := by
    rw [bitlen_eq_iff]
    constructor
    · have : 2 ^ (k + 1) = 2 * 2 ^ k := by ring
      have h3 : 1 ≤ 2 ^ k := Nat.one_le_two_pow
      omega
    · omega
  have hall : (2 ^ (k + 1) - 2) + 2 = 2 ^ bitlen ((2 ^ (k + 1) - 2) + 1) := by
    rw [hx, hbl]
    omega
  rw [pos_height_all_ones hall, hx, hbl]
  omega

/-- The position right after a full forest is a leaf: `height` of any
valid MMR size is 0. -/
theorem height_of_valid_size : ∀ L : ℕ, pos_height_in_tree (mmr_size_of_leaf_count L) = 0 := by
  intro L
  induction L using Nat.strong_induction_on with
  | _ L ih =>
    rcases Nat.eq_zero_or_pos L with rfl | hL
    · rfl
    · obtain ⟨k, hbk⟩ : ∃ k, bitlen L = k + 1 :=
        ⟨bitlen L - 1, by have := bitlen_pos hL; omega⟩
      have hdec := size_of_leaf_count_decomp hL
      rw [hbk, show (2 : ℕ) ^ (k + 1 - 1) = 2 ^ k by congr 1] at hdec
      have hlow : 2 ^ k ≤ L := by
        have := bitlen_lower hL; rw [hbk] at this; simpa using this
      have hup : L < 2 ^ (k + 1) := by
        have := bitlen_upper L; rwa [hbk] at this
      have h2 : 2 ^ (k + 1) = 2 * 2 ^ k := by ring
      have hsz : mmr_size_of_leaf_count (L - 2 ^ k) + 1 ≤ 2 ^ (k + 1) - 1 := by
        have h1 : mmr_size_of_leaf_count (L - 2 ^ k) ≤ 2 * (L - 2 ^ k) := by
          rw [mmr_size_of_leaf_count]; omega
        omega
      rw [hdec, height_shift k _ hsz]
      exact ih (L - 2 ^ k) (by omega)

theorem getPeakMapGo_skip {j pos : ℕ} (h : pos < 2 ^ (j + 1) - 1) :
    getPeakMapGo (j + 1) pos = getPeakMapGo j pos := by
  rw [getPeakMapGo, if_neg (by omega)]

theorem getPeakMapGo_of_size : ∀ j L : ℕ, bitlen L ≤ j →
    getPeakMapGo j (mmr_size_of_leaf_count L) = L := by
  intro j
  induction j with
  | zero =>
    intro L h
    have : L = 0 := by
      by_contra hc
      have := bitlen_pos (n := L) (by omega)
      omega
    subst this
    rfl
  | succ j ih =>
    intro L h
    rcases Nat.eq_zero_or_pos L with rfl | hL
    · rw [show mmr_size_of_leaf_count 0 = 0 from rfl]
      have hpow : 2 ≤ 2 ^ (j + 1) := by
        calc 2 = 2 ^ 1 := by norm_num
        _ ≤ 2 ^ (j + 1) := Nat.pow_le_pow_right (by norm_num) (by omega)
      rw [getPeakMapGo, if_neg (by omega)]
      exact ih 0 (by have : bitlen 0 = 0 := rfl; omega)
    · rcases Nat.lt_or_ge (bitlen L) (j + 1) with hlt | hge
      · have hup : mmr_size_of_leaf_count L < 2 ^ (j + 1) - 1 := by
          have h1 : mmr_size_of_leaf_count L ≤ 2 * L - 1 := size_of_leaf_count_le L hL
          have h2 : L < 2 ^ bitlen L := bitlen_upper L
          have h3 : 2 ^ bitlen L ≤ 2 ^ j := Nat.pow_le_pow_right (by norm_num) (by omega)
          have h4 : 2 ^ (j + 1) = 2 * 2 ^ j := by ring
          omega
        rw [getPeakMapGo_skip hup]
        exact ih L (by omega)
      · have hbk : bitlen L = j + 1 := by omega
        have hdec := size_of_leaf_count_decomp hL
        rw [hbk, show (2 : ℕ) ^ (j + 1 - 1) = 2 ^ j by congr 1] at hdec
        have hlow : 2 ^ j ≤ L := by
          have := bitlen_lower hL; rw [hbk] at this; simpa using this
        have hup : L < 2 ^ (j + 1) := by
          have := bitlen_upper L; rwa [hbk] at this
        have h2 : 2 ^ (j + 1) = 2 * 2 ^ j := by ring
        have hrk : L - 2 ^ j < 2 ^ j := by omega
        have hge1 := size_of_leaf_count_ge (L - 2 ^ j)
        rw [getPeakMapGo, if_pos (by rw [hdec]; omega)]
        have hsub : mmr_size_of_leaf_count L - (2 ^ (j + 1) - 1) =
            mmr_size_of_leaf_count (L - 2 ^ j) := by rw [hdec]; omega
        rw [hsub]
        have hblr : bitlen (L - 2 ^ j) ≤ j := by
          rcases Nat.eq_zero_or_pos (L - 2 ^ j) with hz | hr0
          · rw [hz]; have : bitlen 0 = 0 := rfl; omega
          · by_contra hc
            have h4 := bitlen_lower hr0
            have h3 : 2 ^ j ≤ 2 ^ (bitlen (L - 2 ^ j) - 1) :=
              Nat.pow_le_pow_right (by norm_num) (by omega)
            omega
        rw [ih _ hblr]
        omega

/-- The peak bitmap of a valid MMR size is its leaf count. -/
theorem get_peak_map_of_size (L : ℕ) :
    get_peak_map (mmr_size_of_leaf_count L) = L := by
  rw [get_peak_map]
  apply getPeakMapGo_of_size
  rw [bitlen_eq_size, bitlen_eq_size]
  exact Nat.size_le_size (size_of_leaf_count_ge L)

theorem trailingOnesF_congr : ∀ f f' n : ℕ, n ≤ f → n ≤ f' →
    trailingOnesF f n = trailingOnesF f' n := by
  intro f
  induction f with
  | zero =>
    intro f' n h h'
    interval_cases n
    cases f' with
    | zero => rfl
    | succ f' => simp [trailingOnesF]
  | succ f ih =>
    intro f' n h h'
    cases f' with
    | zero => interval_cases n; simp [trailingOnesF]
    | succ f' =>
      rw [trailingOnesF, trailingOnesF]
      split
      · rename_i hn
        have hn1 : n ≠ 0 := by omega
        rw [ih f' (n / 2) (by omega) (by omega)]
      · rfl

theorem trailing_ones_odd {n : ℕ} (h : n % 2 = 1) :
    trailing_ones n = trailing_ones (n / 2) + 1 := by
  rw [trailing_ones, trailing_ones]
  rw [show trailingOnesF (n + 1) n =
        if n % 2 = 1 then trailingOnesF n (n / 2) + 1 else 0 from rfl]
  rw [if_pos h, trailingOnesF_congr n (n / 2 + 1) (n / 2) (by omega) (by omega)]

theorem trailing_ones_even {n : ℕ} (h : n % 2 = 0) : trailing_ones n = 0 := by
  rw [trailing_ones]
  rw [show trailingOnesF (n + 1) n =
        if n % 2 = 1 then trailingOnesF n (n / 2) + 1 else 0 from rfl]
  rw [if_neg (by omega)]

theorem pushLoopF_cursor {T : Type} [DecidableEq T] (merge : T → T → T)
    (s : MMRState T) (pm : ℕ) :
    ∀ (f k pos : ℕ) (elems : List T) (pos' : ℕ) (elems' : List T),
      pushLoopF merge s pm f k pos elems = .ok (pos', elems') →
      pos' = pos + trailing_ones (pm >>> k) := by
  intro f
  induction f with
  | zero => intro k pos elems pos' elems' h; simp [pushLoopF] at h
  | succ f ih =>
    intro k pos elems pos' elems' h
    rw [pushLoopF] at h
    by_cases hbit : pm.testBit k
    · rw [if_pos hbit] at h
      have hb : pm / 2 ^ k % 2 = 1 := by
        have := Nat.testBit_to_div_mod (x := pm) (i := k)
        rw [this] at hbit
        simpa using hbit
      have hshift : pm >>> k = pm / 2 ^ k := Nat.shiftRight_eq_div_pow pm k
      have hshift' : pm >>> (k + 1) = (pm >>> k) / 2 := by
        rw [Nat.shiftRight_eq_div_pow, Nat.shiftRight_eq_div_pow,
          Nat.div_div_eq_div_mul]
        ring_nf
      have hto : trailing_ones (pm >>> k) = trailing_ones (pm >>> (k + 1)) + 1 := by
        rw [hshift', trailing_ones_odd (by rw [hshift]; exact hb)]
      match hfe : find_elem s (pos + 1 - 2 ^ (k + 1)) elems with
      | .err e => rw [hfe] at h; simp at h
      | .out => rw [hfe] at h; simp at h
      | .ok left_elem =>
        rw [hfe] at h
        match hlast : elems.getLast? with
        | none => rw [hlast] at h; simp at h
        | some right_elem =>
          rw [hlast] at h
          have := ih (k + 1) (pos + 1) (elems ++ [merge left_elem right_elem]) pos' elems' h
          rw [hto]
          omega
    · rw [if_neg hbit] at h
      have hb : pm / 2 ^ k % 2 = 0 := by
        have := Nat.testBit_to_div_mod (x := pm) (i := k)
        rw [this] at hbit
        simpa using hbit
      have hz : trailing_ones (pm >>> k) = 0 := by
        rw [Nat.shiftRight_eq_div_pow]
        exact trailing_ones_even hb
      rw [RunResult.ok.injEq, Prod.mk.injEq] at h
      rw [hz]
      omega

/-! ## C4: the contract of `push` -/

/-- Claim C4: on a valid MMR state, if `push x` returns `Ok(p)` then `p`
equals the `mmr_size` observed before the call, `p` is a leaf position
(`height(p) = 0`), and the new `mmr_size` is `cursor + 1` where `cursor` is
`p` advanced once per set bit consumed by the carry loop over the peak
bitmap of the old size. -/
theorem c4_push_contract {T : Type} [DecidableEq T] (merge : T → T → T)
    (s : MMRState T) (x : T) (p : ℕ) (s' : MMRState T)
    (hv : is_valid_size s.mmr_size)
    (h : push merge s x = .ok (p, s')) :
    p = s.mmr_size ∧ pos_height_in_tree p = 0 ∧
      s'.mmr_size = spec_cursor s.mmr_size + 1 := by
  rw [push] at h
  match hloop : pushLoopF merge s (get_peak_map s.mmr_size)
      (get_peak_map s.mmr_size + 1) 0 s.mmr_size [x] with
  | .err e => rw [hloop] at h; simp at h
  | .out => rw [hloop] at h; simp at h
  | .ok (pos, elems) =>
    rw [hloop] at h
    rw [RunResult.ok.injEq, Prod.mk.injEq] at h
    obtain ⟨hp, hs'⟩ := h
    have hcursor := pushLoopF_cursor merge s _ _ _ _ _ _ _ hloop
    refine ⟨hp.symm, ?_, ?_⟩
    · rcases hv with ⟨L, hL⟩
      rw [← hp, hL]
      exact height_of_valid_size L
    · rw [← hs']
      show pos + 1 = spec_cursor s.mmr_size + 1
      rw [spec_cursor]
      simp only [Nat.shiftRight_zero] at hcursor
      omega

/-- Witness for C4: pushing a fourth value onto the two-leaf example MMR. -/
theorem c4_push_contract_witness :
    is_valid_size exTwo.mmr_size ∧
    push Tree.node exTwo (Tree.leaf 7) =
      .ok (3, ⟨4, [Tree.leaf 0, Tree.leaf 1, Tree.node (Tree.leaf 0) (Tree.leaf 1),
                   Tree.leaf 7]⟩) ∧
    ((3 : ℕ) = exTwo.mmr_size ∧ pos_height_in_tree 3 = 0 ∧
      (4 : ℕ) = spec_cursor exTwo.mmr_size + 1) :=
  ⟨⟨2, rfl⟩, rfl,
    c4_push_contract Tree.node exTwo (Tree.leaf 7) 3 _ ⟨2, rfl⟩ rfl⟩

/-! ## C2: ancestry proofs do not verify in the default (leaf-only) mode -/

/-- Counterexample to claim C2: on the two-leaf MMR with
`prev_size = mmr_size = 3` (a valid previous size), `gen_ancestry_proof`
succeeds but `verify_ancestor` applied to the genuine current and previous
roots returns `Err(NodeProofsNotSupported)` instead of `Ok(true)`: the
previous peak at position 2 is an internal node and the default build of
`verify` rejects internal claimed nodes. -/
theorem c2_counterexample :
    gen_ancestry_proof Tree.node exTwo 3 =
      .ok ⟨[Tree.node (Tree.leaf 0) (Tree.leaf 1)], 3, ⟨3, []⟩⟩ ∧
    get_root Tree.node exTwo = .ok (Tree.node (Tree.leaf 0) (Tree.leaf 1)) ∧
    verify_ancestor Tree.node Tree.node false
        ⟨[Tree.node (Tree.leaf 0) (Tree.leaf 1)], 3, ⟨3, []⟩⟩
        (Tree.node (Tree.leaf 0) (Tree.leaf 1))
        (Tree.node (Tree.leaf 0) (Tree.leaf 1)) =
      .err .NodeProofsNotSupported := by
  refine ⟨rfl, rfl, rfl⟩

/-! ## Structure of peak lists at valid sizes -/

theorem peaksListF_congr : ∀ f f' L : ℕ, L ≤ f → L ≤ f' →
    peaksListF f L = peaksListF f' L := by
  intro f
  induction f with
  | zero =>
    intro f' L h h'
    interval_cases L
    cases f' with
    | zero => rfl
    | succ f' => simp [peaksListF]
  | succ f ih =>
    intro f' L h h'
    cases f' with
    | zero => interval_cases L; simp [peaksListF]
    | succ f' =>
      rw [peaksListF, peaksListF]
      split
      · rfl
      · rename_i hL
        have hbl := bitlen_pos (n := L) (by omega)
        have hpow : 1 ≤ 2 ^ (bitlen L - 1) := Nat.one_le_two_pow
        rw [ih f' (L - 2 ^ (bitlen L - 1)) (by omega) (by omega)]

theorem peaksList_rec {L : ℕ} (h : 0 < L) :
    peaksList L = (2 ^ bitlen L - 2) ::
      (peaksList (L - 2 ^ (bitlen L - 1))).map (· + (2 ^ bitlen L - 1)) := by
  obtain ⟨m, rfl⟩ : ∃ m, L = m + 1 := ⟨L - 1, by omega⟩
  rw [peaksList, peaksList]
  rw [show peaksListF (m + 1) (m + 1) =
        if m + 1 = 0 then []
        else (2 ^ bitlen (m + 1) - 2) ::
          (peaksListF m (m + 1 - 2 ^ (bitlen (m + 1) - 1))).map
            (· + (2 ^ bitlen (m + 1) - 1)) from rfl]
  rw [if_neg (by omega)]
  have hbl := bitlen_pos (n := m + 1) (by omega)
  have hpow : 1 ≤ 2 ^ (bitlen (m + 1) - 1) := Nat.one_le_two_pow
  rw [peaksListF_congr m (m + 1 - 2 ^ (bitlen (m + 1) - 1))
    (m + 1 - 2 ^ (bitlen (m + 1) - 1)) (by omega) le_rfl]

theorem getPeaksGo_shift : ∀ j pos off : ℕ,
    getPeaksGo j pos off = (getPeaksGo j pos 0).map (· + off) := by
  intro j
  induction j with
  | zero => intro pos off; rfl
  | succ j ih =>
    intro pos off
    rw [getPeaksGo, getPeaksGo]
    have hs : 1 ≤ 2 ^ (j + 1) - 1 := by
      have : 2 ≤ 2 ^ (j + 1) := by
        calc 2 = 2 ^ 1 := by norm_num
        _ ≤ 2 ^ (j + 1) := Nat.pow_le_pow_right (by norm_num) (by omega)
      omega
    split
    · rw [List.map_cons]
      congr 1
      · omega
      · rw [ih (pos - (2 ^ (j + 1) - 1)) (off + (2 ^ (j + 1) - 1)),
          ih (pos - (2 ^ (j + 1) - 1)) (0 + (2 ^ (j + 1) - 1)), List.map_map]
        apply List.map_congr_left
        intro a _
        simp only [Function.comp_apply]
        omega
    · exact ih pos off

theorem getPeaksGo_skip {j pos off : ℕ} (h : pos < 2 ^ (j + 1) - 1) :
    getPeaksGo (j + 1) pos off = getPeaksGo j pos off := by
  rw [getPeaksGo, if_neg (by omega)]

theorem getPeaksGo_of_size : ∀ j L : ℕ, bitlen L ≤ j →
    getPeaksGo j (mmr_size_of_leaf_count L) 0 = peaksList L := by
  intro j
  induction j with
  | zero =>
    intro L h
    have hL0 : L = 0 := by
      by_contra hc
      have := bitlen_pos (n := L) (by omega)
      omega
    subst hL0
    rfl
  | succ j ih =>
    intro L h
    rcases Nat.eq_zero_or_pos L with rfl | hL
    · rw [show mmr_size_of_leaf_count 0 = 0 from rfl]
      have hpow : 2 ≤ 2 ^ (j + 1) := by
        calc 2 = 2 ^ 1 := by norm_num
        _ ≤ 2 ^ (j + 1) := Nat.pow_le_pow_right (by norm_num) (by omega)
      rw [getPeaksGo, if_neg (by omega)]
      exact ih 0 (by have : bitlen 0 = 0 := rfl; omega)
    · rcases Nat.lt_or_ge (bitlen L) (j + 1) with hlt | hge
      · have hup : mmr_size_of_leaf_count L < 2 ^ (j + 1) - 1 := by
          have h1 : mmr_size_of_leaf_count L ≤ 2 * L - 1 := size_of_leaf_count_le L hL
          have h2 : L < 2 ^ bitlen L := bitlen_upper L
          have h3 : 2 ^ bitlen L ≤ 2 ^ j := Nat.pow_le_pow_right (by norm_num) (by omega)
          have h4 : 2 ^ (j + 1) = 2 * 2 ^ j := by ring
          omega
        rw [getPeaksGo_skip hup]
        exact ih L (by omega)
      · have hbk : bitlen L = j + 1 := by omega
        have hdec := size_of_leaf_count_decomp hL
        rw [hbk, show (2 : ℕ) ^ (j + 1 - 1) = 2 ^ j by congr 1] at hdec
        have hlow : 2 ^ j ≤ L := by
          have := bitlen_lower hL; rw [hbk] at this; simpa using this
        have hup : L < 2 ^ (j + 1) := by
          have := bitlen_upper L; rwa [hbk] at this
        have h2 : 2 ^ (j + 1) = 2 * 2 ^ j := by ring
        have hrk : L - 2 ^ j < 2 ^ j := by omega
        have hge1 := size_of_leaf_count_ge (L - 2 ^ j)
        rw [getPeaksGo, if_pos (by rw [hdec]; omega)]
        have hsub : mmr_size_of_leaf_count L - (2 ^ (j + 1) - 1) =
            mmr_size_of_leaf_count (L - 2 ^ j) := by rw [hdec]; omega
        have hblr : bitlen (L - 2 ^ j) ≤ j := by
          rcases Nat.eq_zero_or_pos (L - 2 ^ j) with hz | hr0
          · rw [hz]; have : bitlen 0 = 0 := rfl; omega
          · by_contra hc
            have h4 := bitlen_lower hr0
            have h3 : 2 ^ j ≤ 2 ^ (bitlen (L - 2 ^ j) - 1) :=
              Nat.pow_le_pow_right (by norm_num) (by omega)
            omega
        rw [hsub, getPeaksGo_shift, ih _ hblr]
        rw [peaksList_rec hL, hbk,
          show (2 : ℕ) ^ (j + 1 - 1) = 2 ^ j by congr 1]
        congr 1
        · omega
        · apply List.map_congr_left
          intro a _
          omega

/-- On a valid MMR size, `get_peaks` computes the greedy peak list of the
leaf count. -/
theorem get_peaks_of_size (L : ℕ) :
    get_peaks (mmr_size_of_leaf_count L) = peaksList L := by
  rw [get_peaks]
  apply getPeaksGo_of_size
  rw [bitlen_eq_size, bitlen_eq_size]
  exact Nat.size_le_size (size_of_leaf_count_ge L)

theorem peaksFrom_shift : ∀ {lo rem : ℕ} {ps : List ℕ}, PeaksFrom lo rem ps →
    ∀ off : ℕ, (∀ q, q < lo + rem → pos_height_in_tree (off + q) = pos_height_in_tree q) →
    PeaksFrom (off + lo) rem (ps.map (· + off)) := by
  intro lo rem ps h
  induction h with
  | nil lo => intro off _; exact PeaksFrom.nil (off + lo)
  | cons lo k rem' rest hrem hsh _hrec ih =>
    intro off hoff
    have hc : 1 ≤ 2 ^ (k + 1) - 1 := by
      have : 2 ≤ 2 ^ (k + 1) := by
        calc 2 = 2 ^ 1 := by norm_num
        _ ≤ 2 ^ (k + 1) := Nat.pow_le_pow_right (by norm_num) (by omega)
      omega
    have hmap : ((lo + (2 ^ (k + 1) - 2)) :: rest).map (· + off) =
        ((off + lo) + (2 ^ (k + 1) - 2)) :: rest.map (· + off) := by
      rw [List.map_cons]
      congr 1
      omega
    rw [hmap]
    refine PeaksFrom.cons (off + lo) k rem' (rest.map (· + off)) hrem ?_ ?_
    · intro q hq
      rw [show off + lo + q = off + (lo + q) by omega, hoff (lo + q) (by omega),
        hsh q hq]
    · have := ih off (by intro q hq; exact hoff q (by omega))
      rw [show off + lo + (2 ^ (k + 1) - 1) = off + (lo + (2 ^ (k + 1) - 1)) by omega]
      exact this

/-- The greedy peak list of any leaf count satisfies the layout predicate
starting at offset 0 and spanning the whole MMR size. -/
theorem peaksFrom_of_leaf_count : ∀ L : ℕ,
    PeaksFrom 0 (mmr_size_of_leaf_count L) (peaksList L) := by
  intro L
  induction L using Nat.strong_induction_on with
  | _ L ih =>
    rcases Nat.eq_zero_or_pos L with rfl | hL
    · exact PeaksFrom.nil 0
    · obtain ⟨k, hbk⟩ : ∃ k, bitlen L = k + 1 :=
        ⟨bitlen L - 1, by have := bitlen_pos hL; omega⟩
      have hdec := size_of_leaf_count_decomp hL
      rw [hbk, show (2 : ℕ) ^ (k + 1 - 1) = 2 ^ k by congr 1] at hdec
      have hlow : 2 ^ k ≤ L := by
        have := bitlen_lower hL; rw [hbk] at this; simpa using this
      have hup : L < 2 ^ (k + 1) := by
        have := bitlen_upper L; rwa [hbk] at this
      have h2 : 2 ^ (k + 1) = 2 * 2 ^ k := by ring
      have hrbound : mmr_size_of_leaf_count (L - 2 ^ k) ≤ 2 ^ (k + 1) - 2 := by
        have h1 : mmr_size_of_leaf_count (L - 2 ^ k) ≤ 2 * (L - 2 ^ k) := by
          rw [mmr_size_of_leaf_count]; omega
        omega
      rw [peaksList_rec hL, hbk, show (2 : ℕ) ^ (k + 1 - 1) = 2 ^ k by congr 1]
      rw [hdec]
      have hcons := PeaksFrom.cons 0 k (mmr_size_of_leaf_count (L - 2 ^ k))
        ((peaksList (L - 2 ^ k)).map (· + (2 ^ (k + 1) - 1))) hrbound
        (by intro q _; rw [Nat.zero_add])
        ?_
      · simpa using hcons
      · have hshifted := peaksFrom_shift (ih (L - 2 ^ k) (by omega)) (2 ^ (k + 1) - 1) ?_
        · simpa using hshifted
        · intro q hq
          rw [Nat.zero_add] at hq
          exact height_shift k q (by omega)

theorem peaksFrom_mem_bounds : ∀ {lo rem : ℕ} {ps : List ℕ}, PeaksFrom lo rem ps →
    ∀ p ∈ ps, lo ≤ p ∧ p < lo + rem := by
  intro lo rem ps h
  induction h with
  | nil lo => intro p hp; simp at hp
  | cons lo k rem' rest _hrem _hsh _hrec ih =>
    intro p hp
    have hc : 2 ≤ 2 ^ (k + 1) := by
      calc 2 = 2 ^ 1 := by norm_num
      _ ≤ 2 ^ (k + 1) := Nat.pow_le_pow_right (by norm_num) (by omega)
    rw [List.mem_cons] at hp
    rcases hp with rfl | hp
    · omega
    · have := ih p hp
      omega

theorem peaksFrom_zero_nil {lo : ℕ} {ps : List ℕ} (h : PeaksFrom lo 0 ps) :
    ps = [] := by
  cases hps : ps with
  | nil => rfl
  | cons p rest =>
    have hb := peaksFrom_mem_bounds h p (by rw [hps]; exact List.mem_cons_self p rest)
    omega

theorem peaksFrom_nil_rem {lo rem : ℕ} (h : PeaksFrom lo rem []) : rem = 0 := by
  cases h
  rfl

theorem peaksFrom_last : ∀ {lo rem : ℕ} {ps : List ℕ}, PeaksFrom lo rem ps →
    ps ≠ [] → ps.getLast? = some (lo + rem - 1) := by
  intro lo rem ps h
  induction h with
  | nil lo => intro hne; exact absurd rfl hne
  | cons lo k rem' rest _hrem _hsh hrec ih =>
    intro _
    have hc : 2 ≤ 2 ^ (k + 1) := by
      calc 2 = 2 ^ 1 := by norm_num
      _ ≤ 2 ^ (k + 1) := Nat.pow_le_pow_right (by norm_num) (by omega)
    cases hr : rest with
    | nil =>
      have h0 : rem' = 0 := peaksFrom_nil_rem (hr ▸ hrec)
      simp only [List.getLast?_singleton, Option.some.injEq]
      omega
    | cons y t =>
      rw [List.getLast?_cons_cons, ← hr, ih (by rw [hr]; simp)]
      simp only [Option.some.injEq]
      omega

theorem peaksFrom_ne_nil {lo rem : ℕ} {ps : List ℕ} (h : PeaksFrom lo rem ps)
    (hrem : 0 < rem) : ps ≠ [] := by
  cases h with
  | nil => omega
  | cons => simp

theorem peaksList_length_le : ∀ L : ℕ, (peaksList L).length ≤ L := by
  intro L
  induction L using Nat.strong_induction_on with
  | _ L ih =>
    rcases Nat.eq_zero_or_pos L with rfl | hL
    · simp [peaksList, peaksListF]
    · rw [peaksList_rec hL]
      have hbl := bitlen_pos hL
      have hpow : 1 ≤ 2 ^ (bitlen L - 1) := Nat.one_le_two_pow
      have := ih (L - 2 ^ (bitlen L - 1)) (by omega)
      simp only [List.length_cons, List.length_map]
      omega

theorem peaksList_length_lt {L : ℕ} (h : 2 ≤ L) : (peaksList L).length < L := by
  rw [peaksList_rec (by omega)]
  have hbl : 2 ≤ bitlen L := by
    by_contra hc
    have h1 := bitlen_pos (n := L) (by omega)
    have h2 : bitlen L = 1 := by omega
    rw [bitlen_eq_iff] at h2
    omega
  have hpow : 2 ≤ 2 ^ (bitlen L - 1) := by
    calc 2 = 2 ^ 1 := by norm_num
    _ ≤ 2 ^ (bitlen L - 1) := Nat.pow_le_pow_right (by norm_num) (by omega)
  have := peaksList_length_le (L - 2 ^ (bitlen L - 1))
  simp only [List.length_cons, List.length_map]
  omega

/-- The first peak of a leaf count of at least 2 is an internal node. -/
theorem peaksList_head_internal {L : ℕ} (h : 2 ≤ L) :
    ∃ p rest, peaksList L = p :: rest ∧ 1 ≤ pos_height_in_tree p := by
  rw [peaksList_rec (by omega)]
  refine ⟨2 ^ bitlen L - 2, _, rfl, ?_⟩
  obtain ⟨k, hbk⟩ : ∃ k, bitlen L = k + 1 :=
    ⟨bitlen L - 1, by have := bitlen_pos (n := L) (by omega); omega⟩
  have hk1 : 1 ≤ k := by
    by_contra hc
    have : bitlen L = 1 := by omega
    rw [bitlen_eq_iff] at this
    omega
  rw [hbk, height_perfect_root k]
  omega

/-! ## Sorted lists of positions -/

theorem insNat_mem_iff (x : ℕ) : ∀ (l : List ℕ) (a : ℕ),
    a ∈ insNat x l ↔ a = x ∨ a ∈ l := by
  intro l
  induction l with
  | nil => intro a; simp [insNat]
  | cons y rest ih =>
    intro a
    rw [insNat]
    split
    · rw [List.mem_cons, ih a, List.mem_cons]
      tauto
    · rw [List.mem_cons, List.mem_cons]

theorem sortNat_mem_iff : ∀ (l : List ℕ) (a : ℕ), a ∈ sortNat l ↔ a ∈ l := by
  intro l
  induction l with
  | nil => intro a; simp [sortNat]
  | cons x rest ih =>
    intro a
    rw [sortNat, insNat_mem_iff, ih, List.mem_cons]

theorem insNat_sorted (x : ℕ) : ∀ l : List ℕ,
    List.Sorted (· ≤ ·) l → List.Sorted (· ≤ ·) (insNat x l) := by
  intro l
  induction l with
  | nil => intro _; simp [insNat]
  | cons y rest ih =>
    intro hs
    rw [List.sorted_cons] at hs
    rw [insNat]
    split
    · rename_i hyx
      rw [List.sorted_cons]
      refine ⟨?_, ih hs.2⟩
      intro b hb
      rw [insNat_mem_iff] at hb
      rcases hb with rfl | hb
      · omega
      · exact hs.1 b hb
    · rename_i hyx
      rw [List.sorted_cons]
      refine ⟨?_, List.sorted_cons.2 hs⟩
      intro b hb
      rw [List.mem_cons] at hb
      rcases hb with rfl | hb
      · omega
      · have := hs.1 b hb
        omega

theorem sortNat_sorted : ∀ l : List ℕ, List.Sorted (· ≤ ·) (sortNat l) := by
  intro l
  induction l with
  | nil => simp [sortNat]
  | cons x rest ih => exact insNat_sorted x _ ih

theorem dedupNatRun_mem_iff : ∀ (rest : List ℕ) (x a : ℕ),
    a ∈ dedupNatRun x rest ↔ a = x ∨ a ∈ rest := by
  intro rest
  induction rest with
  | nil => intro x a; simp [dedupNatRun]
  | cons y rest' ih =>
    intro x a
    rw [dedupNatRun]
    split
    · rename_i hxy
      subst hxy
      rw [ih, List.mem_cons]
      tauto
    · rw [List.mem_cons, ih, List.mem_cons]

theorem dedupNat_mem_iff : ∀ (l : List ℕ) (a : ℕ), a ∈ dedupNat l ↔ a ∈ l := by
  intro l a
  match l with
  | [] => simp [dedupNat]
  | x :: rest => rw [dedupNat, dedupNatRun_mem_iff, List.mem_cons]

theorem dedupNatRun_sorted : ∀ (rest : List ℕ) (x : ℕ),
    List.Sorted (· ≤ ·) (x :: rest) → List.Sorted (· ≤ ·) (dedupNatRun x rest) := by
  intro rest
  induction rest with
  | nil => intro x _; simp [dedupNatRun]
  | cons y rest' ih =>
    intro x hs
    rw [List.sorted_cons] at hs
    rw [dedupNatRun]
    split
    · rename_i hxy
      subst hxy
      apply ih
      rw [List.sorted_cons]
      exact ⟨fun b hb => (List.sorted_cons.1 hs.2).1 b hb, (List.sorted_cons.1 hs.2).2⟩
    · rw [List.sorted_cons]
      refine ⟨?_, ih y hs.2⟩
      intro b hb
      rw [dedupNatRun_mem_iff] at hb
      rcases hb with rfl | hb
      · exact hs.1 b (by simp)
      · exact hs.1 b (by simp [hb])

theorem dedupNat_sorted (l : List ℕ) (h : List.Sorted (· ≤ ·) l) :
    List.Sorted (· ≤ ·) (dedupNat l) := by
  match l with
  | [] => simp [dedupNat]
  | x :: rest => exact dedupNatRun_sorted rest x h

theorem sorted_dropWhile_le_eq_filter (a : ℕ) : ∀ l : List ℕ,
    List.Sorted (· ≤ ·) l →
    l.dropWhile (fun p => p ≤ a) = l.filter (fun p => a < p) := by
  intro l
  induction l with
  | nil => intro _; rfl
  | cons x rest ih =>
    intro hs
    rw [List.sorted_cons] at hs
    rw [List.dropWhile_cons, List.filter_cons]
    by_cases hx : x ≤ a
    · rw [if_pos (by simpa using hx), if_neg (by simpa using hx)]
      exact ih hs.2
    · have hax : a < x := Nat.lt_of_not_le hx
      rw [if_neg (by simpa using hx), if_pos (by simpa using hax)]
      have hall : ∀ p ∈ rest, a < p := by
        intro p hp
        have := hs.1 p hp
        omega
      rw [List.filter_eq_self.2 (by intro b hb; simpa using hall b hb)]

theorem dropWhile_le_mem_gt (a : ℕ) (l : List ℕ) (hs : List.Sorted (· ≤ ·) l) :
    ∀ p ∈ l.dropWhile (fun p => p ≤ a), a < p ∧ p ∈ l := by
  intro p hp
  rw [sorted_dropWhile_le_eq_filter a l hs] at hp
  rw [List.mem_filter] at hp
  exact ⟨by simpa using hp.2, hp.1⟩

theorem takeWhile_le_mem (a : ℕ) (l : List ℕ) :
    ∀ p ∈ l.takeWhile (fun p => p ≤ a), p ≤ a ∧ p ∈ l := by
  intro p hp
  refine ⟨by simpa using List.mem_takeWhile_imp hp, ?_⟩
  exact (List.takeWhile_sublist _).subset hp

theorem sorted_dropWhile_le_sorted (a : ℕ) (l : List ℕ)
    (hs : List.Sorted (· ≤ ·) l) :
    List.Sorted (· ≤ ·) (l.dropWhile (fun p => p ≤ a)) := by
  rw [sorted_dropWhile_le_eq_filter a l hs]
  exact hs.filter _

/-! ## The sibling/parent step inside a perfect subtree -/

/-- Walking one level up from a non-root position of the perfect subtree
laid out on `[0, 2^(k+1) - 2]`: if the next position is higher, the
position is a right child whose parent is `pos + 1` and whose sibling sits
`sibling_offset` below; otherwise it is a left child whose sibling and
parent sit `sibling_offset` and `parent_offset` above, all of them inside
the subtree and with the expected heights. -/
theorem tree_step : ∀ k q : ℕ, q < 2 ^ (k + 1) - 2 →
    (pos_height_in_tree q < pos_height_in_tree (q + 1) →
       pos_height_in_tree (q + 1) = pos_height_in_tree q + 1 ∧
       2 ^ (pos_height_in_tree q + 1) - 1 ≤ q ∧
       pos_height_in_tree (q - (2 ^ (pos_height_in_tree q + 1) - 1)) =
         pos_height_in_tree q) ∧
    (¬ pos_height_in_tree q < pos_height_in_tree (q + 1) →
       q + 2 ^ (pos_height_in_tree q + 1) ≤ 2 ^ (k + 1) - 2 ∧
       pos_height_in_tree (q + (2 ^ (pos_height_in_tree q + 1) - 1)) =
         pos_height_in_tree q ∧
       pos_height_in_tree (q + 2 ^ (pos_height_in_tree q + 1)) =
         pos_height_in_tree q + 1) := by
  intro k
  induction k with
  | zero =>
    intro q hq
    norm_num at hq
  | succ k ih =>
    intro q hq
    have hc2 : 2 ≤ 2 ^ (k + 1) := by
      calc 2 = 2 ^ 1 := by norm_num
      _ ≤ 2 ^ (k + 1) := Nat.pow_le_pow_right (by norm_num) (by omega)
    have hpow : 2 ^ (k + 2) = 2 * 2 ^ (k + 1) := by ring
    rcases Nat.lt_or_ge q (2 ^ (k + 1) - 2) with hA | hBCD
    · -- strictly inside the left subtree
      obtain ⟨hR, hL⟩ := ih q hA
      refine ⟨fun hbr => hR hbr, fun hbr => ?_⟩
      obtain ⟨h1, h2, h3⟩ := hL hbr
      exact ⟨by omega, h2, h3⟩
    · rcases Nat.eq_or_lt_of_le hBCD with hB | hCD
      · -- `q` is the left subtree root
        have hq' : q = 2 ^ (k + 1) - 2 := hB.symm
        have hhtq : pos_height_in_tree q = k := by rw [hq']; exact height_perfect_root k
        have hnext : pos_height_in_tree (q + 1) = 0 := by
          have : q + 1 = (2 ^ (k + 1) - 1) + 0 := by omega
          rw [this, height_shift k 0 (by omega)]
          rfl
        constructor
        · intro hbr
          rw [hhtq, hnext] at hbr
          omega
        · intro _
          rw [hhtq]
          refine ⟨by omega, ?_, ?_⟩
          · have : q + (2 ^ (k + 1) - 1) = (2 ^ (k + 1) - 1) + (2 ^ (k + 1) - 2) := by
              omega
            rw [this, height_shift k _ (by omega), height_perfect_root k]
          · have : q + 2 ^ (k + 1) = 2 ^ (k + 2) - 2 := by omega
            rw [this, height_perfect_root (k + 1)]
      · rcases Nat.lt_or_ge q (2 ^ (k + 2) - 3) with hC | hD
        · -- strictly inside the right subtree
          have hq2 : q = (2 ^ (k + 1) - 1) + (q - (2 ^ (k + 1) - 1)) := by omega
          generalize hq' : q - (2 ^ (k + 1) - 1) = q'
          rw [hq'] at hq2
          have hq'lt : q' < 2 ^ (k + 1) - 2 := by omega
          have hsh1 : pos_height_in_tree q = pos_height_in_tree q' := by
            rw [hq2]; exact height_shift k q' (by omega)
          have hsh2 : pos_height_in_tree (q + 1) = pos_height_in_tree (q' + 1) := by
            rw [show q + 1 = (2 ^ (k + 1) - 1) + (q' + 1) by omega]
            exact height_shift k (q' + 1) (by omega)
          obtain ⟨hR, hL⟩ := ih q' hq'lt
          rw [hsh1, hsh2]
          constructor
          · intro hbr
            obtain ⟨h1, h2, h3⟩ := hR hbr
            refine ⟨h1, by omega, ?_⟩
            rw [show q - (2 ^ (pos_height_in_tree q' + 1) - 1) =
              (2 ^ (k + 1) - 1) + (q' - (2 ^ (pos_height_in_tree q' + 1) - 1)) by omega]
            rw [height_shift k _ (by omega)]
            exact h3
          · intro hbr
            obtain ⟨h1, h2, h3⟩ := hL hbr
            refine ⟨by omega, ?_, ?_⟩
            · rw [show q + (2 ^ (pos_height_in_tree q' + 1) - 1) =
                (2 ^ (k + 1) - 1) + (q' + (2 ^ (pos_height_in_tree q' + 1) - 1)) by omega]
              rw [height_shift k _ (by omega)]
              exact h2
            · rw [show q + 2 ^ (pos_height_in_tree q' + 1) =
                (2 ^ (k + 1) - 1) + (q' + 2 ^ (pos_height_in_tree q' + 1)) by omega]
              rw [height_shift k _ (by omega)]
              exact h3
        · -- `q` is the right subtree root
          have hq' : q = 2 ^ (k + 2) - 3 := by omega
          have hhtq : pos_height_in_tree q = k := by
            rw [hq', show (2 : ℕ) ^ (k + 2) - 3 =
              (2 ^ (k + 1) - 1) + (2 ^ (k + 1) - 2) by omega]
            rw [height_shift k _ (by omega)]
            exact height_perfect_root k
          have hnext : pos_height_in_tree (q + 1) = k + 1 := by
            rw [hq', show (2 : ℕ) ^ (k + 2) - 3 + 1 = 2 ^ (k + 2) - 2 by omega]
            exact height_perfect_root (k + 1)
          constructor
          · intro _
            rw [hhtq, hnext]
            refine ⟨rfl, by omega, ?_⟩
            rw [show q - (2 ^ (k + 1) - 1) = 2 ^ (k + 1) - 2 by omega]
            exact height_perfect_root k
          · intro hbr
            rw [hhtq, hnext] at hbr
            omega

/-! ## The proof-generation loop succeeds on genuine positions -/

theorem queueMeasure_nil (peak : ℕ) : queueMeasure peak [] = 0 := rfl

theorem queueMeasure_cons (peak : ℕ) (e : ℕ × ℕ) (rest : List (ℕ × ℕ)) :
    queueMeasure peak (e :: rest) = (peak + 1 - e.1) + queueMeasure peak rest := by
  simp [queueMeasure]

theorem queueMeasure_append (peak : ℕ) (l1 l2 : List (ℕ × ℕ)) :
    queueMeasure peak (l1 ++ l2) = queueMeasure peak l1 + queueMeasure peak l2 := by
  simp [queueMeasure]

theorem queueMeasure_singleton (peak p h : ℕ) :
    queueMeasure peak [(p, h)] = peak + 1 - p := by
  simp [queueMeasure]

theorem queueMeasure_tail_le (peak : ℕ) (l : List (ℕ × ℕ)) :
    queueMeasure peak l.tail ≤ queueMeasure peak l := by
  match l with
  | [] => exact le_rfl
  | e :: rest =>
    rw [show (e :: rest).tail = rest from rfl, queueMeasure_cons]
    omega

theorem store_get_some {T : Type} (l : List T) (p : ℕ) (h : p < l.length) :
    ∃ v, l.get? p = some v := by
  match hg : l.get? p with
  | some v => exact ⟨v, rfl⟩
  | none => rw [List.get?_eq_none] at hg; omega

theorem genSibStep_ok {T : Type} [DecidableEq T] (s : MMRState T)
    (pos_list : List ℕ) (proof : List (ℕ × T)) (queue : List (ℕ × ℕ))
    (sib_pos height : ℕ) (hsib : sib_pos < s.store.length) (peak : ℕ) :
    ∃ queue' ex0, genSibStep s pos_list proof queue sib_pos height =
        .ok (queue', proof ++ ex0) ∧
      (∀ e ∈ queue', e ∈ queue) ∧
      queueMeasure peak queue' ≤ queueMeasure peak queue := by
  obtain ⟨v, hv⟩ := store_get_some s.store sib_pos hsib
  match queue with
  | [] =>
    rw [genSibStep]
    simp only [List.head?_nil, hv]
    by_cases hc : height = 0 ∨ (¬ (sib_pos, v) ∈ proof ∧ ¬ sib_pos ∈ pos_list)
    · rw [if_pos hc]
      exact ⟨[], [(sib_pos, v)], rfl, by simp, le_rfl⟩
    · rw [if_neg hc]
      exact ⟨[], [], by simp, by simp, le_rfl⟩
  | (qp, qh) :: qrest =>
    rw [genSibStep]
    simp only [List.head?_cons]
    by_cases h1 : qp = sib_pos
    · rw [if_pos h1]
      refine ⟨qrest, [], by simp, ?_, ?_⟩
      · intro e he; simp [he]
      · rw [queueMeasure_cons]; omega
    · rw [if_neg h1]
      by_cases h2 : is_descendant_pos sib_pos qp
      · rw [if_pos h2]
        exact ⟨(qp, qh) :: qrest, [], by simp, fun e he => he, le_rfl⟩
      · rw [if_neg h2]
        simp only [hv]
        by_cases hc : height = 0 ∨ (¬ (sib_pos, v) ∈ proof ∧ ¬ sib_pos ∈ pos_list)
        · rw [if_pos hc]
          exact ⟨(qp, qh) :: qrest, [(sib_pos, v)], rfl, fun e he => he, le_rfl⟩
        · rw [if_neg hc]
          exact ⟨(qp, qh) :: qrest, [], by simp, fun e he => he, le_rfl⟩

theorem genProofLoopF_ok {T : Type} [DecidableEq T] (s : MMRState T)
    (pos_list : List ℕ) (lo k peak_pos : ℕ)
    (hpk : peak_pos = lo + (2 ^ (k + 1) - 2))
    (hlt : peak_pos < s.store.length)
    (hsh : ∀ q, q ≤ 2 ^ (k + 1) - 2 →
      pos_height_in_tree (lo + q) = pos_height_in_tree q) :
    ∀ (fuel : ℕ) (queue : List (ℕ × ℕ)) (proof : List (ℕ × T)),
      (∀ e ∈ queue, lo ≤ e.1 ∧ e.1 ≤ peak_pos ∧ e.2 = pos_height_in_tree e.1) →
      queueMeasure peak_pos queue < fuel →
      ∃ extra, genProofLoopF s pos_list peak_pos fuel queue proof =
        .ok (proof ++ extra) := by
  intro fuel
  induction fuel with
  | zero => intro queue proof _ hm; omega
  | succ fuel ih =>
    intro queue proof hinv hm
    match queue with
    | [] => exact ⟨[], by simp [genProofLoopF]⟩
    | (pos, height) :: rest =>
      obtain ⟨hlo, hle, hh⟩ := hinv (pos, height) (List.mem_cons_self _ _)
      replace hlo : lo ≤ pos := hlo
      replace hle : pos ≤ peak_pos := hle
      replace hh : height = pos_height_in_tree pos := hh
      rw [queueMeasure_cons] at hm
      replace hm : peak_pos + 1 - pos + queueMeasure peak_pos rest < fuel + 1 := hm
      by_cases hpp : pos = peak_pos
      · match rest with
        | [] => exact ⟨[], by simp [genProofLoopF, hpp]⟩
        | e0 :: rrest =>
          obtain ⟨extra, hrec⟩ := ih (e0 :: rrest) proof
            (fun e he => hinv e (List.mem_cons_of_mem _ he))
            (by omega)
          exact ⟨extra, by simp only [genProofLoopF, if_pos hpp]; exact hrec⟩
      · have hplt : pos < peak_pos := by omega
        have hqlt : pos - lo < 2 ^ (k + 1) - 2 := by omega
        have hht_pos : pos_height_in_tree pos = pos_height_in_tree (pos - lo) := by
          nth_rewrite 1 [show pos = lo + (pos - lo) by omega]
          exact hsh (pos - lo) (by omega)
        have hht_next : pos_height_in_tree (pos + 1) =
            pos_height_in_tree (pos - lo + 1) := by
          rw [show pos + 1 = lo + (pos - lo + 1) by omega]
          exact hsh (pos - lo + 1) (by omega)
        have hhq : height = pos_height_in_tree (pos - lo) := hh.trans hht_pos
        obtain ⟨hR, hL⟩ := tree_step k (pos - lo) hqlt
        rw [← hhq] at hR hL
        by_cases hdir : height < pos_height_in_tree (pos + 1)
        · -- pos is a right child: sibling to the left, parent is pos + 1
          have hdir' : height < pos_height_in_tree (pos - lo + 1) := by
            rw [← hht_next]; exact hdir
          obtain ⟨hp1, hp2, _hp3⟩ := hR hdir'
          have hsiblt : pos - sibling_offset height < s.store.length := by
            have h1 : pos - sibling_offset height ≤ pos := Nat.sub_le _ _
            omega
          have hpar_ht : pos_height_in_tree (pos + 1) = height + 1 :=
            hht_next.trans hp1
          obtain ⟨queue', ex0, hstep, hsubq, hmq⟩ :=
            genSibStep_ok s pos_list proof rest (pos - sibling_offset height)
              height hsiblt peak_pos
          have hinv' : ∀ e ∈ (if pos + 1 < peak_pos
              then queue' ++ [(pos + 1, height + 1)] else queue'),
              lo ≤ e.1 ∧ e.1 ≤ peak_pos ∧ e.2 = pos_height_in_tree e.1 := by
            intro e he
            by_cases hparlt : pos + 1 < peak_pos
            · rw [if_pos hparlt] at he
              rcases List.mem_append.1 he with he' | he'
              · exact hinv e (List.mem_cons_of_mem _ (hsubq e he'))
              · rw [List.mem_singleton] at he'
                subst he'
                exact ⟨Nat.le_succ_of_le hlo, hparlt.le, hpar_ht.symm⟩
            · rw [if_neg hparlt] at he
              exact hinv e (List.mem_cons_of_mem _ (hsubq e he))
          have hm' : queueMeasure peak_pos (if pos + 1 < peak_pos
              then queue' ++ [(pos + 1, height + 1)] else queue') < fuel := by
            by_cases hparlt : pos + 1 < peak_pos
            · rw [if_pos hparlt, queueMeasure_append, queueMeasure_singleton]
              omega
            · rw [if_neg hparlt]
              omega
          obtain ⟨extra', hrec⟩ := ih _ _ hinv' hm'
          refine ⟨ex0 ++ extra', ?_⟩
          simp only [genProofLoopF, if_neg hpp, if_pos hdir, hstep]
          rw [hrec, List.append_assoc]
        · -- pos is a left child: sibling to the right, parent further right
          have hdir' : ¬ height < pos_height_in_tree (pos - lo + 1) := by
            rw [← hht_next]; exact hdir
          obtain ⟨hp1, hp2, hp3⟩ := hL hdir'
          have hso : sibling_offset height = 2 ^ (height + 1) - 1 := rfl
          have hpo : parent_offset height = 2 ^ (height + 1) := rfl
          have h2p : 1 ≤ 2 ^ (height + 1) := Nat.one_le_two_pow
          have hsiblt : pos + sibling_offset height < s.store.length := by
            rw [hso]; omega
          have hpar_ht : pos_height_in_tree (pos + parent_offset height) =
              height + 1 := by
            rw [hpo,
              show pos + 2 ^ (height + 1) = lo + (pos - lo + 2 ^ (height + 1)) by
                omega]
            rw [hsh (pos - lo + 2 ^ (height + 1)) (by omega)]
            exact hp3
          have hpar_le : pos + parent_offset height ≤ peak_pos := by
            rw [hpo]; omega
          obtain ⟨queue', ex0, hstep, hsubq, hmq⟩ :=
            genSibStep_ok s pos_list proof rest (pos + sibling_offset height)
              height hsiblt peak_pos
          have hinv' : ∀ e ∈ (if pos + parent_offset height < peak_pos
              then queue' ++ [(pos + parent_offset height, height + 1)]
              else queue'),
              lo ≤ e.1 ∧ e.1 ≤ peak_pos ∧ e.2 = pos_height_in_tree e.1 := by
            intro e he
            by_cases hparlt : pos + parent_offset height < peak_pos
            · rw [if_pos hparlt] at he
              rcases List.mem_append.1 he with he' | he'
              · exact hinv e (List.mem_cons_of_mem _ (hsubq e he'))
              · rw [List.mem_singleton] at he'
                subst he'
                exact ⟨le_trans hlo (Nat.le_add_right pos _), hparlt.le,
                  hpar_ht.symm⟩
            · rw [if_neg hparlt] at he
              exact hinv e (List.mem_cons_of_mem _ (hsubq e he))
          have hm' : queueMeasure peak_pos (if pos + parent_offset height < peak_pos
              then queue' ++ [(pos + parent_offset height, height + 1)]
              else queue') < fuel := by
            by_cases hparlt : pos + parent_offset height < peak_pos
            · rw [if_pos hparlt, queueMeasure_append, queueMeasure_singleton]
              rw [hpo] at hparlt ⊢
              omega
            · rw [if_neg hparlt]
              omega
          obtain ⟨extra', hrec⟩ := ih _ _ hinv' hm'
          refine ⟨ex0 ++ extra', ?_⟩
          simp only [genProofLoopF, if_neg hpp, if_neg hdir, hstep]
          rw [hrec, List.append_assoc]

theorem queueMeasure_le_len (peak : ℕ) (q : List (ℕ × ℕ)) :
    queueMeasure peak q ≤ q.length * (peak + 1) := by
  induction q with
  | nil => simp [queueMeasure]
  | cons e rest ih =>
    rw [queueMeasure_cons, List.length_cons, add_one_mul]
    omega

theorem gen_proof_for_peak_ok {T : Type} [DecidableEq T] (s : MMRState T)
    (proof : List (ℕ × T)) (pos_list : List ℕ) (lo k peak_pos : ℕ)
    (hpk : peak_pos = lo + (2 ^ (k + 1) - 2))
    (hlt : peak_pos < s.store.length)
    (hsh : ∀ q, q ≤ 2 ^ (k + 1) - 2 →
      pos_height_in_tree (lo + q) = pos_height_in_tree q)
    (hmem : ∀ p ∈ pos_list, lo ≤ p ∧ p ≤ peak_pos) :
    ∃ extra, gen_proof_for_peak s proof pos_list peak_pos = .ok (proof ++ extra) ∧
      (pos_list = [] → ¬ extra = []) := by
  by_cases h1 : pos_list = [peak_pos]
  · refine ⟨[], by simp [gen_proof_for_peak, h1], fun h0 => ?_⟩
    rw [h1] at h0
    exact absurd h0 (List.cons_ne_nil _ _)
  · by_cases h2 : pos_list = []
    · obtain ⟨v, hv⟩ := store_get_some s.store peak_pos hlt
      have hv' : s.store[peak_pos]? = some v := by
        rw [← List.get?_eq_getElem?]; exact hv
      refine ⟨[(peak_pos, v)], ?_, fun _ => by simp⟩
      simp [gen_proof_for_peak, h1, h2, hv']
    · have h3 := queueMeasure_le_len peak_pos
        (pos_list.map fun p => (p, pos_height_in_tree p))
      rw [List.length_map] at h3
      have h4 : pos_list.length * (peak_pos + 1) ≤
          pos_list.length * (peak_pos + 2) :=
        Nat.mul_le_mul_left _ (by omega)
      have h5 : (pos_list.length + 1) * (peak_pos + 2) =
          pos_list.length * (peak_pos + 2) + (peak_pos + 2) := by ring
      have hinv : ∀ e ∈ (pos_list.map fun p => (p, pos_height_in_tree p)),
          lo ≤ e.1 ∧ e.1 ≤ peak_pos ∧ e.2 = pos_height_in_tree e.1 := by
        intro e he
        rw [List.mem_map] at he
        obtain ⟨p, hp, rfl⟩ := he
        exact ⟨(hmem p hp).1, (hmem p hp).2, rfl⟩
      obtain ⟨extra, hrec⟩ := genProofLoopF_ok s pos_list lo k peak_pos hpk hlt hsh
        ((pos_list.length + 1) * (peak_pos + 2))
        (pos_list.map fun p => (p, pos_height_in_tree p)) proof hinv (by omega)
      exact ⟨extra,
        by rw [gen_proof_for_peak, if_neg h1, if_neg h2]; exact hrec,
        fun h0 => absurd h0 h2⟩

theorem filter_le_of_filter_lt (a b : ℕ) (hab : a < b) : ∀ l : List ℕ,
    (l.filter fun p => a < p).filter (fun p => b ≤ p) =
      l.filter (fun p => b ≤ p) := by
  intro l
  induction l with
  | nil => rfl
  | cons x rest ih =>
    rw [List.filter_cons]
    by_cases hx : a < x
    · rw [if_pos (by simpa using hx), List.filter_cons, List.filter_cons, ih]
    · rw [if_neg (by simpa using hx), List.filter_cons,
        if_neg (by simp; omega), ih]

theorem genProofPeaksGo_ok {T : Type} [DecidableEq T] (s : MMRState T) :
    ∀ {lo rem : ℕ} {ps : List ℕ}, PeaksFrom lo rem ps →
    ∀ (posl : List ℕ) (proof : List (ℕ × T)) (track : ℕ),
    lo + rem ≤ s.store.length →
    List.Sorted (· ≤ ·) posl →
    (∀ p ∈ posl, lo ≤ p) →
    track ≤ proof.length →
    ∃ extra track', genProofPeaksGo s ps posl proof track =
      .ok (proof ++ extra, track', posl.filter (fun p => lo + rem ≤ p)) ∧
      track' ≤ (proof ++ extra).length := by
  intro lo rem ps h
  induction h with
  | nil lo =>
    intro posl proof track _hsz _hsort hbnd htr
    have hfe : posl.filter (fun p => lo ≤ p) = posl :=
      List.filter_eq_self.2 (by
        intro b hb
        simpa using hbnd b hb)
    exact ⟨[], track, by simp [genProofPeaksGo, hfe], by simpa using htr⟩
  | cons lo k rem' rest hrem hsh hrec ih =>
    intro posl proof track hsz hsort hbnd htr
    have h2p : 2 ≤ 2 ^ (k + 1) := by
      calc 2 = 2 ^ 1 := by norm_num
      _ ≤ 2 ^ (k + 1) := Nat.pow_le_pow_right (by norm_num) (by omega)
    obtain ⟨ex1, hpk1, hne1⟩ := gen_proof_for_peak_ok s proof
      (posl.takeWhile fun p => p ≤ lo + (2 ^ (k + 1) - 2)) lo k
      (lo + (2 ^ (k + 1) - 2)) rfl (by omega)
      (fun q hq => hsh q (by omega))
      (by
        intro p hp
        obtain ⟨hple, hpmem⟩ := takeWhile_le_mem _ posl p hp
        exact ⟨hbnd p hpmem, hple⟩)
    obtain ⟨ex2, track2, hgo, hlen2⟩ := ih
      (posl.dropWhile fun p => p ≤ lo + (2 ^ (k + 1) - 2)) (proof ++ ex1)
      (if posl.takeWhile (fun p => p ≤ lo + (2 ^ (k + 1) - 2)) = []
        then track + 1 else 0)
      (by omega)
      (sorted_dropWhile_le_sorted _ posl hsort)
      (by
        intro p hp
        obtain ⟨hgt, _hpmem⟩ := dropWhile_le_mem_gt _ posl hsort p hp
        omega)
      (by
        by_cases hcur : posl.takeWhile (fun p => p ≤ lo + (2 ^ (k + 1) - 2)) = []
        · rw [if_pos hcur]
          have := hne1 hcur
          have : 1 ≤ ex1.length := by
            match ex1 with
            | [] => exact absurd rfl this
            | _ :: _ => simp
          simp only [List.length_append]
          omega
        · rw [if_neg hcur]
          omega)
    have hflt : ((posl.dropWhile fun p => p ≤ lo + (2 ^ (k + 1) - 2)).filter
        (fun p => lo + (2 ^ (k + 1) - 1) + rem' ≤ p)) =
        posl.filter (fun p => lo + (2 ^ (k + 1) - 1 + rem') ≤ p) := by
      rw [sorted_dropWhile_le_eq_filter _ posl hsort,
        show lo + (2 ^ (k + 1) - 1) + rem' = lo + (2 ^ (k + 1) - 1 + rem') by
          omega]
      exact filter_le_of_filter_lt _ _ (by omega) posl
    refine ⟨ex1 ++ ex2, track2, ?_, ?_⟩
    · simp only [genProofPeaksGo, hpk1]
      rw [hgo, List.append_assoc, hflt]
    · rw [List.append_assoc] at hlen2
      exact hlen2

theorem specBag_isSome {T : Type} (mergePeaks : T → T → T) (x : T) (l : List T) :
    ∃ r, specBag mergePeaks (x :: l) = some r := by
  cases hrev : (x :: l).reverse with
  | nil => exact absurd (congrArg List.length hrev) (by simp)
  | cons y ys => exact ⟨ys.foldl mergePeaks y, by rw [specBag, hrev]⟩

theorem bagProofTail_ok {T : Type} (mergePeaks : T → T → T)
    (proof : List (ℕ × T)) (track : ℕ) (h1 : 1 ≤ track)
    (hlen : 1 ≤ proof.length) :
    ∃ res, bagProofTail mergePeaks proof track = .ok res := by
  cases hrhs : proof.drop (proof.length - track) with
  | nil =>
    exfalso
    have hl := congrArg List.length hrhs
    rw [List.length_drop] at hl
    simp at hl
    omega
  | cons e rtail =>
    obtain ⟨p0, v0⟩ := e
    obtain ⟨r, hr⟩ := specBag_isSome mergePeaks v0 (rtail.map Prod.snd)
    have hb : bag_rhs_peaks mergePeaks (v0 :: rtail.map Prod.snd) = some r :=
      (bag_rhs_peaks_eq_specBag mergePeaks _).trans hr
    refine ⟨proof.take (proof.length - track) ++ [(p0, r)], ?_⟩
    rw [bagProofTail, hrhs]
    dsimp only
    rw [hb]

theorem gen_proof_ok {T : Type} [DecidableEq T] (mergePeaks : T → T → T)
    (s : MMRState T) (L : ℕ) (pos_list : List ℕ)
    (hsz : s.mmr_size = mmr_size_of_leaf_count L)
    (hst : store_complete s)
    (hne : ¬ pos_list = [])
    (hnot1 : ¬ (s.mmr_size = 1 ∧ pos_list = [0]))
    (hbnd : ∀ p ∈ pos_list, p < s.mmr_size) :
    ∃ pf, gen_proof mergePeaks s pos_list = .ok pf := by
  have hpeaks : get_peaks s.mmr_size = peaksList L := by
    rw [hsz, get_peaks_of_size]
  obtain ⟨extra, track, hgo, htr⟩ := genProofPeaksGo_ok s
    (peaksFrom_of_leaf_count L) (dedupNat (sortNat pos_list)) [] 0
    (by rw [hst, hsz]; omega)
    (dedupNat_sorted _ (sortNat_sorted _))
    (fun p _ => Nat.zero_le p)
    (by simp)
  have hfe : (dedupNat (sortNat pos_list)).filter
      (fun p => 0 + mmr_size_of_leaf_count L ≤ p) = [] := by
    rw [List.filter_eq_nil_iff]
    intro a ha
    rw [dedupNat_mem_iff, sortNat_mem_iff] at ha
    have := hbnd a ha
    rw [hsz] at this
    simp
    omega
  rw [hfe] at hgo
  obtain ⟨pf2, hbag⟩ : ∃ pf2, (if 1 < track
      then bagProofTail mergePeaks ([] ++ extra) track
      else .ok ([] ++ extra)) = .ok pf2 := by
    by_cases ht2 : 1 < track
    · obtain ⟨res, hres⟩ := bagProofTail_ok mergePeaks ([] ++ extra) track
        (by omega) (by simp only [List.nil_append] at htr ⊢; omega)
      exact ⟨res, by rw [if_pos ht2, hres]⟩
    · exact ⟨[] ++ extra, by rw [if_neg ht2]⟩
  refine ⟨⟨s.mmr_size, sortPairs pf2⟩, ?_⟩
  simp only [gen_proof, if_neg hne, if_neg hnot1]
  rw [hpeaks, hgo]
  dsimp only
  rw [if_neg (show ¬ ¬ ([] : List ℕ) = [] by simp), hbag]

theorem gen_proof_err {T : Type} [DecidableEq T] (mergePeaks : T → T → T)
    (s : MMRState T) (L : ℕ) (pos_list : List ℕ)
    (hsz : s.mmr_size = mmr_size_of_leaf_count L)
    (hst : store_complete s)
    (hnot1 : ¬ (s.mmr_size = 1 ∧ pos_list = [0]))
    (p0 : ℕ) (hp0 : p0 ∈ pos_list) (hp0ge : s.mmr_size ≤ p0) :
    gen_proof mergePeaks s pos_list = .err .GenProofForInvalidNodes := by
  have hne : ¬ pos_list = [] := by
    intro h0
    rw [h0] at hp0
    simp at hp0
  have hpeaks : get_peaks s.mmr_size = peaksList L := by
    rw [hsz, get_peaks_of_size]
  obtain ⟨extra, track, hgo, _htr⟩ := genProofPeaksGo_ok s
    (peaksFrom_of_leaf_count L) (dedupNat (sortNat pos_list)) [] 0
    (by rw [hst, hsz]; omega)
    (dedupNat_sorted _ (sortNat_sorted _))
    (fun p _ => Nat.zero_le p)
    (by simp)
  have hmemf : p0 ∈ (dedupNat (sortNat pos_list)).filter
      (fun p => 0 + mmr_size_of_leaf_count L ≤ p) := by
    rw [List.mem_filter, dedupNat_mem_iff, sortNat_mem_iff]
    refine ⟨hp0, ?_⟩
    rw [hsz] at hp0ge
    simp
    omega
  simp only [gen_proof, if_neg hne, if_neg hnot1]
  rw [hpeaks, hgo]
  dsimp only
  rw [if_pos (show ¬ (dedupNat (sortNat pos_list)).filter
      (fun p => 0 + mmr_size_of_leaf_count L ≤ p) = [] from
    fun h0 => by rw [h0] at hmemf; simp at hmemf)]

/-- C7: with a complete store and a push-reachable `mmr_size`, `gen_proof`
returns `GenProofForInvalidNodes` exactly when the requested position list
is empty or mentions a position at or past `mmr_size`, and the size-1
singleton input `[0]` instead returns the empty proof. -/
theorem c7_gen_proof_invalid_nodes {T : Type} [DecidableEq T]
    (mergePeaks : T → T → T) (s : MMRState T) (L : ℕ) (pos_list : List ℕ)
    (hsz : s.mmr_size = mmr_size_of_leaf_count L)
    (hst : store_complete s) :
    (gen_proof mergePeaks s pos_list = .err .GenProofForInvalidNodes ↔
      (pos_list = [] ∨ ∃ p ∈ pos_list, s.mmr_size ≤ p)) ∧
    (s.mmr_size = 1 → gen_proof mergePeaks s [0] = .ok ⟨s.mmr_size, []⟩) := by
  constructor
  · constructor
    · intro herr
      by_contra hc
      push_neg at hc
      obtain ⟨hne, hall⟩ := hc
      by_cases h1 : s.mmr_size = 1 ∧ pos_list = [0]
      · obtain ⟨h1a, h1b⟩ := h1
        rw [show gen_proof mergePeaks s pos_list = .ok ⟨s.mmr_size, []⟩ from
          by simp [gen_proof, h1a, h1b]] at herr
        exact RunResult.noConfusion herr
      · obtain ⟨pf, hok⟩ := gen_proof_ok mergePeaks s L pos_list hsz hst hne h1 hall
        rw [hok] at herr
        exact RunResult.noConfusion herr
    · intro hdisj
      rcases hdisj with hnil | ⟨p0, hp0, hge⟩
      · subst hnil
        simp [gen_proof]
      · have hnot1 : ¬ (s.mmr_size = 1 ∧ pos_list = [0]) := by
          rintro ⟨h1, h2⟩
          rw [h2, List.mem_singleton] at hp0
          subst hp0
          rw [h1] at hge
          omega
        exact gen_proof_err mergePeaks s L pos_list hsz hst hnot1 p0 hp0 hge
  · intro h1
    simp [gen_proof, h1]

theorem mem_of_getLast_some {α : Type} : ∀ (l : List α) (a : α),
    l.getLast? = some a → a ∈ l := by
  intro l
  induction l with
  | nil => intro a h; simp at h
  | cons x rest ih =>
    intro a h
    match rest with
    | [] =>
      rw [List.getLast?_singleton] at h
      have hxa : x = a := by injection h
      subst hxa
      exact List.mem_cons_self _ _
    | y :: rrest =>
      rw [List.getLast?_cons_cons] at h
      exact List.mem_cons_of_mem _ (ih a h)

theorem c7_gen_proof_invalid_nodes_witness :
    (exTwo.mmr_size = mmr_size_of_leaf_count 2 ∧ store_complete exTwo) ∧
    ((gen_proof Tree.node exTwo [5] = .err .GenProofForInvalidNodes ↔
      (([5] : List ℕ) = [] ∨ ∃ p ∈ ([5] : List ℕ), exTwo.mmr_size ≤ p)) ∧
     (exTwo.mmr_size = 1 →
       gen_proof Tree.node exTwo [0] = .ok ⟨exTwo.mmr_size, []⟩)) :=
  ⟨⟨by decide, rfl⟩,
    c7_gen_proof_invalid_nodes Tree.node exTwo 2 [5] (by decide) rfl⟩

/-- C9 (amended): with a complete store and push-reachable sizes, a
predecessor size strictly above the current size makes
`get_ancestor_peaks_and_root` fail with `AncestorRootNotPredecessor` (once
the MMR is non-empty), while `gen_ancestry_proof` instead fails with
`GenProofForInvalidNodes`, because it validates the previous peaks'
positions against the current size before the ancestor-root check. -/
theorem c9_ancestry_size_errors {T : Type} [DecidableEq T]
    (mergePeaks : T → T → T) (s : MMRState T) (L Lp prev : ℕ)
    (hsz : s.mmr_size = mmr_size_of_leaf_count L)
    (hprev : prev = mmr_size_of_leaf_count Lp)
    (hst : store_complete s)
    (hlt : s.mmr_size < prev) :
    (1 ≤ s.mmr_size → get_ancestor_peaks_and_root mergePeaks s prev =
      .err .AncestorRootNotPredecessor) ∧
    gen_ancestry_proof mergePeaks s prev = .err .GenProofForInvalidNodes := by
  constructor
  · intro h1
    have h0 : ¬ s.mmr_size = 0 := by omega
    have h11 : ¬ (s.mmr_size = 1 ∧ prev = 1) := by
      rintro ⟨ha, hb⟩
      omega
    simp [get_ancestor_peaks_and_root, h0, h11, hlt]
  · have hprev1 : 1 ≤ prev := by omega
    have hpf := peaksFrom_of_leaf_count Lp
    rw [← hprev] at hpf
    have hne' : peaksList Lp ≠ [] := peaksFrom_ne_nil hpf (by omega)
    have hpeaks_prev : get_peaks prev = peaksList Lp := by
      rw [hprev, get_peaks_of_size]
    have hne : ¬ get_peaks prev = [] := by rw [hpeaks_prev]; exact hne'
    have hlast : (peaksList Lp).getLast? = some (prev - 1) := by
      have := peaksFrom_last hpf hne'
      simpa using this
    have hmeml : prev - 1 ∈ peaksList Lp := mem_of_getLast_some _ _ hlast
    have hnot1 : ¬ (s.mmr_size = 1 ∧ get_peaks prev = [0]) := by
      rintro ⟨ha, hb⟩
      rw [hpeaks_prev] at hb
      rw [hb, List.getLast?_singleton] at hlast
      have h01 : (0 : ℕ) = prev - 1 := by injection hlast
      omega
    obtain ⟨extra, track, hgo, _htr⟩ := genProofPeaksGo_ok s
      (peaksFrom_of_leaf_count L) (dedupNat (sortNat (get_peaks prev))) [] 0
      (by rw [hst, hsz]; omega)
      (dedupNat_sorted _ (sortNat_sorted _))
      (fun p _ => Nat.zero_le p)
      (by simp)
    have hmemf : prev - 1 ∈ (dedupNat (sortNat (get_peaks prev))).filter
        (fun p => 0 + mmr_size_of_leaf_count L ≤ p) := by
      rw [List.mem_filter, dedupNat_mem_iff, sortNat_mem_iff, hpeaks_prev]
      refine ⟨hmeml, ?_⟩
      rw [← hsz]
      simp
      omega
    have hpeaks : get_peaks s.mmr_size = peaksList L := by
      rw [hsz, get_peaks_of_size]
    simp only [gen_ancestry_proof, if_neg hne, if_neg hnot1]
    rw [hpeaks, hgo]
    dsimp only
    rw [if_pos (show ¬ (dedupNat (sortNat (get_peaks prev))).filter
        (fun p => 0 + mmr_size_of_leaf_count L ≤ p) = [] from
      fun h0 => by rw [h0] at hmemf; simp at hmemf)]

theorem length_filterMap_get {T : Type} (store : List T) : ∀ ps : List ℕ,
    (∀ p ∈ ps, (store.get? p).isSome) →
    (ps.filterMap store.get?).length = ps.length := by
  intro ps
  induction ps with
  | nil => intro _; rfl
  | cons p rest ih =>
    intro h
    obtain ⟨v, hv⟩ : ∃ v, store.get? p = some v := by
      have hs := h p (List.mem_cons_self _ _)
      match hg : store.get? p with
      | some v => exact ⟨v, rfl⟩
      | none => rw [hg] at hs; simp at hs
    simp only [List.filterMap_cons, hv, List.length_cons]
    rw [ih (fun q hq => h q (List.mem_cons_of_mem _ hq))]

/-- C2 (amended): for a complete store with push-reachable sizes, a valid
previous size of at least two leaves, and `prev ≤ mmr_size`,
`gen_ancestry_proof` succeeds and `get_root` of the truncated MMR yields
the previous root; but under the default build (no `nodeproofs` feature)
`verify_ancestor` rejects the generated proof with
`NodeProofsNotSupported` for every claimed root, because the previous
peaks it must re-verify are internal nodes. -/
theorem c2_ancestry_default_rejects {T : Type} [DecidableEq T]
    (merge mergePeaks : T → T → T) (s : MMRState T) (L Lp prev : ℕ)
    (hsz : s.mmr_size = mmr_size_of_leaf_count L)
    (hprev : prev = mmr_size_of_leaf_count Lp)
    (hLp : 2 ≤ Lp)
    (hst : store_complete s)
    (hple : prev ≤ s.mmr_size) :
    ∃ ap prev_root,
      gen_ancestry_proof mergePeaks s prev = .ok ap ∧
      get_root mergePeaks (⟨prev, s.store⟩ : MMRState T) = .ok prev_root ∧
      ∀ root, verify_ancestor merge mergePeaks false ap root prev_root =
        .err .NodeProofsNotSupported := by
  have h3 : 3 ≤ prev := by
    have h1 := size_of_leaf_count_strictMono.monotone hLp
    have h2 : mmr_size_of_leaf_count 2 = 3 := by decide
    omega
  have hLpL : Lp ≤ L := by
    apply size_of_leaf_count_strictMono.le_iff_le.1
    omega
  have hpf : PeaksFrom 0 prev (peaksList Lp) := by
    rw [hprev]; exact peaksFrom_of_leaf_count Lp
  have hppeaks : get_peaks prev = peaksList Lp := by
    rw [hprev, get_peaks_of_size]
  have hbounds := peaksFrom_mem_bounds hpf
  obtain ⟨p0, prest, hps, hht⟩ := peaksList_head_internal hLp
  have hp0lt : p0 < s.store.length := by
    have := (hbounds p0 (by rw [hps]; exact List.mem_cons_self _ _)).2
    rw [hst]
    omega
  have hsome : ∀ p ∈ get_peaks prev, (s.store.get? p).isSome := by
    intro p hp
    rw [hppeaks] at hp
    obtain ⟨v, hv⟩ := store_get_some s.store p (by
      have := (hbounds p hp).2
      rw [hst]
      omega)
    rw [hv]
    rfl
  obtain ⟨v0, hv0⟩ := store_get_some s.store p0 hp0lt
  have hv0' : s.store[p0]? = some v0 := by
    rw [← List.get?_eq_getElem?]; exact hv0
  have helems : (get_peaks prev).filterMap s.store.get? =
      v0 :: prest.filterMap s.store.get? := by
    rw [hppeaks, hps]
    simp [List.filterMap_cons, hv0']
  obtain ⟨r, hr⟩ := specBag_isSome mergePeaks v0 (prest.filterMap s.store.get?)
  have hbagr : bag_rhs_peaks mergePeaks
      ((get_peaks prev).filterMap s.store.get?) = some r := by
    rw [helems, bag_rhs_peaks_eq_specBag]
    exact hr
  have hget : getElems s (get_peaks prev) =
      .ok ((get_peaks prev).filterMap s.store.get?) :=
    getElems_eq_filterMap s _ hsome
  have hnot0 : ¬ s.mmr_size = 0 := by omega
  have hnot11 : ¬ (s.mmr_size = 1 ∧ prev = 1) := by rintro ⟨_, hb⟩; omega
  have hnotlt : ¬ s.mmr_size < prev := by omega
  have hanc : get_ancestor_peaks_and_root mergePeaks s prev =
      .ok ((get_peaks prev).filterMap s.store.get?, r) := by
    simp only [get_ancestor_peaks_and_root, if_neg hnot0, if_neg hnot11,
      if_neg hnotlt]
    rw [hget]
    dsimp only
    rw [hbagr]
  have hget' : getElems (⟨prev, s.store⟩ : MMRState T) (get_peaks prev) =
      .ok ((get_peaks prev).filterMap s.store.get?) :=
    getElems_eq_filterMap _ _ hsome
  have hroot : get_root mergePeaks (⟨prev, s.store⟩ : MMRState T) = .ok r := by
    simp only [get_root, if_neg (show ¬ prev = 0 by omega),
      if_neg (show ¬ prev = 1 by omega)]
    rw [hget']
    dsimp only
    rw [hbagr]
  have hne : ¬ get_peaks prev = [] := by
    rw [hppeaks, hps]
    simp
  have hnot1 : ¬ (s.mmr_size = 1 ∧ get_peaks prev = [0]) := by
    rintro ⟨ha, _⟩
    omega
  obtain ⟨extra, track, hgo, htr⟩ := genProofPeaksGo_ok s
    (peaksFrom_of_leaf_count L) (dedupNat (sortNat (get_peaks prev))) [] 0
    (by rw [hst, hsz]; omega)
    (dedupNat_sorted _ (sortNat_sorted _))
    (fun p _ => Nat.zero_le p)
    (by simp)
  have hfe : (dedupNat (sortNat (get_peaks prev))).filter
      (fun p => 0 + mmr_size_of_leaf_count L ≤ p) = [] := by
    rw [List.filter_eq_nil_iff]
    intro a ha
    rw [dedupNat_mem_iff, sortNat_mem_iff, hppeaks] at ha
    have := (hbounds a ha).2
    simp
    omega
  rw [hfe] at hgo
  obtain ⟨pf2, hbag2⟩ : ∃ pf2, (if 1 < track
      then bagProofTail mergePeaks ([] ++ extra) track
      else .ok ([] ++ extra)) = .ok pf2 := by
    by_cases ht2 : 1 < track
    · obtain ⟨res, hres⟩ := bagProofTail_ok mergePeaks ([] ++ extra) track
        (by omega) (by simp only [List.nil_append] at htr ⊢; omega)
      exact ⟨res, by rw [if_pos ht2, hres]⟩
    · exact ⟨[] ++ extra, by rw [if_neg ht2]⟩
  have hpeaks : get_peaks s.mmr_size = peaksList L := by
    rw [hsz, get_peaks_of_size]
  have hgen : gen_ancestry_proof mergePeaks s prev =
      .ok ⟨(get_peaks prev).filterMap s.store.get?, prev,
        ⟨s.mmr_size, sortPairs pf2⟩⟩ := by
    simp only [gen_ancestry_proof, if_neg hne, if_neg hnot1]
    rw [hpeaks, hgo]
    dsimp only
    rw [if_neg (show ¬ ¬ ([] : List ℕ) = [] by simp), hbag2]
    dsimp only
    rw [hanc]
  refine ⟨_, _, hgen, hroot, ?_⟩
  intro root
  have hlenelems : ((get_peaks prev).filterMap s.store.get?).length =
      (get_peaks prev).length := length_filterMap_get s.store _ hsome
  have hLlen : ¬ (get_peak_map s.mmr_size ≤
      ((get_peaks prev).filterMap s.store.get?).length) := by
    rw [hlenelems, hppeaks, hsz, get_peak_map_of_size]
    have hltp := peaksList_length_lt hLp
    omega
  have hleneq : ¬ ¬ ((get_peaks prev).length =
      ((get_peaks prev).filterMap s.store.get?).length) := by
    rw [hlenelems]
    simp
  have hbagging : bagging_peaks_hashes mergePeaks
      ((get_peaks prev).filterMap s.store.get?) = .ok r := by
    rw [bagging_eq_bag, hbagr]
  have hzip : ((get_peaks prev).filterMap s.store.get?).zip (get_peaks prev) =
      (v0, p0) :: (prest.filterMap s.store.get?).zip prest := by
    rw [helems, hppeaks, hps, List.zip_cons_cons]
  have hcond : (false = false ∧
      ((((get_peaks prev).filterMap s.store.get?).zip (get_peaks prev)).map
        (fun e => (e.2, e.1))).any
          (fun e => 0 < pos_height_in_tree e.1)) := by
    refine ⟨rfl, ?_⟩
    rw [hzip]
    simp only [List.map_cons, List.any_cons, Bool.or_eq_true]
    left
    simp
    omega
  simp only [verify_ancestor]
  rw [if_neg hLlen, if_neg hleneq, hbagging]
  dsimp only
  rw [if_neg (show ¬ ¬ (r = r) by simp)]
  simp only [verify]
  rw [if_pos ⟨trivial, hcond.2⟩]

theorem c2_ancestry_default_rejects_witness :
    (exTwo.mmr_size = mmr_size_of_leaf_count 2 ∧
      (3 : ℕ) = mmr_size_of_leaf_count 2 ∧ store_complete exTwo ∧
      (3 : ℕ) ≤ exTwo.mmr_size) ∧
    (∃ ap prev_root,
      gen_ancestry_proof Tree.node exTwo 3 = .ok ap ∧
      get_root Tree.node (⟨3, exTwo.store⟩ : MMRState Tree) = .ok prev_root ∧
      ∀ root, verify_ancestor Tree.node Tree.node false ap root prev_root =
        .err .NodeProofsNotSupported) :=
  ⟨⟨by decide, by decide, rfl, by decide⟩,
    c2_ancestry_default_rejects Tree.node Tree.node exTwo 2 2 3 (by decide)
      (by decide) le_rfl rfl (by decide)⟩

/-! ## Geometry of perfect subtrees, covers, and verifier states -/

theorem ht_zero : pos_height_in_tree 0 = 0 := by decide

theorem two_le_two_pow_succ (k : ℕ) : 2 ≤ 2 ^ (k + 1) := by
  calc 2 = 2 ^ 1 := by norm_num
  _ ≤ 2 ^ (k + 1) := Nat.pow_le_pow_right (by norm_num) (by omega)

theorem ht_right_start (k : ℕ) : pos_height_in_tree (2 ^ (k + 1) - 1) = 0 := by
  have h2 := two_le_two_pow_succ k
  have := height_shift k 0 (by omega)
  simpa [ht_zero] using this

theorem ht_le_span : ∀ k q : ℕ, q ≤ 2 ^ (k + 1) - 2 → pos_height_in_tree q ≤ k := by
  intro k
  induction k with
  | zero =>
    intro q hq
    have hq0 : q = 0 := by
      norm_num at hq
      omega
    subst hq0
    rw [ht_zero]
  | succ k ih =>
    intro q hq
    have h2 : (2 : ℕ) ^ (k + 2) = 2 * 2 ^ (k + 1) := by ring
    have h2p : 2 ≤ 2 ^ (k + 1) := by
      calc 2 = 2 ^ 1 := by norm_num
      _ ≤ 2 ^ (k + 1) := Nat.pow_le_pow_right (by norm_num) (by omega)
    by_cases hl : q ≤ 2 ^ (k + 1) - 2
    · exact le_trans (ih q hl) (by omega)
    · by_cases hr : q = 2 ^ (k + 1) - 2 + (2 ^ (k + 1) - 1) + 1
      · have : q = 2 ^ (k + 2) - 2 := by omega
        subst this
        rw [height_perfect_root]
      · have hq' : q = (2 ^ (k + 1) - 1) + (q - (2 ^ (k + 1) - 1)) := by omega
        have hlt : q - (2 ^ (k + 1) - 1) + 1 ≤ 2 ^ (k + 1) - 1 := by omega
        rw [hq', height_shift k _ hlt]
        exact le_trans (ih _ (by omega)) (by omega)

theorem spanCover_bounds : ∀ {lo k : ℕ} {ps : List ℕ}, SpanCover lo k ps →
    ∀ p ∈ ps, lo ≤ p ∧ p ≤ lo + (2 ^ (k + 1) - 2) := by
  intro lo k ps h
  induction h with
  | root lo k =>
    intro p hp
    rw [List.mem_singleton] at hp
    subst hp
    exact ⟨by omega, le_rfl⟩
  | split lo k lps rps _hl _hr ihl ihr =>
    intro p hp
    have h2 : (2 : ℕ) ^ (k + 2) = 2 * 2 ^ (k + 1) := by ring
    have h2p : 1 ≤ 2 ^ (k + 1) := Nat.one_le_two_pow
    rcases List.mem_append.1 hp with hp' | hp'
    · have := ihl p hp'
      omega
    · have := ihr p hp'
      omega

theorem spanCover_ne_nil {lo k : ℕ} {ps : List ℕ} (h : SpanCover lo k ps) :
    ¬ ps = [] := by
  induction h with
  | root lo k => simp
  | split lo k lps rps _hl _hr ihl _ihr =>
    intro hc
    rw [List.append_eq_nil] at hc
    exact ihl hc.1

theorem vstate_B_ne_nil : ∀ {lo k : ℕ} {B A : List ℕ}, VState lo k B A →
    ¬ B = [] := by
  intro lo k B A h
  induction h with
  | fresh lo k C hC => exact spanCover_ne_nil hC
  | left lo k B A Cr _hv hCr ih =>
    intro hc
    rw [List.append_eq_nil] at hc
    exact ih hc.1
  | right lo k B A _hv ih => exact ih

theorem vstate_B_bounds : ∀ {lo k : ℕ} {B A : List ℕ}, VState lo k B A →
    ∀ p ∈ B, lo ≤ p ∧ p ≤ lo + (2 ^ (k + 1) - 2) := by
  intro lo k B A h
  induction h with
  | fresh lo k C hC => exact spanCover_bounds hC
  | left lo k B A Cr _hv hCr ih =>
    intro p hp
    have h2 : (2 : ℕ) ^ (k + 2) = 2 * 2 ^ (k + 1) := by ring
    have h2p : 1 ≤ 2 ^ (k + 1) := Nat.one_le_two_pow
    rcases List.mem_append.1 hp with hp' | hp'
    · have := ih p hp'
      omega
    · have := spanCover_bounds hCr p hp'
      omega
  | right lo k B A _hv ih =>
    intro p hp
    have h2 : (2 : ℕ) ^ (k + 2) = 2 * 2 ^ (k + 1) := by ring
    have h2p : 1 ≤ 2 ^ (k + 1) := Nat.one_le_two_pow
    have := ih p hp
    omega

theorem toEntries_nil {T : Type} (f : ℕ → T) : toEntries f [] = [] := rfl

theorem toEntries_cons {T : Type} (f : ℕ → T) (p : ℕ) (ps : List ℕ) :
    toEntries f (p :: ps) =
      (p, f p, pos_height_in_tree p) :: toEntries f ps := rfl

theorem toEntries_append {T : Type} (f : ℕ → T) (l1 l2 : List ℕ) :
    toEntries f (l1 ++ l2) = toEntries f l1 ++ toEntries f l2 := by
  simp [toEntries]

theorem toEntries_head {T : Type} (f : ℕ → T) (l : List ℕ) :
    (toEntries f l).head? =
      l.head?.map fun p => (p, f p, pos_height_in_tree p) := by
  match l with
  | [] => rfl
  | p :: ps => rfl

theorem toEntries_getLast {T : Type} (f : ℕ → T) (l : List ℕ) :
    (toEntries f l).getLast? =
      l.getLast?.map fun p => (p, f p, pos_height_in_tree p) := by
  rw [toEntries, List.getLast?_map]

theorem map_dropLast {α β : Type} (g : α → β) : ∀ l : List α,
    (l.map g).dropLast = l.dropLast.map g := by
  intro l
  induction l with
  | nil => rfl
  | cons x rest ih =>
    match rest with
    | [] => rfl
    | y :: rrest =>
      show g x :: ((y :: rrest).map g).dropLast =
        g x :: ((y :: rrest).dropLast).map g
      rw [ih]

theorem toEntries_dropLast {T : Type} (f : ℕ → T) (l : List ℕ) :
    (toEntries f l).dropLast = toEntries f l.dropLast := by
  rw [toEntries, toEntries, map_dropLast]

/-! ## One-iteration lemmas for `calculate_peak_root` -/

theorem calcLoop_cons_ne {T : Type} [DecidableEq T] (merge : T → T → T)
    (peak fuel pos : ℕ) (item : T) (h : ℕ)
    (rest sibs : List (ℕ × T × ℕ)) (hne : ¬ pos = peak) :
    calcPeakRootLoopF merge peak (fuel + 1) ((pos, item, h) :: rest) sibs =
      (match crStep merge peak rest sibs pos item h with
        | .inl r => r
        | .inr (q, sb) => calcPeakRootLoopF merge peak fuel q sb) := by
  simp only [calcPeakRootLoopF, if_neg hne]

theorem calcLoop_done {T : Type} [DecidableEq T] (merge : T → T → T)
    (peak fuel : ℕ) (item : T) (h : ℕ) (sibs : List (ℕ × T × ℕ)) :
    calcPeakRootLoopF merge peak (fuel + 1) [(peak, item, h)] sibs = .ok item := by
  simp [calcPeakRootLoopF]

theorem crStep_left_front {T : Type} [DecidableEq T] (merge : T → T → T)
    (peak pos : ℕ) (item : T) (height spos : ℕ) (sitem : T) (sh : ℕ)
    (rest sibs : List (ℕ × T × ℕ))
    (hdir : ¬ height < pos_height_in_tree (pos + 1))
    (hspos : spos = pos + sibling_offset height)
    (hple : pos + parent_offset height ≤ peak)
    (hguard : peak = pos + parent_offset height ∨
      (¬ rest.head? = some (pos + parent_offset height, merge item sitem, height + 1) ∧
        ¬ (pos + parent_offset height, merge item sitem, height + 1) ∈ sibs)) :
    crStep merge peak ((spos, sitem, sh) :: rest) sibs pos item height =
      .inr ((pos + parent_offset height, merge item sitem, height + 1) :: rest,
        sibs) := by
  rw [crStep, if_neg hdir]
  dsimp only [List.head?_cons, List.tail_cons]
  rw [if_pos hspos, crParentStep, if_pos hple, if_pos hguard]

theorem crStep_left_rotate {T : Type} [DecidableEq T] (merge : T → T → T)
    (peak pos : ℕ) (item : T) (height fpos : ℕ) (fitem : T) (fh : ℕ)
    (rest sibs : List (ℕ × T × ℕ)) (bpos : ℕ) (bitem : T) (bh : ℕ)
    (hdir : ¬ height < pos_height_in_tree (pos + 1))
    (hfne : ¬ fpos = pos + sibling_offset height)
    (hlast : ((fpos, fitem, fh) :: rest).getLast? = some (bpos, bitem, bh))
    (hbne : ¬ bpos = pos + sibling_offset height)
    (hh : 0 < height)
    (hdesc : is_descendant_pos (pos + sibling_offset height) fpos = true) :
    crStep merge peak ((fpos, fitem, fh) :: rest) sibs pos item height =
      .inr (((fpos, fitem, fh) :: rest) ++ [(pos, item, height)], sibs) := by
  rw [crStep, if_neg hdir]
  dsimp only [List.head?_cons]
  rw [if_neg hfne, hlast]
  dsimp only
  rw [if_neg hbne, if_pos (⟨hh, hdesc⟩ :
    0 < height ∧ is_descendant_pos (pos + sibling_offset height) fpos = true)]

theorem crStep_right_front {T : Type} [DecidableEq T] (merge : T → T → T)
    (peak pos : ℕ) (item : T) (height spos : ℕ) (sitem : T) (sh : ℕ)
    (rest sibs : List (ℕ × T × ℕ))
    (hdir : height < pos_height_in_tree (pos + 1))
    (hspos : spos = pos - sibling_offset height)
    (hple : pos + 1 ≤ peak)
    (hguard : peak = pos + 1 ∨
      (¬ rest.head? = some (pos + 1, merge sitem item, height + 1) ∧
        ¬ (pos + 1, merge sitem item, height + 1) ∈ sibs)) :
    crStep merge peak ((spos, sitem, sh) :: rest) sibs pos item height =
      .inr ((pos + 1, merge sitem item, height + 1) :: rest, sibs) := by
  rw [crStep, if_pos hdir]
  dsimp only [List.head?_cons, List.tail_cons]
  rw [if_pos hspos, crParentStep, if_pos hple, if_pos hguard]

theorem crStep_right_back {T : Type} [DecidableEq T] (merge : T → T → T)
    (peak pos : ℕ) (item : T) (height fpos : ℕ) (fitem : T) (fh : ℕ)
    (rest sibs : List (ℕ × T × ℕ)) (bpos : ℕ) (bitem : T) (bh : ℕ)
    (hdir : height < pos_height_in_tree (pos + 1))
    (hfne : ¬ fpos = pos - sibling_offset height)
    (hlast : ((fpos, fitem, fh) :: rest).getLast? = some (bpos, bitem, bh))
    (hbpos : bpos = pos - sibling_offset height)
    (hple : pos + 1 ≤ peak)
    (hguard : peak = pos + 1 ∨
      (¬ (((fpos, fitem, fh) :: rest).dropLast).head? =
          some (pos + 1, merge bitem item, height + 1) ∧
        ¬ (pos + 1, merge bitem item, height + 1) ∈ sibs)) :
    crStep merge peak ((fpos, fitem, fh) :: rest) sibs pos item height =
      .inr ((pos + 1, merge bitem item, height + 1) ::
        ((fpos, fitem, fh) :: rest).dropLast, sibs) := by
  rw [crStep, if_pos hdir]
  dsimp only [List.head?_cons]
  rw [if_neg hfne, hlast]
  dsimp only
  rw [if_pos hbpos, crParentStep, if_pos hple, if_pos hguard]

theorem spanCover_ne_root_facts {lo k : ℕ} {ps : List ℕ} (h : SpanCover lo k ps)
    (hne : ¬ ps = [lo + (2 ^ (k + 1) - 2)]) :
    0 < k ∧ ∀ p ∈ ps, p < lo + (2 ^ (k + 1) - 2) := by
  cases h with
  | root => exact absurd rfl hne
  | split _ k' lps rps hl hr =>
    have h2 : (2 : ℕ) ^ (k' + 2) = 2 * 2 ^ (k' + 1) := by ring
    have h2p : 2 ≤ 2 ^ (k' + 1) := two_le_two_pow_succ k'
    refine ⟨by omega, ?_⟩
    intro p hp
    rcases List.mem_append.1 hp with hp' | hp'
    · have := spanCover_bounds hl p hp'
      omega
    · have := spanCover_bounds hr p hp'
      omega

theorem head_some_of_ne_nil {α : Type} (l : List α) (h : ¬ l = []) :
    ∃ b, l.head? = some b := by
  match l with
  | [] => exact absurd rfl h
  | x :: rest => exact ⟨x, rfl⟩

theorem getLast_some_of_ne_nil {α : Type} : ∀ (l : List α), ¬ l = [] →
    ∃ b, l.getLast? = some b := by
  intro l
  induction l with
  | nil => intro h; exact absurd rfl h
  | cons x rest ih =>
    intro _
    match rest with
    | [] => exact ⟨x, rfl⟩
    | y :: rrest =>
      obtain ⟨b, hb⟩ := ih (by simp)
      exact ⟨b, by rw [List.getLast?_cons_cons]; exact hb⟩

theorem vstate_cases {lo k : ℕ} {B Ain : List ℕ} (h : VState lo (k + 1) B Ain) :
    (B = [lo + (2 ^ (k + 2) - 2)] ∧ Ain = []) ∨
    (∃ B_in Cr, B = B_in ++ Cr ∧ VState lo k B_in Ain ∧
      SpanCover (lo + (2 ^ (k + 1) - 1)) k Cr) ∨
    (∃ A_in, Ain = (lo + (2 ^ (k + 1) - 2)) :: A_in ∧
      VState (lo + (2 ^ (k + 1) - 1)) k B A_in) := by
  cases h with
  | fresh _ _ C hC =>
    cases hC with
    | root => exact Or.inl ⟨rfl, rfl⟩
    | split _ _ lps rps hl hr =>
      exact Or.inr (Or.inl ⟨lps, rps, rfl, VState.fresh _ _ lps hl, hr⟩)
  | left _ _ B' A' Cr hv hCr => exact Or.inr (Or.inl ⟨B', Cr, rfl, hv, hCr⟩)
  | right _ _ B' A' hv => exact Or.inr (Or.inr ⟨A', rfl, hv⟩)

theorem level_heights (k lo : ℕ)
    (hs : ∀ q, q ≤ 2 ^ (k + 2) - 2 →
      pos_height_in_tree (lo + q) = pos_height_in_tree q) :
    pos_height_in_tree (lo + (2 ^ (k + 1) - 2)) = k ∧
    pos_height_in_tree (lo + (2 ^ (k + 1) - 1)) = 0 ∧
    pos_height_in_tree (lo + (2 ^ (k + 2) - 3)) = k ∧
    pos_height_in_tree (lo + (2 ^ (k + 2) - 2)) = k + 1 := by
  have h2 : (2 : ℕ) ^ (k + 2) = 2 * 2 ^ (k + 1) := by ring
  have h2p : 2 ≤ 2 ^ (k + 1) := two_le_two_pow_succ k
  refine ⟨?_, ?_, ?_, ?_⟩
  · rw [hs (2 ^ (k + 1) - 2) (by omega)]
    exact height_perfect_root k
  · rw [hs (2 ^ (k + 1) - 1) (by omega)]
    exact ht_right_start k
  · rw [hs (2 ^ (k + 2) - 3) (by omega),
      show (2 : ℕ) ^ (k + 2) - 3 = (2 ^ (k + 1) - 1) + (2 ^ (k + 1) - 2) by omega,
      height_shift k (2 ^ (k + 1) - 2) (by omega)]
    exact height_perfect_root k
  · rw [hs (2 ^ (k + 2) - 2) (by omega)]
    exact height_perfect_root (k + 1)

/-- One verifier iteration: the left-child root at the queue front merges
with the whole right-sibling root just behind it, leaving the parent root
at the front. -/
theorem vstep_merge_lr {T : Type} [DecidableEq T] (merge : T → T → T) (f : ℕ → T)
    (gpeak glo : ℕ)
    (hmerge : ∀ p, glo ≤ p → p ≤ gpeak → 0 < pos_height_in_tree p →
      f p = merge (f (p - 2 ^ pos_height_in_tree p)) (f (p - 1)))
    (k lo : ℕ)
    (hs : ∀ q, q ≤ 2 ^ (k + 2) - 2 →
      pos_height_in_tree (lo + q) = pos_height_in_tree q)
    (hglo : glo ≤ lo) (hle : lo + (2 ^ (k + 2) - 2) ≤ gpeak)
    (Crest Aout : List ℕ) (fuel : ℕ)
    (hcrest : ∀ p ∈ Crest, lo + (2 ^ (k + 2) - 1) ≤ p ∧ p ≤ gpeak)
    (haout : ∀ p ∈ Aout, glo ≤ p ∧ p < lo) :
    calcPeakRootLoopF merge gpeak (fuel + 1)
      (toEntries f ((lo + (2 ^ (k + 1) - 2)) :: (lo + (2 ^ (k + 2) - 3)) ::
        (Crest ++ Aout))) [] =
    calcPeakRootLoopF merge gpeak fuel
      (toEntries f ((lo + (2 ^ (k + 2) - 2)) :: (Crest ++ Aout))) [] := by
  have h2 : (2 : ℕ) ^ (k + 2) = 2 * 2 ^ (k + 1) := by ring
  have h2p : 2 ≤ 2 ^ (k + 1) := two_le_two_pow_succ k
  obtain ⟨htlc, htlc1, htrc, htroot⟩ := level_heights k lo hs
  have hfroot : f (lo + (2 ^ (k + 2) - 2)) =
      merge (f (lo + (2 ^ (k + 1) - 2))) (f (lo + (2 ^ (k + 2) - 3))) := by
    have hm := hmerge (lo + (2 ^ (k + 2) - 2)) (by omega) (by omega)
      (by rw [htroot]; omega)
    rw [htroot] at hm
    rw [hm, show lo + (2 ^ (k + 2) - 2) - 2 ^ (k + 1) = lo + (2 ^ (k + 1) - 2) by
        omega,
      show lo + (2 ^ (k + 2) - 2) - 1 = lo + (2 ^ (k + 2) - 3) by omega]
  rw [toEntries_cons, toEntries_cons,
    calcLoop_cons_ne merge gpeak fuel _ _ _ _ _ (by omega),
    crStep_left_front merge gpeak _ _ _ _ _ _ _ _
      (by rw [show lo + (2 ^ (k + 1) - 2) + 1 = lo + (2 ^ (k + 1) - 1) by omega,
          htlc, htlc1]; omega)
      (by rw [htlc, sibling_offset]; omega)
      (by rw [htlc, parent_offset]; omega)
      ?hguard]
  case hguard =>
    rcases eq_or_ne gpeak (lo + (2 ^ (k + 1) - 2) +
        parent_offset (pos_height_in_tree (lo + (2 ^ (k + 1) - 2)))) with hpk | hpk
    · exact Or.inl hpk
    · refine Or.inr ⟨?_, by simp⟩
      cases hca : Crest ++ Aout with
      | nil => simp [toEntries]
      | cons c rest' =>
        rw [toEntries_cons]
        dsimp only [List.head?_cons]
        intro hceq
        have h3 : (c, f c, pos_height_in_tree c) =
            (lo + (2 ^ (k + 1) - 2) +
              parent_offset (pos_height_in_tree (lo + (2 ^ (k + 1) - 2))),
             merge (f (lo + (2 ^ (k + 1) - 2))) (f (lo + (2 ^ (k + 2) - 3))),
             pos_height_in_tree (lo + (2 ^ (k + 1) - 2)) + 1) := by
          injection hceq
        have hpos : c = lo + (2 ^ (k + 1) - 2) +
            parent_offset (pos_height_in_tree (lo + (2 ^ (k + 1) - 2))) := by
          injection h3
        rw [htlc, parent_offset] at hpos
        have hcmem : c ∈ Crest ++ Aout := by
          rw [hca]
          exact List.mem_cons_self _ _
        rcases List.mem_append.1 hcmem with hcc | hcc
        · have := hcrest c hcc
          omega
        · have := haout c hcc
          omega
  dsimp only
  have hentry : (lo + (2 ^ (k + 1) - 2) +
        parent_offset (pos_height_in_tree (lo + (2 ^ (k + 1) - 2))),
      merge (f (lo + (2 ^ (k + 1) - 2))) (f (lo + (2 ^ (k + 2) - 3))),
      pos_height_in_tree (lo + (2 ^ (k + 1) - 2)) + 1) =
      ((lo + (2 ^ (k + 2) - 2), f (lo + (2 ^ (k + 2) - 2)),
        pos_height_in_tree (lo + (2 ^ (k + 2) - 2))) : ℕ × T × ℕ) := by
    rw [htlc, htroot, hfroot, parent_offset,
      show lo + (2 ^ (k + 1) - 2) + 2 ^ (k + 1) = lo + (2 ^ (k + 2) - 2) by omega]
  rw [hentry]
  rfl

/-- One verifier iteration: the completed left-child root at the front has
a split right sibling, so it is rotated to the back of the queue. -/
theorem vstep_rotate {T : Type} [DecidableEq T] (merge : T → T → T) (f : ℕ → T)
    (gpeak glo : ℕ) (k lo : ℕ)
    (hs : ∀ q, q ≤ 2 ^ (k + 2) - 2 →
      pos_height_in_tree (lo + q) = pos_height_in_tree q)
    (hglo : glo ≤ lo) (hle : lo + (2 ^ (k + 2) - 2) ≤ gpeak)
    (Cr : List ℕ) (hCr : SpanCover (lo + (2 ^ (k + 1) - 1)) k Cr)
    (hcrne : ¬ Cr = [lo + (2 ^ (k + 2) - 3)])
    (Crest Aout : List ℕ) (fuel : ℕ)
    (hcrest : ∀ p ∈ Crest, lo + (2 ^ (k + 2) - 1) ≤ p ∧ p ≤ gpeak)
    (haout : ∀ p ∈ Aout, glo ≤ p ∧ p < lo) :
    calcPeakRootLoopF merge gpeak (fuel + 1)
      (toEntries f ((lo + (2 ^ (k + 1) - 2)) :: (Cr ++ Crest ++ Aout))) [] =
    calcPeakRootLoopF merge gpeak fuel
      (toEntries f (Cr ++ Crest ++ Aout ++ [lo + (2 ^ (k + 1) - 2)])) [] := by
  have h2 : (2 : ℕ) ^ (k + 2) = 2 * 2 ^ (k + 1) := by ring
  have h2p : 2 ≤ 2 ^ (k + 1) := two_le_two_pow_succ k
  obtain ⟨htlc, htlc1, htrc, htroot⟩ := level_heights k lo hs
  obtain ⟨hkpos, hcrlt⟩ := spanCover_ne_root_facts hCr (by
    rw [show lo + (2 ^ (k + 1) - 1) + (2 ^ (k + 1) - 2) = lo + (2 ^ (k + 2) - 3) by
      omega]
    exact hcrne)
  cases Cr with
  | nil => exact absurd rfl (spanCover_ne_nil hCr)
  | cons c0 Cr' =>
    have hc0b := spanCover_bounds hCr c0 (List.mem_cons_self _ _)
    have hc0lt := hcrlt c0 (List.mem_cons_self _ _)
    obtain ⟨b, hb⟩ := getLast_some_of_ne_nil (c0 :: (Cr' ++ Crest ++ Aout))
      (by simp)
    have hbmem := mem_of_getLast_some _ _ hb
    have hbne : ¬ b = lo + (2 ^ (k + 2) - 3) := by
      rw [List.mem_cons] at hbmem
      rcases hbmem with rfl | hbm
      · omega
      · rcases List.mem_append.1 hbm with hbm' | hbm'
        · rcases List.mem_append.1 hbm' with hbm'' | hbm''
          · have := hcrlt b (List.mem_cons_of_mem _ hbm'')
            omega
          · have := hcrest b hbm''
            omega
        · have := haout b hbm'
          omega
    simp only [List.cons_append, toEntries_cons]
    rw [calcLoop_cons_ne merge gpeak fuel _ _ _ _ _ (by omega),
      crStep_left_rotate merge gpeak _ _ _ _ _ _ _ _ b (f b)
        (pos_height_in_tree b)
        (by rw [show lo + (2 ^ (k + 1) - 2) + 1 = lo + (2 ^ (k + 1) - 1) by omega,
            htlc, htlc1]; omega)
        (by rw [htlc, sibling_offset]; omega)
        ?hlast
        (by rw [htlc, sibling_offset]; omega)
        (by rw [htlc]; omega)
        ?hdesc]
    case hlast =>
      rw [show ((c0, f c0, pos_height_in_tree c0) ::
          toEntries f (Cr' ++ Crest ++ Aout)) =
        toEntries f (c0 :: (Cr' ++ Crest ++ Aout)) from rfl]
      rw [toEntries_getLast, hb]
      rfl
    case hdesc =>
      rw [htlc, sibling_offset,
        show lo + (2 ^ (k + 1) - 2) + (2 ^ (k + 1) - 1) = lo + (2 ^ (k + 2) - 3) by
          omega,
        is_descendant_pos, decide_eq_true_eq]
      rw [htrc]
      omega
    dsimp only
    simp only [toEntries, List.map_append, List.map_cons, List.map_nil,
      List.cons_append, List.append_assoc, List.append_nil]

/-- One verifier iteration: the completed right-child root at the front
merges with its whole left sibling waiting at the back of the queue (or
directly in front when nothing else remains), leaving the parent root at
the front. -/
theorem vstep_merge_rl {T : Type} [DecidableEq T] (merge : T → T → T) (f : ℕ → T)
    (gpeak glo : ℕ)
    (hmerge : ∀ p, glo ≤ p → p ≤ gpeak → 0 < pos_height_in_tree p →
      f p = merge (f (p - 2 ^ pos_height_in_tree p)) (f (p - 1)))
    (k lo : ℕ)
    (hs : ∀ q, q ≤ 2 ^ (k + 2) - 2 →
      pos_height_in_tree (lo + q) = pos_height_in_tree q)
    (hglo : glo ≤ lo) (hle : lo + (2 ^ (k + 2) - 2) ≤ gpeak)
    (Crest Aout : List ℕ) (fuel : ℕ)
    (hcrest : ∀ p ∈ Crest, lo + (2 ^ (k + 2) - 1) ≤ p ∧ p ≤ gpeak)
    (haout : ∀ p ∈ Aout, glo ≤ p ∧ p < lo) :
    calcPeakRootLoopF merge gpeak (fuel + 1)
      (toEntries f ((lo + (2 ^ (k + 2) - 3)) ::
        (Crest ++ Aout ++ [lo + (2 ^ (k + 1) - 2)]))) [] =
    calcPeakRootLoopF merge gpeak fuel
      (toEntries f ((lo + (2 ^ (k + 2) - 2)) :: (Crest ++ Aout))) [] := by
  have h2 : (2 : ℕ) ^ (k + 2) = 2 * 2 ^ (k + 1) := by ring
  have h2p : 2 ≤ 2 ^ (k + 1) := two_le_two_pow_succ k
  obtain ⟨htlc, htlc1, htrc, htroot⟩ := level_heights k lo hs
  have hfroot : f (lo + (2 ^ (k + 2) - 2)) =
      merge (f (lo + (2 ^ (k + 1) - 2))) (f (lo + (2 ^ (k + 2) - 3))) := by
    have hm := hmerge (lo + (2 ^ (k + 2) - 2)) (by omega) (by omega)
      (by rw [htroot]; omega)
    rw [htroot] at hm
    rw [hm, show lo + (2 ^ (k + 2) - 2) - 2 ^ (k + 1) = lo + (2 ^ (k + 1) - 2) by
        omega,
      show lo + (2 ^ (k + 2) - 2) - 1 = lo + (2 ^ (k + 2) - 3) by omega]
  have hdir : pos_height_in_tree (lo + (2 ^ (k + 2) - 3)) <
      pos_height_in_tree (lo + (2 ^ (k + 2) - 3) + 1) := by
    rw [show lo + (2 ^ (k + 2) - 3) + 1 = lo + (2 ^ (k + 2) - 2) by omega,
      htrc, htroot]
    omega
  have hentry : (lo + (2 ^ (k + 2) - 3) + 1,
      merge (f (lo + (2 ^ (k + 1) - 2))) (f (lo + (2 ^ (k + 2) - 3))),
      pos_height_in_tree (lo + (2 ^ (k + 2) - 3)) + 1) =
      ((lo + (2 ^ (k + 2) - 2), f (lo + (2 ^ (k + 2) - 2)),
        pos_height_in_tree (lo + (2 ^ (k + 2) - 2))) : ℕ × T × ℕ) := by
    rw [htrc, htroot, hfroot,
      show lo + (2 ^ (k + 2) - 3) + 1 = lo + (2 ^ (k + 2) - 2) by omega]
  cases hca : Crest ++ Aout with
  | nil =>
    simp only [List.nil_append, toEntries_cons, toEntries_nil]
    rw [calcLoop_cons_ne merge gpeak fuel _ _ _ _ _ (by omega),
      crStep_right_front merge gpeak _ _ _ _ _ _ _ _
        hdir
        (by rw [htrc, sibling_offset]; omega)
        (by omega)
        (Or.inr ⟨by simp, by simp⟩)]
    dsimp only
    rw [hentry]
  | cons c rest' =>
    have hcmem : c ∈ Crest ++ Aout := by
      rw [hca]
      exact List.mem_cons_self _ _
    have hcne : ¬ c = lo + (2 ^ (k + 1) - 2) := by
      rcases List.mem_append.1 hcmem with hcc | hcc
      · have := hcrest c hcc
        omega
      · have := haout c hcc
        omega
    have hcne' : ¬ c = lo + (2 ^ (k + 2) - 2) := by
      rcases List.mem_append.1 hcmem with hcc | hcc
      · have := hcrest c hcc
        omega
      · have := haout c hcc
        omega
    simp only [List.cons_append, toEntries_cons]
    rw [calcLoop_cons_ne merge gpeak fuel _ _ _ _ _ (by omega),
      crStep_right_back merge gpeak _ _ _ _ _ _ _ _
        (lo + (2 ^ (k + 1) - 2)) (f (lo + (2 ^ (k + 1) - 2)))
        (pos_height_in_tree (lo + (2 ^ (k + 1) - 2)))
        hdir
        (by rw [htrc, sibling_offset]; intro hc; exact hcne (by omega))
        ?hlast
        (by rw [htrc, sibling_offset]; omega)
        (by omega)
        ?hguard]
    case hlast =>
      rw [show ((c, f c, pos_height_in_tree c) ::
          toEntries f (rest' ++ [lo + (2 ^ (k + 1) - 2)])) =
        toEntries f ((c :: rest') ++ [lo + (2 ^ (k + 1) - 2)]) from rfl]
      rw [toEntries_getLast, List.getLast?_concat]
      rfl
    case hguard =>
      refine Or.inr ⟨?_, by simp⟩
      rw [show ((c, f c, pos_height_in_tree c) ::
          toEntries f (rest' ++ [lo + (2 ^ (k + 1) - 2)])) =
        toEntries f ((c :: rest') ++ [lo + (2 ^ (k + 1) - 2)]) from rfl]
      rw [toEntries_dropLast, List.dropLast_concat, toEntries_cons]
      dsimp only [List.head?_cons]
      intro hceq
      have h3 : (c, f c, pos_height_in_tree c) =
          (lo + (2 ^ (k + 2) - 3) + 1,
            merge (f (lo + (2 ^ (k + 1) - 2))) (f (lo + (2 ^ (k + 2) - 3))),
            pos_height_in_tree (lo + (2 ^ (k + 2) - 3)) + 1) := by
        injection hceq
      have hpos : c = lo + (2 ^ (k + 2) - 3) + 1 := by
        injection h3
      exact hcne' (by omega)
    dsimp only
    rw [show ((c, f c, pos_height_in_tree c) ::
        toEntries f (rest' ++ [lo + (2 ^ (k + 1) - 2)])) =
      toEntries f ((c :: rest') ++ [lo + (2 ^ (k + 1) - 2)]) from rfl]
    rw [toEntries_dropLast, List.dropLast_concat, hentry]
    rfl

/-- Progress of the verifier on an honest state: either the level is
complete (a single root, nothing rotated), or one loop iteration moves to a
smaller honest state, uniformly in the surrounding queue context. -/
theorem vprogress {T : Type} [DecidableEq T] (merge : T → T → T) (f : ℕ → T)
    (gpeak glo : ℕ)
    (hmerge : ∀ p, glo ≤ p → p ≤ gpeak → 0 < pos_height_in_tree p →
      f p = merge (f (p - 2 ^ pos_height_in_tree p)) (f (p - 1))) :
    ∀ (k lo : ℕ) (B Ain : List ℕ), VState lo k B Ain →
    (∀ q, q ≤ 2 ^ (k + 1) - 2 →
      pos_height_in_tree (lo + q) = pos_height_in_tree q) →
    glo ≤ lo → lo + (2 ^ (k + 1) - 2) ≤ gpeak →
    (B = [lo + (2 ^ (k + 1) - 2)] ∧ Ain = []) ∨
    (∃ B2 Ain2, VState lo k B2 Ain2 ∧
      2 * B2.length + Ain2.length < 2 * B.length + Ain.length ∧
      ∀ (Crest Aout : List ℕ) (fuel : ℕ),
        (∀ p ∈ Crest, lo + (2 ^ (k + 1) - 1) ≤ p ∧ p ≤ gpeak) →
        (∀ p ∈ Aout, glo ≤ p ∧ p < lo) →
        calcPeakRootLoopF merge gpeak (fuel + 1)
          (toEntries f (B ++ Crest ++ Aout ++ Ain)) [] =
        calcPeakRootLoopF merge gpeak fuel
          (toEntries f (B2 ++ Crest ++ Aout ++ Ain2)) []) := by
  intro k
  induction k with
  | zero =>
    intro lo B Ain hv _hs _hglo _hle
    left
    cases hv with
    | fresh _ _ C hC =>
      cases hC with
      | root => exact ⟨rfl, rfl⟩
  | succ k ih =>
    intro lo B Ain hv hs hglo hle
    have h2 : (2 : ℕ) ^ (k + 2) = 2 * 2 ^ (k + 1) := by ring
    have h2p : 2 ≤ 2 ^ (k + 1) := two_le_two_pow_succ k
    replace hs : ∀ q, q ≤ 2 ^ (k + 2) - 2 →
        pos_height_in_tree (lo + q) = pos_height_in_tree q := hs
    replace hle : lo + (2 ^ (k + 2) - 2) ≤ gpeak := hle
    rcases vstate_cases hv with ⟨hB, hA⟩ |
      ⟨B_in, Cr, rfl, hvin, hCr⟩ | ⟨A_in, rfl, hvin⟩
    · exact Or.inl ⟨hB, hA⟩
    · -- descended into the left half
      rcases ih lo B_in Ain hvin (fun q hq => hs q (by omega)) hglo (by omega)
        with ⟨hBdone, hAdone⟩ | ⟨B2, Ain2, hv2, hmeas, hloop⟩
      · -- left half complete: merge with or rotate past the right half
        subst hBdone
        subst hAdone
        by_cases hcr1 : Cr = [lo + (2 ^ (k + 2) - 3)]
        · subst hcr1
          right
          refine ⟨[lo + (2 ^ (k + 2) - 2)], [],
            VState.fresh _ _ _ (SpanCover.root lo (k + 1)), ?_, ?_⟩
          · simp only [List.length_append, List.length_cons, List.length_nil]
            omega
          · intro Crest Aout fuel hcrest haout
            replace hcrest : ∀ p ∈ Crest,
                lo + (2 ^ (k + 2) - 1) ≤ p ∧ p ≤ gpeak := hcrest
            have hA := vstep_merge_lr merge f gpeak glo hmerge k lo hs hglo hle
              Crest Aout fuel hcrest haout
            simp only [List.append_assoc, List.append_nil, List.cons_append,
              List.nil_append] at hA ⊢
            exact hA
        · right
          refine ⟨Cr, [lo + (2 ^ (k + 1) - 2)],
            VState.right lo k Cr [] (VState.fresh _ _ Cr hCr), ?_, ?_⟩
          · simp only [List.length_append, List.length_cons, List.length_nil]
            omega
          · intro Crest Aout fuel hcrest haout
            replace hcrest : ∀ p ∈ Crest,
                lo + (2 ^ (k + 2) - 1) ≤ p ∧ p ≤ gpeak := hcrest
            have hB := vstep_rotate merge f gpeak glo k lo hs hglo hle Cr hCr
              hcr1 Crest Aout fuel hcrest haout
            simp only [List.append_assoc, List.append_nil, List.cons_append,
              List.nil_append] at hB ⊢
            exact hB
      · -- left half still in progress: lift its step
        right
        refine ⟨B2 ++ Cr, Ain2, VState.left lo k B2 Ain2 Cr hv2 hCr, ?_, ?_⟩
        · simp only [List.length_append]
          omega
        · intro Crest Aout fuel hcrest haout
          replace hcrest : ∀ p ∈ Crest,
              lo + (2 ^ (k + 2) - 1) ≤ p ∧ p ≤ gpeak := hcrest
          have hcx : ∀ p ∈ Cr ++ Crest,
              lo + (2 ^ (k + 1) - 1) ≤ p ∧ p ≤ gpeak := by
            intro p hp
            rcases List.mem_append.1 hp with hp' | hp'
            · have := spanCover_bounds hCr p hp'
              omega
            · have := hcrest p hp'
              omega
          have hI := hloop (Cr ++ Crest) Aout fuel hcx haout
          simp only [List.append_assoc, List.append_nil, List.cons_append,
            List.nil_append] at hI ⊢
          exact hI
    · -- descended into the right half
      have hs_in : ∀ q, q ≤ 2 ^ (k + 1) - 2 →
          pos_height_in_tree ((lo + (2 ^ (k + 1) - 1)) + q) =
            pos_height_in_tree q := by
        intro q hq
        rw [show lo + (2 ^ (k + 1) - 1) + q = lo + ((2 ^ (k + 1) - 1) + q) by
            omega,
          hs ((2 ^ (k + 1) - 1) + q) (by omega)]
        exact height_shift k q (by omega)
      rcases ih (lo + (2 ^ (k + 1) - 1)) B A_in hvin hs_in (by omega) (by omega)
        with ⟨hBdone, hAdone⟩ | ⟨B2, Ain2, hv2, hmeas, hloop⟩
      · -- right half complete: merge back with the stacked left sibling
        rw [show lo + (2 ^ (k + 1) - 1) + (2 ^ (k + 1) - 2) =
          lo + (2 ^ (k + 2) - 3) by omega] at hBdone
        subst hBdone
        subst hAdone
        right
        refine ⟨[lo + (2 ^ (k + 2) - 2)], [],
          VState.fresh _ _ _ (SpanCover.root lo (k + 1)), ?_, ?_⟩
        · simp only [List.length_append, List.length_cons, List.length_nil]
          omega
        · intro Crest Aout fuel hcrest haout
          replace hcrest : ∀ p ∈ Crest,
              lo + (2 ^ (k + 2) - 1) ≤ p ∧ p ≤ gpeak := hcrest
          have hC := vstep_merge_rl merge f gpeak glo hmerge k lo hs hglo hle
            Crest Aout fuel hcrest haout
          simp only [List.append_assoc, List.append_nil, List.cons_append,
            List.nil_append] at hC ⊢
          exact hC
      · -- right half still in progress: lift its step
        right
        refine ⟨B2, (lo + (2 ^ (k + 1) - 2)) :: Ain2,
          VState.right lo k B2 Ain2 hv2, ?_, ?_⟩
        · simp only [List.length_append, List.length_cons]
          omega
        · intro Crest Aout fuel hcrest haout
          replace hcrest : ∀ p ∈ Crest,
              lo + (2 ^ (k + 2) - 1) ≤ p ∧ p ≤ gpeak := hcrest
          have hx : ∀ p ∈ Crest,
              (lo + (2 ^ (k + 1) - 1)) + (2 ^ (k + 1) - 1) ≤ p ∧ p ≤ gpeak := by
            intro p hp
            have := hcrest p hp
            omega
          have hy : ∀ p ∈ Aout ++ [lo + (2 ^ (k + 1) - 2)],
              glo ≤ p ∧ p < lo + (2 ^ (k + 1) - 1) := by
            intro p hp
            rcases List.mem_append.1 hp with hp' | hp'
            · have := haout p hp'
              omega
            · rw [List.mem_singleton] at hp'
              subst hp'
              omega
          have hI := hloop Crest (Aout ++ [lo + (2 ^ (k + 1) - 2)]) fuel hx hy
          simp only [List.append_assoc, List.append_nil, List.cons_append,
            List.nil_append] at hI ⊢
          exact hI

/-- Running the verifier loop from any honest state with enough fuel yields
the merkle value of the peak. -/
theorem vrun {T : Type} [DecidableEq T] (merge : T → T → T) (f : ℕ → T)
    (gpeak glo : ℕ)
    (hmerge : ∀ p, glo ≤ p → p ≤ gpeak → 0 < pos_height_in_tree p →
      f p = merge (f (p - 2 ^ pos_height_in_tree p)) (f (p - 1))) :
    ∀ (n k lo : ℕ) (B Ain : List ℕ), VState lo k B Ain →
    2 * B.length + Ain.length ≤ n →
    (∀ q, q ≤ 2 ^ (k + 1) - 2 →
      pos_height_in_tree (lo + q) = pos_height_in_tree q) →
    glo ≤ lo → lo + (2 ^ (k + 1) - 2) = gpeak →
    ∀ fuel, n ≤ fuel →
    calcPeakRootLoopF merge gpeak fuel (toEntries f (B ++ Ain)) [] =
      .ok (f gpeak) := by
  intro n
  induction n with
  | zero =>
    intro k lo B Ain hv hn _hs _hglo _hpeak _fuel _hfuel
    exfalso
    have hne := vstate_B_ne_nil hv
    cases B with
    | nil => exact hne rfl
    | cons b bs =>
      simp only [List.length_cons] at hn
      omega
  | succ n ih =>
    intro k lo B Ain hv hn hs hglo hpeak fuel hfuel
    rcases vprogress merge f gpeak glo hmerge k lo B Ain hv hs hglo
        (le_of_eq hpeak)
      with ⟨hB, hA⟩ | ⟨B2, Ain2, hv2, hmeas, hloop⟩
    · subst hB
      subst hA
      obtain ⟨fl, rfl⟩ : ∃ fl, fuel = fl + 1 := ⟨fuel - 1, by omega⟩
      rw [hpeak]
      simp only [List.append_nil]
      exact calcLoop_done merge gpeak fl (f gpeak) (pos_height_in_tree gpeak) []
    · obtain ⟨fl, rfl⟩ : ∃ fl, fuel = fl + 1 := ⟨fuel - 1, by omega⟩
      have hstep := hloop [] [] fl
        (by intro p hp; exact absurd hp (List.not_mem_nil p))
        (by intro p hp; exact absurd hp (List.not_mem_nil p))
      simp only [List.append_nil] at hstep
      rw [hstep]
      exact ih k lo B2 Ain2 hv2 (by omega) hs hglo hpeak fl (by omega)

theorem ht_lt_span : ∀ k q : ℕ, q < 2 ^ (k + 1) - 2 → pos_height_in_tree q < k := by
  intro k
  induction k with
  | zero =>
    intro q hq
    norm_num at hq
  | succ k ih =>
    intro q hq
    have h2 : (2 : ℕ) ^ (k + 2) = 2 * 2 ^ (k + 1) := by ring
    have h2p : 2 ≤ 2 ^ (k + 1) := two_le_two_pow_succ k
    rcases Nat.lt_or_ge q (2 ^ (k + 1) - 2) with hA | hB
    · exact Nat.lt_succ_of_lt (ih q hA)
    · rcases Nat.eq_or_lt_of_le hB with hB' | hC
      · rw [← hB', height_perfect_root k]
        omega
      · rw [show q = 2 ^ (k + 1) - 1 + (q - (2 ^ (k + 1) - 1)) by omega,
          height_shift k _ (by omega)]
        rcases Nat.lt_or_ge (q - (2 ^ (k + 1) - 1)) (2 ^ (k + 1) - 2) with hD | hE
        · exact Nat.lt_succ_of_lt (ih _ hD)
        · rw [show q - (2 ^ (k + 1) - 1) = 2 ^ (k + 1) - 2 by omega,
            height_perfect_root k]
          omega

theorem span_start_le : ∀ k n : ℕ, n ≤ 2 ^ (k + 1) - 2 →
    2 ^ (pos_height_in_tree n + 1) - 2 ≤ n := by
  intro k
  induction k with
  | zero =>
    intro n hn
    have hn0 : n = 0 := by omega
    subst hn0
    rw [ht_zero]
    omega
  | succ k ih =>
    intro n hn
    have h2 : (2 : ℕ) ^ (k + 2) = 2 * 2 ^ (k + 1) := by ring
    have h2p : 2 ≤ 2 ^ (k + 1) := two_le_two_pow_succ k
    rcases Nat.lt_or_ge n (2 ^ (k + 1) - 1) with hA | hB
    · exact ih n (by omega)
    · rcases Nat.lt_or_ge n (2 ^ (k + 2) - 2) with hC | hD
      · rw [show n = 2 ^ (k + 1) - 1 + (n - (2 ^ (k + 1) - 1)) by omega,
          height_shift k _ (by omega)]
        have := ih (n - (2 ^ (k + 1) - 1)) (by omega)
        omega
      · rw [show n = 2 ^ (k + 2) - 2 by omega, height_perfect_root (k + 1)]

theorem ht_in_span_le : ∀ k n x : ℕ, n ≤ 2 ^ (k + 1) - 2 → x ≤ n →
    n + 2 ≤ x + 2 ^ (pos_height_in_tree n + 1) →
    pos_height_in_tree x ≤ pos_height_in_tree n ∧
      (pos_height_in_tree x = pos_height_in_tree n → x = n) := by
  intro k
  induction k with
  | zero =>
    intro n x hn hx _
    have hn0 : n = 0 := by omega
    have hx0 : x = 0 := by omega
    subst hn0
    subst hx0
    exact ⟨le_rfl, fun _ => rfl⟩
  | succ k ih =>
    intro n x hn hx hsub
    have h2 : (2 : ℕ) ^ (k + 2) = 2 * 2 ^ (k + 1) := by ring
    have h2p : 2 ≤ 2 ^ (k + 1) := two_le_two_pow_succ k
    rcases Nat.lt_or_ge n (2 ^ (k + 2) - 2) with hA | hB
    · rcases Nat.lt_or_ge n (2 ^ (k + 1) - 1) with hL | hR
      · exact ih n x (by omega) hx hsub
      · have hhn : pos_height_in_tree n =
            pos_height_in_tree (n - (2 ^ (k + 1) - 1)) := by
          nth_rewrite 1 [show n = 2 ^ (k + 1) - 1 + (n - (2 ^ (k + 1) - 1)) by
            omega]
          exact height_shift k _ (by omega)
        have hstart := span_start_le k (n - (2 ^ (k + 1) - 1)) (by omega)
        rw [hhn] at hsub ⊢
        have hxge : 2 ^ (k + 1) - 1 ≤ x := by omega
        have hhx : pos_height_in_tree x =
            pos_height_in_tree (x - (2 ^ (k + 1) - 1)) := by
          nth_rewrite 1 [show x = 2 ^ (k + 1) - 1 + (x - (2 ^ (k + 1) - 1)) by
            omega]
          exact height_shift k _ (by omega)
        rw [hhx]
        obtain ⟨hle, heq⟩ := ih (n - (2 ^ (k + 1) - 1)) (x - (2 ^ (k + 1) - 1))
          (by omega) (by omega) (by omega)
        exact ⟨hle, fun h => by have := heq h; omega⟩
    · have hhn : pos_height_in_tree n = k + 1 := by
        rw [show n = 2 ^ (k + 2) - 2 by omega]
        exact height_perfect_root (k + 1)
      rw [hhn]
      refine ⟨ht_le_span (k + 1) x (by omega), fun hx' => ?_⟩
      by_contra hne
      have := ht_lt_span (k + 1) x (by omega)
      omega

theorem inSpan_trans_coord : ∀ k a b c : ℕ, a ≤ 2 ^ (k + 1) - 2 →
    b ≤ a → a + 2 ≤ b + 2 ^ (pos_height_in_tree a + 1) →
    c ≤ b → b + 2 ≤ c + 2 ^ (pos_height_in_tree b + 1) →
    a + 2 ≤ c + 2 ^ (pos_height_in_tree a + 1) := by
  intro k
  induction k with
  | zero =>
    intro a b c ha hba _ hcb _
    have ha0 : a = 0 := by omega
    subst ha0
    rw [ht_zero]
    omega
  | succ k ih =>
    intro a b c ha hba h1 hcb h2
    have hp2 : (2 : ℕ) ^ (k + 2) = 2 * 2 ^ (k + 1) := by ring
    have h2p : 2 ≤ 2 ^ (k + 1) := two_le_two_pow_succ k
    rcases Nat.lt_or_ge a (2 ^ (k + 2) - 2) with hA | hB
    · rcases Nat.lt_or_ge a (2 ^ (k + 1) - 1) with hL | hR
      · exact ih a b c (by omega) hba h1 hcb h2
      · have hha : pos_height_in_tree a =
            pos_height_in_tree (a - (2 ^ (k + 1) - 1)) := by
          nth_rewrite 1 [show a = 2 ^ (k + 1) - 1 + (a - (2 ^ (k + 1) - 1)) by
            omega]
          exact height_shift k _ (by omega)
        have hsa := span_start_le k (a - (2 ^ (k + 1) - 1)) (by omega)
        rw [hha] at h1 ⊢
        have hbge : 2 ^ (k + 1) - 1 ≤ b := by omega
        have hhb : pos_height_in_tree b =
            pos_height_in_tree (b - (2 ^ (k + 1) - 1)) := by
          nth_rewrite 1 [show b = 2 ^ (k + 1) - 1 + (b - (2 ^ (k + 1) - 1)) by
            omega]
          exact height_shift k _ (by omega)
        have hsb := span_start_le k (b - (2 ^ (k + 1) - 1)) (by omega)
        rw [hhb] at h2
        have hcge : 2 ^ (k + 1) - 1 ≤ c := by omega
        have := ih (a - (2 ^ (k + 1) - 1)) (b - (2 ^ (k + 1) - 1))
          (c - (2 ^ (k + 1) - 1)) (by omega) (by omega) (by omega) (by omega)
          (by omega)
        omega
    · have hha : pos_height_in_tree a = k + 1 := by
        rw [show a = 2 ^ (k + 2) - 2 by omega]
        exact height_perfect_root (k + 1)
      rw [hha]
      omega

theorem inSpan_overlap_coord : ∀ k a b x : ℕ, a ≤ 2 ^ (k + 1) - 2 →
    b ≤ 2 ^ (k + 1) - 2 →
    x ≤ a → a + 2 ≤ x + 2 ^ (pos_height_in_tree a + 1) →
    x ≤ b → b + 2 ≤ x + 2 ^ (pos_height_in_tree b + 1) →
    (b ≤ a ∧ a + 2 ≤ b + 2 ^ (pos_height_in_tree a + 1)) ∨
      (a ≤ b ∧ b + 2 ≤ a + 2 ^ (pos_height_in_tree b + 1)) := by
  intro k
  induction k with
  | zero =>
    intro a b x ha hb hxa _ hxb _
    have ha0 : a = 0 := by omega
    have hb0 : b = 0 := by omega
    subst ha0
    subst hb0
    left
    rw [ht_zero]
    omega
  | succ k ih =>
    intro a b x ha hb hxa h1 hxb h2
    have hp2 : (2 : ℕ) ^ (k + 2) = 2 * 2 ^ (k + 1) := by ring
    have h2p : 2 ≤ 2 ^ (k + 1) := two_le_two_pow_succ k
    rcases Nat.lt_or_ge a (2 ^ (k + 2) - 2) with hA | hB
    · rcases Nat.lt_or_ge b (2 ^ (k + 2) - 2) with hC | hD
      · -- neither is the root: both halves possible
        rcases Nat.lt_or_ge a (2 ^ (k + 1) - 1) with hAL | hAR
        · rcases Nat.lt_or_ge b (2 ^ (k + 1) - 1) with hBL | hBR
          · exact ih a b x (by omega) (by omega) hxa h1 hxb h2
          · -- a left, b right: the subtrees cannot both contain x
            exfalso
            have hhb : pos_height_in_tree b =
                pos_height_in_tree (b - (2 ^ (k + 1) - 1)) := by
              nth_rewrite 1 [show b = 2 ^ (k + 1) - 1 + (b - (2 ^ (k + 1) - 1))
                by omega]
              exact height_shift k _ (by omega)
            have hsb := span_start_le k (b - (2 ^ (k + 1) - 1)) (by omega)
            rw [hhb] at h2
            omega
        · rcases Nat.lt_or_ge b (2 ^ (k + 1) - 1) with hBL | hBR
          · exfalso
            have hha : pos_height_in_tree a =
                pos_height_in_tree (a - (2 ^ (k + 1) - 1)) := by
              nth_rewrite 1 [show a = 2 ^ (k + 1) - 1 + (a - (2 ^ (k + 1) - 1))
                by omega]
              exact height_shift k _ (by omega)
            have hsa := span_start_le k (a - (2 ^ (k + 1) - 1)) (by omega)
            rw [hha] at h1
            omega
          · -- both in the right half
            have hha : pos_height_in_tree a =
                pos_height_in_tree (a - (2 ^ (k + 1) - 1)) := by
              nth_rewrite 1 [show a = 2 ^ (k + 1) - 1 + (a - (2 ^ (k + 1) - 1))
                by omega]
              exact height_shift k _ (by omega)
            have hhb : pos_height_in_tree b =
                pos_height_in_tree (b - (2 ^ (k + 1) - 1)) := by
              nth_rewrite 1 [show b = 2 ^ (k + 1) - 1 + (b - (2 ^ (k + 1) - 1))
                by omega]
              exact height_shift k _ (by omega)
            have hsa := span_start_le k (a - (2 ^ (k + 1) - 1)) (by omega)
            have hsb := span_start_le k (b - (2 ^ (k + 1) - 1)) (by omega)
            rw [hha] at h1 ⊢
            rw [hhb] at h2 ⊢
            have hxge : 2 ^ (k + 1) - 1 ≤ x := by omega
            rcases ih (a - (2 ^ (k + 1) - 1)) (b - (2 ^ (k + 1) - 1))
                (x - (2 ^ (k + 1) - 1)) (by omega) (by omega) (by omega)
                (by omega) (by omega) (by omega) with ⟨u1, u2⟩ | ⟨u1, u2⟩
            · left
              omega
            · right
              omega
      · -- b is the root
        right
        have hhb : pos_height_in_tree b = k + 1 := by
          rw [show b = 2 ^ (k + 2) - 2 by omega]
          exact height_perfect_root (k + 1)
        rw [hhb]
        omega
    · -- a is the root
      left
      have hha : pos_height_in_tree a = k + 1 := by
        rw [show a = 2 ^ (k + 2) - 2 by omega]
        exact height_perfect_root (k + 1)
      rw [hha]
      omega

theorem anc_step_coord : ∀ k a p : ℕ, a ≤ 2 ^ (k + 1) - 2 →
    p ≤ a → a + 2 ≤ p + 2 ^ (pos_height_in_tree a + 1) → ¬ p = a →
    (¬ pos_height_in_tree p < pos_height_in_tree (p + 1) →
      p + 2 ^ (pos_height_in_tree p + 1) ≤ a) := by
  intro k
  induction k with
  | zero =>
    intro a p ha hpa _ hne _
    omega
  | succ k ih =>
    intro a p ha hpa hps hne hdir
    have hp2 : (2 : ℕ) ^ (k + 2) = 2 * 2 ^ (k + 1) := by ring
    have h2p : 2 ≤ 2 ^ (k + 1) := two_le_two_pow_succ k
    rcases Nat.lt_or_ge a (2 ^ (k + 2) - 2) with hA | hB
    · rcases Nat.lt_or_ge a (2 ^ (k + 1) - 1) with hL | hR
      · exact ih a p (by omega) hpa hps hne hdir
      · have hha : pos_height_in_tree a =
            pos_height_in_tree (a - (2 ^ (k + 1) - 1)) := by
          nth_rewrite 1 [show a = 2 ^ (k + 1) - 1 + (a - (2 ^ (k + 1) - 1)) by
            omega]
          exact height_shift k _ (by omega)
        have hsa := span_start_le k (a - (2 ^ (k + 1) - 1)) (by omega)
        rw [hha] at hps
        have hpge : 2 ^ (k + 1) - 1 ≤ p := by omega
        have hhp : pos_height_in_tree p =
            pos_height_in_tree (p - (2 ^ (k + 1) - 1)) := by
          nth_rewrite 1 [show p = 2 ^ (k + 1) - 1 + (p - (2 ^ (k + 1) - 1)) by
            omega]
          exact height_shift k _ (by omega)
        have hhp1 : pos_height_in_tree (p + 1) =
            pos_height_in_tree (p - (2 ^ (k + 1) - 1) + 1) := by
          rw [show p + 1 = 2 ^ (k + 1) - 1 + (p - (2 ^ (k + 1) - 1) + 1) by
            omega]
          exact height_shift k _ (by omega)
        rw [hhp, hhp1] at hdir
        rw [hhp]
        have := ih (a - (2 ^ (k + 1) - 1)) (p - (2 ^ (k + 1) - 1)) (by omega)
          (by omega) (by omega) (by omega) hdir
        omega
    · have he : (2 : ℕ) ^ (k + 1 + 1) = 2 ^ (k + 2) := rfl
      have hplt : p < 2 ^ (k + 1 + 1) - 2 := by omega
      obtain ⟨_, hL⟩ := tree_step (k + 1) p hplt
      have := (hL hdir).1
      omega

theorem span_ht_coord (k lo : ℕ)
    (hs : ∀ q, q ≤ 2 ^ (k + 1) - 2 →
      pos_height_in_tree (lo + q) = pos_height_in_tree q)
    (a : ℕ) (h1 : lo ≤ a) (h2 : a ≤ lo + (2 ^ (k + 1) - 2)) :
    pos_height_in_tree a = pos_height_in_tree (a - lo) := by
  nth_rewrite 1 [show a = lo + (a - lo) by omega]
  exact hs (a - lo) (by omega)

theorem inSpan_coord (k lo : ℕ)
    (hs : ∀ q, q ≤ 2 ^ (k + 1) - 2 →
      pos_height_in_tree (lo + q) = pos_height_in_tree q)
    (a x : ℕ) (h1 : lo ≤ a) (h2 : a ≤ lo + (2 ^ (k + 1) - 2))
    (hx : inSpan a x) :
    lo ≤ x ∧ x - lo ≤ a - lo ∧
      (a - lo) + 2 ≤ (x - lo) + 2 ^ (pos_height_in_tree (a - lo) + 1) := by
  obtain ⟨hxa, hxs⟩ := hx
  rw [span_ht_coord k lo hs a h1 h2] at hxs
  have hstart := span_start_le k (a - lo) (by omega)
  exact ⟨by omega, by omega, by omega⟩

theorem inSpan_ht_le (k lo : ℕ)
    (hs : ∀ q, q ≤ 2 ^ (k + 1) - 2 →
      pos_height_in_tree (lo + q) = pos_height_in_tree q)
    (a x : ℕ) (h1 : lo ≤ a) (h2 : a ≤ lo + (2 ^ (k + 1) - 2))
    (hx : inSpan a x) :
    pos_height_in_tree x ≤ pos_height_in_tree a ∧
      (pos_height_in_tree x = pos_height_in_tree a → x = a) := by
  obtain ⟨hxlo, hxc, hxs⟩ := inSpan_coord k lo hs a x h1 h2 hx
  have hha := span_ht_coord k lo hs a h1 h2
  have hhx := span_ht_coord k lo hs x hxlo (by omega)
  rw [hha, hhx]
  have hm := ht_in_span_le k (a - lo) (x - lo) (by omega) hxc hxs
  exact ⟨hm.1, fun h => by have := hm.2 h; omega⟩

theorem inSpan_trans (k lo : ℕ)
    (hs : ∀ q, q ≤ 2 ^ (k + 1) - 2 →
      pos_height_in_tree (lo + q) = pos_height_in_tree q)
    (a b c : ℕ) (h1 : lo ≤ a) (h2 : a ≤ lo + (2 ^ (k + 1) - 2))
    (hab : inSpan a b) (hbc : inSpan b c) : inSpan a c := by
  obtain ⟨hblo, hbcoord, hbs⟩ := inSpan_coord k lo hs a b h1 h2 hab
  obtain ⟨hclo, hccoord, hcs⟩ := inSpan_coord k lo hs b c hblo (by omega) hbc
  have hha := span_ht_coord k lo hs a h1 h2
  show c ≤ a ∧ a + 2 ≤ c + 2 ^ (pos_height_in_tree a + 1)
  rw [hha]
  have := inSpan_trans_coord k (a - lo) (b - lo) (c - lo) (by omega) hbcoord
    hbs hccoord hcs
  omega

theorem inSpan_overlap (k lo : ℕ)
    (hs : ∀ q, q ≤ 2 ^ (k + 1) - 2 →
      pos_height_in_tree (lo + q) = pos_height_in_tree q)
    (a b x : ℕ) (ha1 : lo ≤ a) (ha2 : a ≤ lo + (2 ^ (k + 1) - 2))
    (hb1 : lo ≤ b) (hb2 : b ≤ lo + (2 ^ (k + 1) - 2))
    (hax : inSpan a x) (hbx : inSpan b x) : inSpan a b ∨ inSpan b a := by
  obtain ⟨hxlo, hxa, hxas⟩ := inSpan_coord k lo hs a x ha1 ha2 hax
  obtain ⟨_, hxb, hxbs⟩ := inSpan_coord k lo hs b x hb1 hb2 hbx
  have hha := span_ht_coord k lo hs a ha1 ha2
  have hhb := span_ht_coord k lo hs b hb1 hb2
  rcases inSpan_overlap_coord k (a - lo) (b - lo) (x - lo) (by omega) (by omega)
      hxa hxas hxb hxbs with ⟨u1, u2⟩ | ⟨u1, u2⟩
  · left
    show b ≤ a ∧ a + 2 ≤ b + 2 ^ (pos_height_in_tree a + 1)
    rw [hha]
    omega
  · right
    show a ≤ b ∧ b + 2 ≤ a + 2 ^ (pos_height_in_tree b + 1)
    rw [hhb]
    omega

theorem inSpan_self (a : ℕ) : inSpan a a := by
  show a ≤ a ∧ a + 2 ≤ a + 2 ^ (pos_height_in_tree a + 1)
  have := two_le_two_pow_succ (pos_height_in_tree a)
  omega

theorem inSpan_anc_step (k lo : ℕ)
    (hs : ∀ q, q ≤ 2 ^ (k + 1) - 2 →
      pos_height_in_tree (lo + q) = pos_height_in_tree q)
    (a p : ℕ) (h1 : lo ≤ a) (h2 : a ≤ lo + (2 ^ (k + 1) - 2))
    (hx : inSpan a p) (hne : ¬ p = a)
    (hdir : ¬ pos_height_in_tree p < pos_height_in_tree (p + 1)) :
    inSpan a (p + 2 ^ (pos_height_in_tree p + 1)) := by
  obtain ⟨hplo, hpc, hpsub⟩ := inSpan_coord k lo hs a p h1 h2 hx
  have hha := span_ht_coord k lo hs a h1 h2
  have hhp := span_ht_coord k lo hs p hplo (by omega)
  have hhp1 : pos_height_in_tree (p + 1) = pos_height_in_tree (p - lo + 1) := by
    rw [show p + 1 = lo + (p - lo + 1) by omega]
    exact hs (p - lo + 1) (by omega)
  rw [hhp, hhp1] at hdir
  have := anc_step_coord k (a - lo) (p - lo) (by omega) hpc hpsub (by omega) hdir
  have hpd : p = lo + (p - lo) := by omega
  have had : a = lo + (a - lo) := by omega
  have e1 : 1 ≤ 2 ^ pos_height_in_tree (a - lo) := Nat.one_le_two_pow
  have e2 : 1 ≤ 2 ^ pos_height_in_tree (p - lo) := Nat.one_le_two_pow
  show p + 2 ^ (pos_height_in_tree p + 1) ≤ a ∧
    a + 2 ≤ p + 2 ^ (pos_height_in_tree p + 1) + 2 ^ (pos_height_in_tree a + 1)
  rw [hha, hhp]
  omega

theorem right_child_pack (k lo : ℕ)
    (hs : ∀ q, q ≤ 2 ^ (k + 1) - 2 →
      pos_height_in_tree (lo + q) = pos_height_in_tree q)
    (pos : ℕ) (h1 : lo ≤ pos) (h2 : pos - lo < 2 ^ (k + 1) - 2)
    (hdir : pos_height_in_tree pos < pos_height_in_tree (pos + 1)) :
    pos_height_in_tree (pos + 1) = pos_height_in_tree pos + 1 ∧
    2 ^ (pos_height_in_tree pos + 1) - 1 ≤ pos - lo ∧
    pos_height_in_tree (pos - (2 ^ (pos_height_in_tree pos + 1) - 1)) =
      pos_height_in_tree pos ∧
    inSpan (pos + 1) pos ∧
    inSpan (pos + 1) (pos - (2 ^ (pos_height_in_tree pos + 1) - 1)) ∧
    ¬ pos_height_in_tree (pos - (2 ^ (pos_height_in_tree pos + 1) - 1)) <
      pos_height_in_tree (pos - (2 ^ (pos_height_in_tree pos + 1) - 1) + 1) := by
  have hhp := span_ht_coord k lo hs pos h1 (by omega)
  have hhp1 : pos_height_in_tree (pos + 1) =
      pos_height_in_tree (pos - lo + 1) := by
    rw [show pos + 1 = lo + (pos - lo + 1) by omega]
    exact hs (pos - lo + 1) (by omega)
  have hdir' : pos_height_in_tree (pos - lo) <
      pos_height_in_tree (pos - lo + 1) := by
    rw [← hhp, ← hhp1]
    exact hdir
  obtain ⟨hR, _⟩ := tree_step k (pos - lo) h2
  obtain ⟨r1, r2, r3⟩ := hR hdir'
  have h2h : 2 ≤ 2 ^ (pos_height_in_tree pos + 1) :=
    two_le_two_pow_succ (pos_height_in_tree pos)
  have h4h : (2 : ℕ) ^ (pos_height_in_tree pos + 2) =
      2 * 2 ^ (pos_height_in_tree pos + 1) := by ring
  have hr1 : pos_height_in_tree (pos + 1) = pos_height_in_tree pos + 1 := by
    rw [hhp1, hhp]
    exact r1
  have hr2 : 2 ^ (pos_height_in_tree pos + 1) - 1 ≤ pos - lo := by
    rw [hhp]
    exact r2
  have hsib : pos_height_in_tree (pos - (2 ^ (pos_height_in_tree pos + 1) - 1)) =
      pos_height_in_tree pos := by
    have hc : pos - (2 ^ (pos_height_in_tree pos + 1) - 1) =
        lo + (pos - lo - (2 ^ (pos_height_in_tree pos + 1) - 1)) := by omega
    rw [hc, hs _ (by omega), hhp]
    exact r3
  refine ⟨hr1, hr2, hsib, ?_, ?_, ?_⟩
  · show pos ≤ pos + 1 ∧
      pos + 1 + 2 ≤ pos + 2 ^ (pos_height_in_tree (pos + 1) + 1)
    rw [hr1]
    omega
  · show pos - (2 ^ (pos_height_in_tree pos + 1) - 1) ≤ pos + 1 ∧
      pos + 1 + 2 ≤ pos - (2 ^ (pos_height_in_tree pos + 1) - 1) +
        2 ^ (pos_height_in_tree (pos + 1) + 1)
    rw [hr1]
    omega
  · -- the sibling is a left child: the position after it sits inside `pos`
    have hin : inSpan pos (pos - (2 ^ (pos_height_in_tree pos + 1) - 1) + 1) := by
      show pos - (2 ^ (pos_height_in_tree pos + 1) - 1) + 1 ≤ pos ∧
        pos + 2 ≤ pos - (2 ^ (pos_height_in_tree pos + 1) - 1) + 1 +
          2 ^ (pos_height_in_tree pos + 1)
      omega
    obtain ⟨hle, heq⟩ := inSpan_ht_le k lo hs pos _ h1 (by omega) hin
    rw [hsib]
    rcases lt_or_eq_of_le hle with h' | h'
    · omega
    · have := heq h'
      omega

theorem left_child_pack (k lo : ℕ)
    (hs : ∀ q, q ≤ 2 ^ (k + 1) - 2 →
      pos_height_in_tree (lo + q) = pos_height_in_tree q)
    (pos : ℕ) (h1 : lo ≤ pos) (h2 : pos - lo < 2 ^ (k + 1) - 2)
    (hdir : ¬ pos_height_in_tree pos < pos_height_in_tree (pos + 1)) :
    pos - lo + 2 ^ (pos_height_in_tree pos + 1) ≤ 2 ^ (k + 1) - 2 ∧
    pos_height_in_tree (pos + (2 ^ (pos_height_in_tree pos + 1) - 1)) =
      pos_height_in_tree pos ∧
    pos_height_in_tree (pos + 2 ^ (pos_height_in_tree pos + 1)) =
      pos_height_in_tree pos + 1 ∧
    inSpan (pos + 2 ^ (pos_height_in_tree pos + 1)) pos ∧
    inSpan (pos + 2 ^ (pos_height_in_tree pos + 1))
      (pos + (2 ^ (pos_height_in_tree pos + 1) - 1)) ∧
    pos_height_in_tree (pos + (2 ^ (pos_height_in_tree pos + 1) - 1)) <
      pos_height_in_tree (pos + (2 ^ (pos_height_in_tree pos + 1) - 1) + 1) := by
  have hhp := span_ht_coord k lo hs pos h1 (by omega)
  have hhp1 : pos_height_in_tree (pos + 1) =
      pos_height_in_tree (pos - lo + 1) := by
    rw [show pos + 1 = lo + (pos - lo + 1) by omega]
    exact hs (pos - lo + 1) (by omega)
  have hdir' : ¬ pos_height_in_tree (pos - lo) <
      pos_height_in_tree (pos - lo + 1) := by
    rw [← hhp, ← hhp1]
    exact hdir
  obtain ⟨_, hL⟩ := tree_step k (pos - lo) h2
  obtain ⟨l1, l2, l3⟩ := hL hdir'
  have h2h : 2 ≤ 2 ^ (pos_height_in_tree pos + 1) :=
    two_le_two_pow_succ (pos_height_in_tree pos)
  have h4h : (2 : ℕ) ^ (pos_height_in_tree pos + 2) =
      2 * 2 ^ (pos_height_in_tree pos + 1) := by ring
  have hl1 : pos - lo + 2 ^ (pos_height_in_tree pos + 1) ≤ 2 ^ (k + 1) - 2 := by
    rw [hhp]
    exact l1
  have hsib : pos_height_in_tree (pos + (2 ^ (pos_height_in_tree pos + 1) - 1)) =
      pos_height_in_tree pos := by
    have hc : pos + (2 ^ (pos_height_in_tree pos + 1) - 1) =
        lo + (pos - lo + (2 ^ (pos_height_in_tree pos + 1) - 1)) := by omega
    rw [hc, hs _ (by omega), hhp]
    exact l2
  have hpar : pos_height_in_tree (pos + 2 ^ (pos_height_in_tree pos + 1)) =
      pos_height_in_tree pos + 1 := by
    have hc : pos + 2 ^ (pos_height_in_tree pos + 1) =
        lo + (pos - lo + 2 ^ (pos_height_in_tree pos + 1)) := by omega
    rw [hc, hs _ (by omega), hhp]
    exact l3
  refine ⟨hl1, hsib, hpar, ?_, ?_, ?_⟩
  · show pos ≤ pos + 2 ^ (pos_height_in_tree pos + 1) ∧
      pos + 2 ^ (pos_height_in_tree pos + 1) + 2 ≤ pos +
        2 ^ (pos_height_in_tree (pos + 2 ^ (pos_height_in_tree pos + 1)) + 1)
    rw [hpar]
    rw [show (2 : ℕ) ^ (pos_height_in_tree pos + 1 + 1) =
      2 * 2 ^ (pos_height_in_tree pos + 1) by ring]
    omega
  · show pos + (2 ^ (pos_height_in_tree pos + 1) - 1) ≤
      pos + 2 ^ (pos_height_in_tree pos + 1) ∧
      pos + 2 ^ (pos_height_in_tree pos + 1) + 2 ≤
        pos + (2 ^ (pos_height_in_tree pos + 1) - 1) +
          2 ^ (pos_height_in_tree (pos + 2 ^ (pos_height_in_tree pos + 1)) + 1)
    rw [hpar]
    rw [show (2 : ℕ) ^ (pos_height_in_tree pos + 1 + 1) =
      2 * 2 ^ (pos_height_in_tree pos + 1) by ring]
    omega
  · rw [hsib, show pos + (2 ^ (pos_height_in_tree pos + 1) - 1) + 1 =
      pos + 2 ^ (pos_height_in_tree pos + 1) by omega, hpar]
    omega

theorem coverOf_zero (S : List ℕ) (lo : ℕ) : coverOf S lo 0 = [lo] := rfl

theorem coverOf_succ (S : List ℕ) (lo k : ℕ) :
    coverOf S lo (k + 1) =
      if S.any fun p => lo ≤ p ∧ p ≤ lo + (2 ^ (k + 2) - 2) then
        coverOf S lo k ++ coverOf S (lo + (2 ^ (k + 1) - 1)) k
      else [lo + (2 ^ (k + 2) - 2)] := rfl

theorem coverOf_spanCover (S : List ℕ) :
    ∀ (k lo : ℕ), SpanCover lo k (coverOf S lo k) := by
  intro k
  induction k with
  | zero =>
    intro lo
    exact SpanCover.root lo 0
  | succ k ih =>
    intro lo
    rw [coverOf_succ]
    by_cases hc : (S.any fun p => lo ≤ p ∧ p ≤ lo + (2 ^ (k + 2) - 2)) = true
    · rw [if_pos hc]
      exact SpanCover.split lo k _ _ (ih lo) (ih _)
    · rw [if_neg hc]
      exact SpanCover.root lo (k + 1)

theorem spanCover_pairwise : ∀ {lo k : ℕ} {ps : List ℕ}, SpanCover lo k ps →
    List.Pairwise (· < ·) ps := by
  intro lo k ps h
  induction h with
  | root lo k => simp
  | split lo k lps rps hl hr ihl ihr =>
    rw [List.pairwise_append]
    refine ⟨ihl, ihr, fun a ha b hb => ?_⟩
    have hba := spanCover_bounds hl a ha
    have hbb := spanCover_bounds hr b hb
    have h2p : 2 ≤ 2 ^ (k + 1) := two_le_two_pow_succ k
    omega

theorem pairwise_lt_eq_of_mem_iff : ∀ (l1 l2 : List ℕ),
    List.Pairwise (· < ·) l1 → List.Pairwise (· < ·) l2 →
    (∀ a, a ∈ l1 ↔ a ∈ l2) → l1 = l2 := by
  intro l1
  induction l1 with
  | nil =>
    intro l2 _ _ hm
    cases l2 with
    | nil => rfl
    | cons b bs =>
      exact absurd ((hm b).2 (List.mem_cons_self b bs)) (List.not_mem_nil b)
  | cons a as ih =>
    intro l2 h1 h2 hm
    cases l2 with
    | nil => exact absurd ((hm a).1 (List.mem_cons_self a as)) (List.not_mem_nil a)
    | cons b bs =>
      rw [List.pairwise_cons] at h1 h2
      have hab : a = b := by
        have ha2 : a ∈ b :: bs := (hm a).1 (List.mem_cons_self a as)
        have hb1 : b ∈ a :: as := (hm b).2 (List.mem_cons_self b bs)
        rcases List.mem_cons.1 ha2 with h | h
        · exact h
        · rcases List.mem_cons.1 hb1 with h' | h'
          · exact h'.symm
          · have hu := h2.1 a h
            have hv := h1.1 b h'
            omega
      subst hab
      have hts : as = bs := by
        apply ih bs h1.2 h2.2
        intro x
        constructor
        · intro hx
          have hax := h1.1 x hx
          rcases List.mem_cons.1 ((hm x).1 (List.mem_cons_of_mem a hx)) with h | h
          · omega
          · exact h
        · intro hx
          have hax := h2.1 x hx
          rcases List.mem_cons.1 ((hm x).2 (List.mem_cons_of_mem a hx)) with h | h
          · omega
          · exact h
      rw [hts]

theorem coverOf_mem_claimed (S : List ℕ) : ∀ (k lo x : ℕ), x ∈ S →
    lo ≤ x → x ≤ lo + (2 ^ (k + 1) - 2) → pos_height_in_tree (x - lo) = 0 →
    x ∈ coverOf S lo k := by
  intro k
  induction k with
  | zero =>
    intro lo x hxS hlo hub _
    rw [coverOf_zero]
    have hx : x = lo := by
      norm_num at hub
      omega
    simp [hx]
  | succ k ih =>
    intro lo x hxS hlo hub hleaf
    have he : (2 : ℕ) ^ (k + 1 + 1) = 2 ^ (k + 2) := rfl
    have h2 : (2 : ℕ) ^ (k + 2) = 2 * 2 ^ (k + 1) := by ring
    have h2p : 2 ≤ 2 ^ (k + 1) := two_le_two_pow_succ k
    have hany : (S.any fun p => lo ≤ p ∧ p ≤ lo + (2 ^ (k + 2) - 2)) = true := by
      rw [List.any_eq_true]
      refine ⟨x, hxS, ?_⟩
      simp only [decide_eq_true_eq]
      omega
    rw [coverOf_succ, if_pos hany]
    rcases Nat.lt_or_ge x (lo + (2 ^ (k + 1) - 1)) with hL | hR
    · exact List.mem_append_left _ (ih lo x hxS hlo (by omega) hleaf)
    · have hne : ¬ x - lo = 2 ^ (k + 2) - 2 := by
        intro hco
        rw [hco, height_perfect_root (k + 1)] at hleaf
        omega
      refine List.mem_append_right _
        (ih (lo + (2 ^ (k + 1) - 1)) x hxS hR (by omega) ?_)
      have hco : x - (lo + (2 ^ (k + 1) - 1)) = x - lo - (2 ^ (k + 1) - 1) := by
        omega
      rw [hco]
      have hsh := height_shift k (x - lo - (2 ^ (k + 1) - 1)) (by omega)
      rw [show 2 ^ (k + 1) - 1 + (x - lo - (2 ^ (k + 1) - 1)) = x - lo by omega]
        at hsh
      omega

theorem coverOf_S_free (S : List ℕ) : ∀ (k lo : ℕ),
    (∀ q, q ≤ 2 ^ (k + 1) - 2 →
      pos_height_in_tree (lo + q) = pos_height_in_tree q) →
    ∀ c ∈ coverOf S lo k, 0 < pos_height_in_tree c →
    ∀ x ∈ S, ¬ inSpan c x := by
  intro k
  induction k with
  | zero =>
    intro lo hs c hc hpos x _ _
    rw [coverOf_zero, List.mem_singleton] at hc
    subst hc
    have h0 := hs 0 (by omega)
    rw [Nat.add_zero, ht_zero] at h0
    omega
  | succ k ih =>
    intro lo hs c hc hpos x hxS hins
    have he : (2 : ℕ) ^ (k + 1 + 1) = 2 ^ (k + 2) := rfl
    have h2 : (2 : ℕ) ^ (k + 2) = 2 * 2 ^ (k + 1) := by ring
    have h2p : 2 ≤ 2 ^ (k + 1) := two_le_two_pow_succ k
    rw [coverOf_succ] at hc
    by_cases hany : (S.any fun p => lo ≤ p ∧ p ≤ lo + (2 ^ (k + 2) - 2)) = true
    · rw [if_pos hany] at hc
      rcases List.mem_append.1 hc with hc' | hc'
      · exact ih lo (fun q hq => hs q (by omega)) c hc' hpos x hxS hins
      · refine ih (lo + (2 ^ (k + 1) - 1)) ?_ c hc' hpos x hxS hins
        intro q hq
        rw [show lo + (2 ^ (k + 1) - 1) + q = lo + ((2 ^ (k + 1) - 1) + q) by
          omega, hs ((2 ^ (k + 1) - 1) + q) (by omega)]
        exact height_shift k q (by omega)
    · rw [if_neg hany] at hc
      rw [List.mem_singleton] at hc
      subst hc
      rw [Bool.not_eq_true, List.any_eq_false] at hany
      have hfr := hany x hxS
      simp only [decide_eq_true_eq] at hfr
      obtain ⟨hx1, hx2⟩ := hins
      have hhc : pos_height_in_tree (lo + (2 ^ (k + 2) - 2)) = k + 1 := by
        rw [hs (2 ^ (k + 2) - 2) (by omega)]
        exact height_perfect_root (k + 1)
      rw [hhc] at hx2
      have hk2 : (2 : ℕ) ^ (k + 1 + 1 + 1) = 2 * 2 ^ (k + 2) := by
        rw [he]
        ring
      exact hfr ⟨by omega, by omega⟩

theorem coverOf_mem_emit (S : List ℕ) : ∀ (k lo sib pp : ℕ),
    (∀ q, q ≤ 2 ^ (k + 1) - 2 →
      pos_height_in_tree (lo + q) = pos_height_in_tree q) →
    lo ≤ pp → pp ≤ lo + (2 ^ (k + 1) - 2) →
    inSpan pp sib → pos_height_in_tree pp = pos_height_in_tree sib + 1 →
    (∃ x ∈ S, inSpan pp x) →
    (pos_height_in_tree sib = 0 ∨ ∀ x ∈ S, ¬ inSpan sib x) →
    sib ∈ coverOf S lo k := by
  intro k
  induction k with
  | zero =>
    intro lo sib pp hs hpp1 hpp2 _ hhts _ _
    have hp0 : pp = lo := by
      norm_num at hpp2
      omega
    subst hp0
    have h0 := hs 0 (by omega)
    rw [Nat.add_zero, ht_zero] at h0
    omega
  | succ k ih =>
    intro lo sib pp hs hpp1 hpp2 hinsib hhts hmeets hfree
    have he : (2 : ℕ) ^ (k + 1 + 1) = 2 ^ (k + 2) := rfl
    have h2 : (2 : ℕ) ^ (k + 2) = 2 * 2 ^ (k + 1) := by ring
    have h2p : 2 ≤ 2 ^ (k + 1) := two_le_two_pow_succ k
    obtain ⟨x, hxS, hxin⟩ := hmeets
    obtain ⟨hxlo, hxc, hxs⟩ := inSpan_coord (k + 1) lo hs pp x hpp1 hpp2 hxin
    obtain ⟨hslo, hsc, hss⟩ := inSpan_coord (k + 1) lo hs pp sib hpp1 hpp2 hinsib
    have hany : (S.any fun p => lo ≤ p ∧ p ≤ lo + (2 ^ (k + 2) - 2)) = true := by
      rw [List.any_eq_true]
      refine ⟨x, hxS, ?_⟩
      simp only [decide_eq_true_eq]
      omega
    rw [coverOf_succ, if_pos hany]
    have hhpp := span_ht_coord (k + 1) lo hs pp hpp1 hpp2
    have hhsib := span_ht_coord (k + 1) lo hs sib hslo (by omega)
    rcases Nat.lt_or_ge (pp - lo) (2 ^ (k + 2) - 2) with hA | hB
    · -- `pp` is not the root: recurse into its half
      rcases Nat.lt_or_ge (pp - lo) (2 ^ (k + 1) - 1) with hL | hR
      · exact List.mem_append_left _
          (ih lo sib pp (fun q hq => hs q (by omega)) hpp1 (by omega) hinsib
            hhts ⟨x, hxS, hxin⟩ hfree)
      · have hstart := span_start_le (k + 1) (pp - lo) (by omega)
        rw [← hhpp] at hstart
        have hs' : ∀ q, q ≤ 2 ^ (k + 1) - 2 →
            pos_height_in_tree (lo + (2 ^ (k + 1) - 1) + q) =
              pos_height_in_tree q := by
          intro q hq
          rw [show lo + (2 ^ (k + 1) - 1) + q = lo + ((2 ^ (k + 1) - 1) + q) by
            omega, hs ((2 ^ (k + 1) - 1) + q) (by omega)]
          exact height_shift k q (by omega)
        refine List.mem_append_right _
          (ih (lo + (2 ^ (k + 1) - 1)) sib pp hs' (by omega) (by omega) hinsib
            hhts ⟨x, hxS, hxin⟩ hfree)
    · -- `pp` is the root: `sib` is one of its two children
      have hppr : pp = lo + (2 ^ (k + 2) - 2) := by omega
      have hhppr : pos_height_in_tree pp = k + 1 := by
        rw [hhpp, show pp - lo = 2 ^ (k + 2) - 2 by omega]
        exact height_perfect_root (k + 1)
      have hhsibk : pos_height_in_tree sib = k := by omega
      have hcoordk : pos_height_in_tree (sib - lo) = k := by
        rw [← hhsib]
        exact hhsibk
      have hsibfree : 1 ≤ k → ∀ y ∈ S, ¬ inSpan sib y := by
        intro hk
        rcases hfree with h0 | hf
        · omega
        · exact hf
      rcases Nat.lt_or_ge (sib - lo) (2 ^ (k + 1) - 1) with hSL | hSR
      · -- `sib` is the left child of the root
        have hsibeq : sib = lo + (2 ^ (k + 1) - 2) := by
          by_contra hne
          have := ht_lt_span k (sib - lo) (by omega)
          omega
        refine List.mem_append_left _ ?_
        cases k with
        | zero =>
          rw [coverOf_zero, List.mem_singleton]
          omega
        | succ m =>
          rw [coverOf_succ]
          have hem : (2 : ℕ) ^ (m + 1 + 1) = 2 ^ (m + 2) := rfl
          have hm2 : 2 ≤ 2 ^ (m + 1) := two_le_two_pow_succ m
          have hanyL : (S.any fun p =>
              lo ≤ p ∧ p ≤ lo + (2 ^ (m + 2) - 2)) = false := by
            rw [List.any_eq_false]
            intro p hpS
            simp only [decide_eq_true_eq]
            intro hcond
            refine hsibfree (by omega) p hpS ⟨by omega, ?_⟩
            rw [hhsibk]
            omega
          rw [if_neg (by rw [hanyL]; exact Bool.false_ne_true),
            List.mem_singleton]
          omega
      · -- `sib` is the right child of the root
        have hsne : ¬ sib - lo = 2 ^ (k + 2) - 2 := by
          intro hco
          rw [hco, height_perfect_root (k + 1)] at hcoordk
          omega
        have hshift : pos_height_in_tree (sib - lo) =
            pos_height_in_tree (sib - lo - (2 ^ (k + 1) - 1)) := by
          nth_rewrite 1 [show sib - lo =
            2 ^ (k + 1) - 1 + (sib - lo - (2 ^ (k + 1) - 1)) by omega]
          exact height_shift k _ (by omega)
        have hsibeq : sib = lo + (2 ^ (k + 2) - 3) := by
          by_contra hne
          have := ht_lt_span k (sib - lo - (2 ^ (k + 1) - 1)) (by omega)
          omega
        refine List.mem_append_right _ ?_
        cases k with
        | zero =>
          rw [coverOf_zero, List.mem_singleton]
          omega
        | succ m =>
          rw [coverOf_succ]
          have hem : (2 : ℕ) ^ (m + 1 + 1) = 2 ^ (m + 2) := rfl
          have hem2 : (2 : ℕ) ^ (m + 1 + 1 + 1) = 2 ^ (m + 3) := rfl
          have hm3 : (2 : ℕ) ^ (m + 3) = 2 * 2 ^ (m + 2) := by ring
          have hm2 : 2 ≤ 2 ^ (m + 1) := two_le_two_pow_succ m
          have hm2' : (2 : ℕ) ^ (m + 2) = 2 * 2 ^ (m + 1) := by ring
          have hanyR : (S.any fun p =>
              lo + (2 ^ (m + 1 + 1) - 1) ≤ p ∧
                p ≤ lo + (2 ^ (m + 1 + 1) - 1) + (2 ^ (m + 2) - 2)) = false := by
            rw [List.any_eq_false]
            intro p hpS
            simp only [decide_eq_true_eq]
            intro hcond
            refine hsibfree (by omega) p hpS ⟨by omega, ?_⟩
            rw [hhsibk]
            omega
          rw [if_neg (by rw [hanyR]; exact Bool.false_ne_true),
            List.mem_singleton]
          omega

theorem is_descendant_pos_iff (a d : ℕ) :
    is_descendant_pos a d = true ↔ inSpan a d := by
  rw [is_descendant_pos, decide_eq_true_eq]
  exact Iff.rfl

theorem span_peak_ht (k lo : ℕ)
    (hs : ∀ q, q ≤ 2 ^ (k + 1) - 2 →
      pos_height_in_tree (lo + q) = pos_height_in_tree q) :
    pos_height_in_tree (lo + (2 ^ (k + 1) - 2)) = k := by
  rw [hs _ (le_refl _)]
  exact height_perfect_root k

theorem coverOf_lt_root (S : List ℕ) (lo k : ℕ)
    (hany : (S.any fun p => lo ≤ p ∧ p ≤ lo + (2 ^ (k + 2) - 2)) = true) :
    ∀ c ∈ coverOf S lo (k + 1), c ≤ lo + (2 ^ (k + 2) - 3) := by
  intro c hc
  rw [coverOf_succ, if_pos hany] at hc
  have h2 : (2 : ℕ) ^ (k + 2) = 2 * 2 ^ (k + 1) := by ring
  have h2p : 2 ≤ 2 ^ (k + 1) := two_le_two_pow_succ k
  rcases List.mem_append.1 hc with hc' | hc'
  · have := spanCover_bounds (coverOf_spanCover S k lo) c hc'
    omega
  · have := spanCover_bounds (coverOf_spanCover S k (lo + (2 ^ (k + 1) - 1))) c hc'
    omega

theorem inSpan_same_ht_eq (k lo : ℕ)
    (hs : ∀ q, q ≤ 2 ^ (k + 1) - 2 →
      pos_height_in_tree (lo + q) = pos_height_in_tree q)
    (a b x : ℕ) (ha1 : lo ≤ a) (ha2 : a ≤ lo + (2 ^ (k + 1) - 2))
    (hb1 : lo ≤ b) (hb2 : b ≤ lo + (2 ^ (k + 1) - 2))
    (hax : inSpan a x) (hbx : inSpan b x)
    (hht : pos_height_in_tree a = pos_height_in_tree b) : a = b := by
  rcases inSpan_overlap k lo hs a b x ha1 ha2 hb1 hb2 hax hbx with h | h
  · exact ((inSpan_ht_le k lo hs a b ha1 ha2 h).2 hht.symm).symm
  · exact (inSpan_ht_le k lo hs b a hb1 hb2 h).2 hht

/-- The sibling of a non-root node, by the same arithmetic the prover and
verifier use: a right child (next position is higher) has its sibling one
whole subtree to the left, a left child one whole subtree to the right. -/
def sibOf (c : ℕ) : ℕ :=
  if pos_height_in_tree c < pos_height_in_tree (c + 1) then
    c - (2 ^ (pos_height_in_tree c + 1) - 1)
  else c + (2 ^ (pos_height_in_tree c + 1) - 1)

/-- The parent of a non-root node, by the source's arithmetic. -/
def parOf (c : ℕ) : ℕ :=
  if pos_height_in_tree c < pos_height_in_tree (c + 1) then c + 1
  else c + 2 ^ (pos_height_in_tree c + 1)

theorem sib_par_pack (k lo : ℕ)
    (hs : ∀ q, q ≤ 2 ^ (k + 1) - 2 →
      pos_height_in_tree (lo + q) = pos_height_in_tree q)
    (c : ℕ) (h1 : lo ≤ c) (h2 : c - lo < 2 ^ (k + 1) - 2) :
    pos_height_in_tree (sibOf c) = pos_height_in_tree c ∧
    lo ≤ sibOf c ∧ sibOf c - lo ≤ 2 ^ (k + 1) - 2 ∧
    pos_height_in_tree (parOf c) = pos_height_in_tree c + 1 ∧
    lo ≤ parOf c ∧ parOf c - lo ≤ 2 ^ (k + 1) - 2 ∧
    inSpan (parOf c) c ∧ inSpan (parOf c) (sibOf c) := by
  have h2h : 2 ≤ 2 ^ (pos_height_in_tree c + 1) :=
    two_le_two_pow_succ (pos_height_in_tree c)
  by_cases hdir : pos_height_in_tree c < pos_height_in_tree (c + 1)
  · obtain ⟨r1, r2, r3, r4, r5, _⟩ := right_child_pack k lo hs c h1 h2 hdir
    simp only [sibOf, parOf]
    rw [if_pos hdir, if_pos hdir]
    exact ⟨r3, by omega, by omega, r1, by omega, by omega, r4, r5⟩
  · obtain ⟨l1, l2, l3, l4, l5, _⟩ := left_child_pack k lo hs c h1 h2 hdir
    simp only [sibOf, parOf]
    rw [if_neg hdir, if_neg hdir]
    exact ⟨l2, by omega, by omega, l3, by omega, by omega, l4, l5⟩

theorem sibOf_eq_unique (k lo : ℕ)
    (hs : ∀ q, q ≤ 2 ^ (k + 1) - 2 →
      pos_height_in_tree (lo + q) = pos_height_in_tree q)
    (pos c : ℕ) (hp1 : lo ≤ pos) (hp2 : pos - lo < 2 ^ (k + 1) - 2)
    (hc1 : lo ≤ c) (hc2 : c - lo < 2 ^ (k + 1) - 2)
    (heq : sibOf c = pos) : c = sibOf pos := by
  obtain ⟨c1, c2, c3, c4, c5, c6, c7, c8⟩ := sib_par_pack k lo hs c hc1 hc2
  obtain ⟨p1, p2, p3, p4, p5, p6, p7, p8⟩ := sib_par_pack k lo hs pos hp1 hp2
  rw [heq] at c1 c8
  have hpar : parOf c = parOf pos := by
    refine inSpan_same_ht_eq k lo hs (parOf c) (parOf pos) pos c5 (by omega)
      p5 (by omega) c8 p7 ?_
    rw [c4, p4, c1]
  have hhc : pos_height_in_tree c = pos_height_in_tree pos := c1.symm
  have h2hc : 2 ≤ 2 ^ (pos_height_in_tree c + 1) :=
    two_le_two_pow_succ (pos_height_in_tree c)
  have e1 : 1 ≤ 2 ^ pos_height_in_tree pos := Nat.one_le_two_pow
  have e2 : 1 ≤ 2 ^ pos_height_in_tree c := Nat.one_le_two_pow
  by_cases hdc : pos_height_in_tree c < pos_height_in_tree (c + 1) <;>
    by_cases hdp : pos_height_in_tree pos < pos_height_in_tree (pos + 1)
  · -- both right children: same parent means equal, but a node is not
    -- its own sibling
    exfalso
    simp only [sibOf] at heq
    rw [if_pos hdc] at heq
    simp only [parOf] at hpar
    rw [if_pos hdc, if_pos hdp] at hpar
    have hce : c = pos := by omega
    subst hce
    obtain ⟨hr1, hr2, _⟩ := right_child_pack k lo hs c hc1 hc2 hdc
    omega
  · simp only [sibOf] at heq ⊢
    rw [if_pos hdc] at heq
    rw [if_neg hdp]
    simp only [parOf] at hpar
    rw [if_pos hdc, if_neg hdp] at hpar
    obtain ⟨hr1, hr2, _⟩ := right_child_pack k lo hs c hc1 hc2 hdc
    rw [hhc] at hr2 heq
    omega
  · simp only [sibOf] at heq ⊢
    rw [if_neg hdc] at heq
    rw [if_pos hdp]
    simp only [parOf] at hpar
    rw [if_neg hdc, if_pos hdp] at hpar
    rw [hhc] at heq
    omega
  · exfalso
    simp only [sibOf] at heq
    rw [if_neg hdc] at heq
    simp only [parOf] at hpar
    rw [if_neg hdc, if_neg hdp] at hpar
    rw [hhc] at heq hpar
    omega

theorem genSibStep_consume {T : Type} [DecidableEq T] (s : MMRState T)
    (S : List ℕ) (proof : List (ℕ × T)) (rest : List (ℕ × ℕ))
    (sib hh h : ℕ) :
    genSibStep s S proof ((sib, hh) :: rest) sib h = .ok (rest, proof) := by
  rw [genSibStep]
  simp

theorem genSibStep_emit {T : Type} [DecidableEq T] (s : MMRState T)
    (S : List ℕ) (proof : List (ℕ × T)) (queue : List (ℕ × ℕ))
    (sib h : ℕ) (v : T) (hv : s.store.get? sib = some v)
    (hhead : ∀ q hh, queue.head? = some (q, hh) →
      ¬ q = sib ∧ ¬ is_descendant_pos sib q = true) :
    genSibStep s S proof queue sib h =
      if h = 0 ∨ (¬ (sib, v) ∈ proof ∧ ¬ sib ∈ S) then
        .ok (queue, proof ++ [(sib, v)])
      else .ok (queue, proof) := by
  cases queue with
  | nil =>
    rw [genSibStep]
    simp only [List.head?_nil, hv]
  | cons e rest =>
    obtain ⟨q, hh⟩ := e
    obtain ⟨h1, h2⟩ := hhead q hh rfl
    rw [genSibStep]
    simp only [List.head?_cons]
    rw [if_neg h1, if_neg h2]
    simp only [hv]

theorem coverOf_sib_meets (S : List ℕ) : ∀ (k lo : ℕ),
    (∀ q, q ≤ 2 ^ (k + 1) - 2 →
      pos_height_in_tree (lo + q) = pos_height_in_tree q) →
    (∀ x ∈ S, lo ≤ x → x ≤ lo + (2 ^ (k + 1) - 2) →
      pos_height_in_tree x = 0) →
    (∃ x ∈ S, lo ≤ x ∧ x ≤ lo + (2 ^ (k + 1) - 2)) →
    ∀ c ∈ coverOf S lo k, c ∈ S ∨ ∃ x ∈ S, inSpan (sibOf c) x := by
  intro k
  induction k with
  | zero =>
    intro lo hs hleaf hmeet c hc
    rw [coverOf_zero, List.mem_singleton] at hc
    obtain ⟨x, hxS, hx1, hx2⟩ := hmeet
    norm_num at hx2
    left
    have hxl : x = c := by omega
    rw [← hxl]
    exact hxS
  | succ k ih =>
    intro lo hs hleaf hmeet c hc
    have he : (2 : ℕ) ^ (k + 1 + 1) = 2 ^ (k + 2) := rfl
    have h2 : (2 : ℕ) ^ (k + 2) = 2 * 2 ^ (k + 1) := by ring
    have h2p : 2 ≤ 2 ^ (k + 1) := two_le_two_pow_succ k
    obtain ⟨x0, hx0S, hx01, hx02⟩ := hmeet
    have hany : (S.any fun p => lo ≤ p ∧ p ≤ lo + (2 ^ (k + 2) - 2)) = true := by
      rw [List.any_eq_true]
      refine ⟨x0, hx0S, ?_⟩
      simp only [decide_eq_true_eq]
      omega
    rw [coverOf_succ, if_pos hany] at hc
    have hsL : ∀ q, q ≤ 2 ^ (k + 1) - 2 →
        pos_height_in_tree (lo + q) = pos_height_in_tree q :=
      fun q hq => hs q (by omega)
    have hsR : ∀ q, q ≤ 2 ^ (k + 1) - 2 →
        pos_height_in_tree (lo + (2 ^ (k + 1) - 1) + q) =
          pos_height_in_tree q := by
      intro q hq
      rw [show lo + (2 ^ (k + 1) - 1) + q = lo + ((2 ^ (k + 1) - 1) + q) by
        omega, hs ((2 ^ (k + 1) - 1) + q) (by omega)]
      exact height_shift k q (by omega)
    have hlfx0 := hleaf x0 hx0S hx01 hx02
    have hx0ne : ¬ x0 = lo + (2 ^ (k + 2) - 2) := by
      intro hh
      rw [hh] at hlfx0
      have hroot : pos_height_in_tree (lo + (2 ^ (k + 2) - 2)) = k + 1 :=
        span_peak_ht (k + 1) lo hs
      omega
    rcases List.mem_append.1 hc with hcL | hcR
    · by_cases hmL : ∃ x ∈ S, lo ≤ x ∧ x ≤ lo + (2 ^ (k + 1) - 2)
      · exact ih lo hsL (fun x hx u1 u2 => hleaf x hx u1 (by omega)) hmL c hcL
      · -- nothing claimed on the left: the left cover is its whole root
        have hceq : c = lo + (2 ^ (k + 1) - 2) := by
          cases k with
          | zero =>
            rw [coverOf_zero, List.mem_singleton] at hcL
            omega
          | succ m =>
            have hem : (2 : ℕ) ^ (m + 1 + 1) = 2 ^ (m + 2) := rfl
            rw [coverOf_succ] at hcL
            have hanyL : (S.any fun p =>
                lo ≤ p ∧ p ≤ lo + (2 ^ (m + 2) - 2)) = false := by
              rw [List.any_eq_false]
              intro p hp
              simp only [decide_eq_true_eq]
              intro hcond
              exact hmL ⟨p, hp, hcond.1, by omega⟩
            rw [if_neg (by rw [hanyL]; exact Bool.false_ne_true),
              List.mem_singleton] at hcL
            omega
        right
        have hx0r : lo + (2 ^ (k + 1) - 1) ≤ x0 := by
          by_contra hcon
          exact hmL ⟨x0, hx0S, hx01, by omega⟩
        have hhc : pos_height_in_tree c = k := by
          rw [hceq]
          exact span_peak_ht k lo hsL
        have hhc1 : pos_height_in_tree (c + 1) = 0 := by
          rw [hceq, show lo + (2 ^ (k + 1) - 2) + 1 =
              lo + ((2 ^ (k + 1) - 1) + 0) by omega,
            hs ((2 ^ (k + 1) - 1) + 0) (by omega), height_shift k 0 (by omega)]
          exact ht_zero
        have hsib : sibOf c = lo + (2 ^ (k + 2) - 3) := by
          simp only [sibOf]
          rw [if_neg (by omega), hhc, hceq]
          omega
        rw [hsib]
        have hhrr : pos_height_in_tree (lo + (2 ^ (k + 2) - 3)) = k := by
          rw [show lo + (2 ^ (k + 2) - 3) =
              lo + ((2 ^ (k + 1) - 1) + (2 ^ (k + 1) - 2)) by omega,
            hs _ (by omega), height_shift k _ (by omega)]
          exact height_perfect_root k
        refine ⟨x0, hx0S, ?_⟩
        show x0 ≤ lo + (2 ^ (k + 2) - 3) ∧
          lo + (2 ^ (k + 2) - 3) + 2 ≤
            x0 + 2 ^ (pos_height_in_tree (lo + (2 ^ (k + 2) - 3)) + 1)
        rw [hhrr]
        omega
    · by_cases hmR : ∃ x ∈ S, lo + (2 ^ (k + 1) - 1) ≤ x ∧
          x ≤ lo + (2 ^ (k + 1) - 1) + (2 ^ (k + 1) - 2)
      · exact ih (lo + (2 ^ (k + 1) - 1)) hsR
          (fun x hx u1 u2 => hleaf x hx (by omega) (by omega)) hmR c hcR
      · -- nothing claimed on the right: the right cover is its whole root
        have hceq : c = lo + (2 ^ (k + 2) - 3) := by
          cases k with
          | zero =>
            rw [coverOf_zero, List.mem_singleton] at hcR
            omega
          | succ m =>
            have hem : (2 : ℕ) ^ (m + 1 + 1) = 2 ^ (m + 2) := rfl
            rw [coverOf_succ] at hcR
            have hanyR : (S.any fun p =>
                lo + (2 ^ (m + 1 + 1) - 1) ≤ p ∧
                  p ≤ lo + (2 ^ (m + 1 + 1) - 1) + (2 ^ (m + 2) - 2)) =
                false := by
              rw [List.any_eq_false]
              intro p hp
              simp only [decide_eq_true_eq]
              intro hcond
              exact hmR ⟨p, hp, by omega, by omega⟩
            rw [if_neg (by rw [hanyR]; exact Bool.false_ne_true),
              List.mem_singleton] at hcR
            omega
        right
        have hx0l : x0 ≤ lo + (2 ^ (k + 1) - 2) := by
          by_contra hcon
          refine hmR ⟨x0, hx0S, by omega, by omega⟩
        have hhc : pos_height_in_tree c = k := by
          rw [hceq, show lo + (2 ^ (k + 2) - 3) =
              lo + ((2 ^ (k + 1) - 1) + (2 ^ (k + 1) - 2)) by omega,
            hs _ (by omega), height_shift k _ (by omega)]
          exact height_perfect_root k
        have hhc1 : pos_height_in_tree (c + 1) = k + 1 := by
          rw [hceq, show lo + (2 ^ (k + 2) - 3) + 1 =
            lo + (2 ^ (k + 2) - 2) by omega]
          exact span_peak_ht (k + 1) lo hs
        have hsib : sibOf c = lo + (2 ^ (k + 1) - 2) := by
          simp only [sibOf]
          rw [if_pos (by omega), hhc, hceq]
          omega
        rw [hsib]
        have hhlr : pos_height_in_tree (lo + (2 ^ (k + 1) - 2)) = k :=
          span_peak_ht k lo hsL
        refine ⟨x0, hx0S, ?_⟩
        show x0 ≤ lo + (2 ^ (k + 1) - 2) ∧
          lo + (2 ^ (k + 1) - 2) + 2 ≤
            x0 + 2 ^ (pos_height_in_tree (lo + (2 ^ (k + 1) - 2)) + 1)
        rw [hhlr]
        omega

theorem head?_mem {α : Type} : ∀ (l : List α) (a : α), l.head? = some a → a ∈ l := by
  intro l a hl
  cases l with
  | nil => simp at hl
  | cons b rest =>
    rw [List.head?_cons, Option.some_inj] at hl
    rw [← hl]
    exact List.mem_cons_self b rest

/-- Exact characterization of the proof-generation loop on an honest
sorted list of claimed leaves within one peak's subtree: the loop
succeeds, only emits store values at positions of the requested cover,
and together with the claimed leaves the emissions account for the whole
cover.  The queue is `W ++ P`: the current wave at height `h` and the
already-built parents at height `h + 1`. -/
theorem genProofLoop_exact {T : Type} [DecidableEq T] (s : MMRState T)
    (f : ℕ → T)
    (hstore : ∀ p, p < s.store.length → s.store.get? p = some (f p))
    (S : List ℕ) (lo k peak : ℕ)
    (hk1 : 1 ≤ k)
    (hpk : peak = lo + (2 ^ (k + 1) - 2))
    (hlt : peak < s.store.length)
    (hs : ∀ q, q ≤ 2 ^ (k + 1) - 2 →
      pos_height_in_tree (lo + q) = pos_height_in_tree q)
    (hSlv : ∀ p ∈ S, lo ≤ p ∧ p ≤ peak ∧ pos_height_in_tree p = 0) :
    ∀ (fuel : ℕ) (W P : List (ℕ × ℕ)) (h : ℕ) (proof0 E : List (ℕ × T)),
      (∀ e ∈ proof0, e.1 < lo) →
      queueMeasure peak (W ++ P) < fuel →
      (W = [] → P = []) →
      (∀ e ∈ W, e.2 = h ∧ pos_height_in_tree e.1 = h ∧ lo ≤ e.1 ∧ e.1 < peak) →
      (∀ e ∈ P, e.2 = h + 1 ∧ pos_height_in_tree e.1 = h + 1 ∧
        lo ≤ e.1 ∧ e.1 < peak) →
      List.Pairwise (· < ·) (W.map Prod.fst) →
      List.Pairwise (· < ·) (P.map Prod.fst) →
      (∀ ep ∈ P, ∀ ew ∈ W, ep.1 < ew.1) →
      (∀ ep ∈ P, ∀ ew ∈ W, ¬ inSpan ep.1 ew.1) →
      (h = 0 → ∀ e ∈ W, e.1 ∈ S) →
      (∀ e ∈ W ++ P, ∃ x ∈ S, inSpan e.1 x) →
      (∀ x ∈ S, ∃ e ∈ W ++ P, inSpan e.1 x) →
      (∀ p v, (p, v) ∈ E → v = f p ∧ p ∈ coverOf S lo k) →
      (∀ c ∈ coverOf S lo k, c ∈ S ∨ (c, f c) ∈ E ∨
        ∃ e ∈ W ++ P, inSpan (sibOf c) e.1) →
      ∃ E', genProofLoopF s S peak fuel (W ++ P) (proof0 ++ E) =
          .ok (proof0 ++ E') ∧
        (∀ p v, (p, v) ∈ E' → v = f p ∧ p ∈ coverOf S lo k) ∧
        (∀ c ∈ coverOf S lo k, c ∈ S ∨ (c, f c) ∈ E') := by
  obtain ⟨m, rfl⟩ : ∃ m, k = m + 1 := ⟨k - 1, by omega⟩
  intro fuel
  induction fuel with
  | zero =>
    intro W P h proof0 E _ hm _ _ _ _ _ _ _ _ _ _ _ _
    omega
  | succ fuel ih =>
    intro W P h proof0 E hp0 hm hWP hW hP hWs hPs hPW hdisj hW0 hSmeet hScov
      hE hpend
    have he1 : (2 : ℕ) ^ (m + 1 + 1) = 2 ^ (m + 2) := rfl
    have h2 : (2 : ℕ) ^ (m + 2) = 2 * 2 ^ (m + 1) := by ring
    have h2p : 2 ≤ 2 ^ (m + 1) := two_le_two_pow_succ m
    have hpeakht : pos_height_in_tree peak = m + 1 := by
      rw [hpk]
      exact span_peak_ht (m + 1) lo hs
    cases W with
    | nil =>
      have hPnil := hWP rfl
      subst hPnil
      refine ⟨E, by simp [genProofLoopF], hE, ?_⟩
      intro c hc
      rcases hpend c hc with h1 | h2' | ⟨e, he, _⟩
      · exact Or.inl h1
      · exact Or.inr h2'
      · exact absurd he (List.not_mem_nil e)
    | cons e0 W2 =>
      obtain ⟨pos, hh⟩ := e0
      obtain ⟨hhh, hhtpos, hlopos, hposlt⟩ := hW (pos, hh) (List.mem_cons_self _ _)
      replace hhh : hh = h := hhh
      replace hhtpos : pos_height_in_tree pos = h := hhtpos
      replace hlopos : lo ≤ pos := hlopos
      replace hposlt : pos < peak := hposlt
      have hhh' : h = hh := hhh.symm
      subst hhh'
      have hpos2 : pos - lo < 2 ^ (m + 2) - 2 := by omega
      have hppne : ¬ pos = peak := by omega
      rw [List.cons_append] at hm ⊢
      rw [queueMeasure_cons] at hm
      replace hm : peak + 1 - pos + queueMeasure peak (W2 ++ P) < fuel + 1 := hm
      have hWs' : ∀ ew ∈ W2, pos < ew.1 := by
        intro ew hew
        rw [List.map_cons, List.pairwise_cons] at hWs
        exact hWs.1 ew.1 (List.mem_map_of_mem Prod.fst hew)
      have hWstail : List.Pairwise (· < ·) (W2.map Prod.fst) := by
        rw [List.map_cons, List.pairwise_cons] at hWs
        exact hWs.2
      obtain ⟨x0, hx0S, hx0in⟩ := hSmeet (pos, h)
        (List.mem_append_left _ (List.mem_cons_self _ _))
      obtain ⟨hx0lo, hx0c, _⟩ := inSpan_coord (m + 1) lo hs pos x0 hlopos
        (by omega) hx0in
      have hanytop : (S.any fun p =>
          lo ≤ p ∧ p ≤ lo + (2 ^ (m + 2) - 2)) = true := by
        rw [List.any_eq_true]
        refine ⟨x0, hx0S, ?_⟩
        simp only [decide_eq_true_eq]
        omega
      have hcov_bounds : ∀ c ∈ coverOf S lo (m + 1),
          lo ≤ c ∧ c - lo < 2 ^ (m + 2) - 2 := by
        intro c hc
        have hb := spanCover_bounds (coverOf_spanCover S (m + 1) lo) c hc
        have hlt' := coverOf_lt_root S lo m hanytop c hc
        omega
      have hsibne_peak : ∀ c ∈ coverOf S lo (m + 1), ¬ sibOf c = peak := by
        intro c hc hceq
        obtain ⟨hc1, hc2⟩ := hcov_bounds c hc
        obtain ⟨s1, _, _, _, _, _, _, _⟩ :=
          sib_par_pack (m + 1) lo hs c hc1 hc2
        have hhc : pos_height_in_tree c =
            pos_height_in_tree (c - lo) :=
          span_ht_coord (m + 1) lo hs c hc1 (by omega)
        have := ht_lt_span (m + 1) (c - lo) (by omega)
        rw [hceq, hpeakht] at s1
        omega
      by_cases hdir : h < pos_height_in_tree (pos + 1)
      · -- `pos` is a right child
        have hdir' : pos_height_in_tree pos < pos_height_in_tree (pos + 1) := by
          rw [hhtpos]
          exact hdir
        obtain ⟨r1, r2, r3, r4, r5, r6⟩ :=
          right_child_pack (m + 1) lo hs pos hlopos hpos2 hdir'
        rw [hhtpos] at r1 r2 r3 r5 r6
        have hso : sibling_offset h = 2 ^ (h + 1) - 1 := rfl
        have h2h : 2 ≤ 2 ^ (h + 1) := two_le_two_pow_succ h
        have hsib3 : pos_height_in_tree (pos - sibling_offset h) = h := by
          rw [hso]
          exact r3
        have hsib5 : inSpan (pos + 1) (pos - sibling_offset h) := by
          rw [hso]
          exact r5
        have hsiblo : lo ≤ pos - sibling_offset h := by omega
        have hsible : pos - sibling_offset h ≤ lo + (2 ^ (m + 2) - 2) := by omega
        have hsibv := hstore (pos - sibling_offset h) (by omega)
        have hhead : ∀ q hh2, (W2 ++ P).head? = some (q, hh2) →
            ¬ q = pos - sibling_offset h ∧
              ¬ is_descendant_pos (pos - sibling_offset h) q = true := by
          intro q hh2 hq
          have hqmem := head?_mem _ _ hq
          rcases List.mem_append.1 hqmem with hqW | hqP
          · have hqgt := hWs' (q, hh2) hqW
            replace hqgt : pos < q := hqgt
            constructor
            · intro hqe
              omega
            · rw [is_descendant_pos_iff]
              intro hqin
              obtain ⟨hq1, _⟩ := hqin
              omega
          · obtain ⟨_, hqht, hqlo, hqlt⟩ := hP _ hqP
            replace hqht : pos_height_in_tree q = h + 1 := hqht
            replace hqlo : lo ≤ q := hqlo
            replace hqlt : q < peak := hqlt
            constructor
            · intro hqe
              rw [hqe] at hqht
              omega
            · rw [is_descendant_pos_iff]
              intro hqin
              have hle := (inSpan_ht_le (m + 1) lo hs
                (pos - sibling_offset h) q hsiblo hsible hqin).1
              omega
        have hsfree : 0 < h → ∀ x ∈ S, ¬ inSpan (pos - sibling_offset h) x := by
          intro hpos0 x hxS hxin
          obtain ⟨e, he, hein⟩ := hScov x hxS
          rcases List.mem_append.1 he with heW | heP
          · rcases List.mem_cons.1 heW with he1 | he2
            · rw [he1] at hein
              rcases inSpan_overlap (m + 1) lo hs pos (pos - sibling_offset h)
                  x hlopos (by omega) hsiblo hsible hein hxin with hns | hns
              · have := (inSpan_ht_le (m + 1) lo hs pos
                  (pos - sibling_offset h) hlopos (by omega) hns).2 (by omega)
                omega
              · have := (inSpan_ht_le (m + 1) lo hs (pos - sibling_offset h)
                  pos hsiblo hsible hns).2 (by omega)
                omega
            · obtain ⟨_, heht, helo, helt⟩ := hW _ (List.mem_cons_of_mem _ he2)
              have hegt := hWs' e he2
              rcases inSpan_overlap (m + 1) lo hs e.1 (pos - sibling_offset h)
                  x helo (by omega) hsiblo hsible hein hxin with hns | hns
              · have := (inSpan_ht_le (m + 1) lo hs e.1
                  (pos - sibling_offset h) helo (by omega) hns).2 (by omega)
                omega
              · obtain ⟨hc1, _⟩ := hns
                omega
          · obtain ⟨_, heht, helo, helt⟩ := hP _ heP
            have hlt2 := hPW _ heP (pos, h) (List.mem_cons_self _ _)
            replace hlt2 : e.1 < pos := hlt2
            rcases inSpan_overlap (m + 1) lo hs e.1 (pos - sibling_offset h)
                x helo (by omega) hsiblo hsible hein hxin with hns | hns
            · rcases inSpan_overlap (m + 1) lo hs e.1 (pos + 1)
                  (pos - sibling_offset h) helo (by omega) (by omega)
                  (by omega) hns hsib5 with hns2 | hns2
              · have := (inSpan_ht_le (m + 1) lo hs e.1 (pos + 1) helo
                  (by omega) hns2).2 (by omega)
                omega
              · have := (inSpan_ht_le (m + 1) lo hs (pos + 1) e.1 (by omega)
                  (by omega) hns2).2 (by omega)
                omega
            · have := (inSpan_ht_le (m + 1) lo hs (pos - sibling_offset h)
                e.1 hsiblo hsible hns).1
              omega
        have hsibcov : pos - sibling_offset h ∈ coverOf S lo (m + 1) := by
          refine coverOf_mem_emit S (m + 1) lo (pos - sibling_offset h)
            (pos + 1) hs (by omega) (by omega) hsib5 (by omega) ?_ ?_
          · exact ⟨x0, hx0S, inSpan_trans (m + 1) lo hs (pos + 1) pos x0
              (by omega) (by omega) r4 hx0in⟩
          · rcases Nat.eq_zero_or_pos h with h0 | hpos0
            · left
              omega
            · right
              exact hsfree hpos0
        have hsibOfpos : sibOf pos = pos - sibling_offset h := by
          simp only [sibOf]
          rw [if_pos hdir', hhtpos, hso]
        have hsc_eq : ∀ c ∈ coverOf S lo (m + 1), sibOf c = pos →
            c = pos - sibling_offset h := by
          intro c hc hceq
          obtain ⟨hc1, hc2⟩ := hcov_bounds c hc
          have hcu := sibOf_eq_unique (m + 1) lo hs pos c hlopos hpos2 hc1 hc2
            hceq
          rw [hcu, hsibOfpos]
        have hwit_step : ∀ c ∈ coverOf S lo (m + 1), inSpan (sibOf c) pos →
            ¬ sibOf c = pos → inSpan (sibOf c) (pos + 1) := by
          intro c hc hin hne
          obtain ⟨h1', h2'⟩ := hin
          show pos + 1 ≤ sibOf c ∧
            sibOf c + 2 ≤ pos + 1 + 2 ^ (pos_height_in_tree (sibOf c) + 1)
          omega
        have hstep0 := genSibStep_emit s S (proof0 ++ E) (W2 ++ P)
          (pos - sibling_offset h) h (f (pos - sibling_offset h)) hsibv hhead
        have hcontinue : ∀ (E2 : List (ℕ × T)),
            (∀ p v, (p, v) ∈ E2 → v = f p ∧ p ∈ coverOf S lo (m + 1)) →
            (∀ p v, (p, v) ∈ E → (p, v) ∈ E2) →
            (pos - sibling_offset h ∈ S ∨
              (pos - sibling_offset h, f (pos - sibling_offset h)) ∈ E2) →
            ∃ E', genProofLoopF s S peak fuel
                (if pos + 1 < peak then (W2 ++ P) ++ [(pos + 1, h + 1)]
                 else W2 ++ P) (proof0 ++ E2) =
                .ok (proof0 ++ E') ∧
              (∀ p v, (p, v) ∈ E' → v = f p ∧ p ∈ coverOf S lo (m + 1)) ∧
              (∀ c ∈ coverOf S lo (m + 1), c ∈ S ∨ (c, f c) ∈ E') := by
          intro E2 hE2 hEsub hsibacc
          by_cases hparlt : pos + 1 < peak
          · rw [if_pos hparlt]
            have hnewpend : ∀ c ∈ coverOf S lo (m + 1), c ∈ S ∨
                (c, f c) ∈ E2 ∨
                ∃ e2 ∈ W2 ++ (P ++ [(pos + 1, h + 1)]),
                  inSpan (sibOf c) e2.1 := by
              intro c hc
              rcases hpend c hc with h1 | h2' | ⟨e, he, hin⟩
              · exact Or.inl h1
              · exact Or.inr (Or.inl (hEsub _ _ h2'))
              · rcases List.mem_append.1 he with heW | heP
                · rcases List.mem_cons.1 heW with he1 | he2
                  · by_cases hce : sibOf c = pos
                    · have hcs := hsc_eq c hc hce
                      rcases hsibacc with hA | hA
                      · exact Or.inl (by rw [hcs]; exact hA)
                      · exact Or.inr (Or.inl (by rw [hcs]; exact hA))
                    · refine Or.inr (Or.inr ⟨(pos + 1, h + 1),
                        List.mem_append_right _ (List.mem_append_right _
                          (List.mem_cons_self _ _)), ?_⟩)
                      rw [he1] at hin
                      exact hwit_step c hc hin hce
                  · exact Or.inr (Or.inr ⟨e, List.mem_append_left _ he2, hin⟩)
                · exact Or.inr (Or.inr ⟨e, List.mem_append_right _
                    (List.mem_append_left _ heP), hin⟩)
            have hm2 : queueMeasure peak (W2 ++ (P ++ [(pos + 1, h + 1)])) <
                fuel := by
              rw [queueMeasure_append, queueMeasure_append,
                queueMeasure_singleton]
              rw [queueMeasure_append] at hm
              omega
            have hP2x : ∀ e ∈ P ++ [(pos + 1, h + 1)], e.2 = h + 1 ∧
                pos_height_in_tree e.1 = h + 1 ∧ lo ≤ e.1 ∧ e.1 < peak := by
              intro e hep
              rcases List.mem_append.1 hep with h1 | h1
              · exact hP e h1
              · rw [List.mem_singleton] at h1
                rw [h1]
                exact ⟨rfl, r1, by omega, hparlt⟩
            have hPs2 : List.Pairwise (· < ·)
                ((P ++ [(pos + 1, h + 1)]).map Prod.fst) := by
              rw [List.map_append, List.pairwise_append]
              refine ⟨hPs, by simp, ?_⟩
              intro a ha b hb
              rw [List.mem_map] at ha
              obtain ⟨ep, hep, rfl⟩ := ha
              simp only [List.map_cons, List.map_nil, List.mem_singleton]
                at hb
              have hplt := hPW ep hep (pos, h) (List.mem_cons_self _ _)
              replace hplt : ep.1 < pos := hplt
              omega
            have hPW2 : ∀ ep ∈ P ++ [(pos + 1, h + 1)], ∀ ew ∈ W2,
                ep.1 < ew.1 := by
              intro ep hep ew hew
              rcases List.mem_append.1 hep with h1 | h1
              · exact hPW ep h1 ew (List.mem_cons_of_mem _ hew)
              · rw [List.mem_singleton] at h1
                subst h1
                obtain ⟨_, hewht, _, _⟩ := hW ew (List.mem_cons_of_mem _ hew)
                have := hWs' ew hew
                by_contra hcon
                have hewe : ew.1 = pos + 1 := by omega
                rw [hewe] at hewht
                omega
            have hdisj2 : ∀ ep ∈ P ++ [(pos + 1, h + 1)], ∀ ew ∈ W2,
                ¬ inSpan ep.1 ew.1 := by
              intro ep hep ew hew hcon
              obtain ⟨hc1, _⟩ := hcon
              have := hPW2 ep hep ew hew
              omega
            have hSmeet2 : ∀ e ∈ W2 ++ (P ++ [(pos + 1, h + 1)]),
                ∃ x ∈ S, inSpan e.1 x := by
              intro e hep
              rcases List.mem_append.1 hep with h1 | h1
              · exact hSmeet e (List.mem_append_left _
                  (List.mem_cons_of_mem _ h1))
              · rcases List.mem_append.1 h1 with h1' | h1'
                · exact hSmeet e (List.mem_append_right _ h1')
                · rw [List.mem_singleton] at h1'
                  rw [h1']
                  exact ⟨x0, hx0S, inSpan_trans (m + 1) lo hs (pos + 1) pos x0
                    (by omega) (by omega) r4 hx0in⟩
            have hScov2 : ∀ x ∈ S, ∃ e ∈ W2 ++ (P ++ [(pos + 1, h + 1)]),
                inSpan e.1 x := by
              intro x hxS
              obtain ⟨e, he, hein⟩ := hScov x hxS
              rcases List.mem_append.1 he with heW | heP
              · rcases List.mem_cons.1 heW with he1 | he2
                · refine ⟨(pos + 1, h + 1), List.mem_append_right _
                    (List.mem_append_right _ (List.mem_cons_self _ _)), ?_⟩
                  rw [he1] at hein
                  exact inSpan_trans (m + 1) lo hs (pos + 1) pos x (by omega)
                    (by omega) r4 hein
                · exact ⟨e, List.mem_append_left _ he2, hein⟩
              · exact ⟨e, List.mem_append_right _ (List.mem_append_left _ heP),
                  hein⟩
            cases W2 with
            | nil =>
              obtain ⟨E', hrec, hE', hC'⟩ := ih (P ++ [(pos + 1, h + 1)]) []
                (h + 1) proof0 E2 hp0
                (by rw [List.append_nil]; simpa using hm2)
                (fun _ => rfl) hP2x
                (fun e hee => absurd hee (List.not_mem_nil e))
                hPs2 (by simp)
                (fun ep hep => absurd hep (List.not_mem_nil ep))
                (fun ep hep => absurd hep (List.not_mem_nil ep))
                (fun hc => absurd hc (Nat.succ_ne_zero h))
                (by rw [List.append_nil]; simpa using hSmeet2)
                (by
                  intro x hxS
                  obtain ⟨e, he, hein⟩ := hScov2 x hxS
                  rw [List.nil_append] at he
                  exact ⟨e, by rw [List.append_nil]; exact he, hein⟩)
                hE2
                (by
                  intro c hc
                  rcases hnewpend c hc with h1 | h2' | ⟨e2, he2, hin2⟩
                  · exact Or.inl h1
                  · exact Or.inr (Or.inl h2')
                  · rw [List.nil_append] at he2
                    refine Or.inr (Or.inr ⟨e2, ?_, hin2⟩)
                    rw [List.append_nil]
                    exact he2)
              refine ⟨E', ?_, hE', hC'⟩
              rw [List.append_nil] at hrec
              simpa using hrec
            | cons w0 W3 =>
              obtain ⟨E', hrec, hE', hC'⟩ := ih (w0 :: W3)
                (P ++ [(pos + 1, h + 1)]) h proof0 E2 hp0 hm2
                (fun hc => absurd hc (List.cons_ne_nil _ _))
                (fun e hee => hW e (List.mem_cons_of_mem _ hee))
                hP2x hWstail hPs2 hPW2 hdisj2
                (fun h0 e hee => hW0 h0 e (List.mem_cons_of_mem _ hee))
                hSmeet2 hScov2 hE2 hnewpend
              refine ⟨E', ?_, hE', hC'⟩
              rw [List.append_assoc]
              exact hrec
          · rw [if_neg hparlt]
            have hpareq : pos + 1 = peak := by omega
            have hW2nil : W2 = [] := by
              cases W2 with
              | nil => rfl
              | cons a rest =>
                have h1' := hWs' a (List.mem_cons_self _ _)
                obtain ⟨_, _, _, h4'⟩ := hW a
                  (List.mem_cons_of_mem _ (List.mem_cons_self _ _))
                omega
            have hPnil : P = [] := by
              cases P with
              | nil => rfl
              | cons a rest =>
                obtain ⟨_, haht, halo, halt⟩ := hP a (List.mem_cons_self _ _)
                have hac : pos_height_in_tree a.1 =
                    pos_height_in_tree (a.1 - lo) :=
                  span_ht_coord (m + 1) lo hs a.1 halo (by omega)
                have := ht_lt_span (m + 1) (a.1 - lo) (by omega)
                rw [hpareq, hpeakht] at r1
                omega
            subst hW2nil
            subst hPnil
            have hq0 : queueMeasure peak (([] : List (ℕ × ℕ)) ++ []) = 0 := rfl
            obtain ⟨fl, rfl⟩ : ∃ fl, fuel = fl + 1 := ⟨fuel - 1, by omega⟩
            refine ⟨E2, by simp [genProofLoopF], hE2, ?_⟩
            intro c hc
            rcases hpend c hc with h1 | h2' | ⟨e, he, hin⟩
            · exact Or.inl h1
            · exact Or.inr (hEsub _ _ h2')
            · have he' : e = (pos, h) := by
                rcases List.mem_append.1 he with heW | heP
                · rcases List.mem_cons.1 heW with h1' | h1'
                  · exact h1'
                  · exact absurd h1' (List.not_mem_nil e)
                · exact absurd heP (List.not_mem_nil e)
              rw [he'] at hin
              by_cases hce : sibOf c = pos
              · have hcs := hsc_eq c hc hce
                rcases hsibacc with hA | hA
                · exact Or.inl (by rw [hcs]; exact hA)
                · exact Or.inr (by rw [hcs]; exact hA)
              · exfalso
                obtain ⟨hw1, _⟩ := hwit_step c hc hin hce
                obtain ⟨hc1, hc2⟩ := hcov_bounds c hc
                obtain ⟨_, _, hsc3, _, _, _, _, _⟩ :=
                  sib_par_pack (m + 1) lo hs c hc1 hc2
                exact hsibne_peak c hc (by omega)
        by_cases hpush : h = 0 ∨ (¬ (pos - sibling_offset h,
            f (pos - sibling_offset h)) ∈ (proof0 ++ E) ∧
            ¬ pos - sibling_offset h ∈ S)
        · rw [if_pos hpush] at hstep0
          obtain ⟨E', hrec, hE', hC'⟩ := hcontinue
            (E ++ [(pos - sibling_offset h, f (pos - sibling_offset h))])
            (by
              intro p v hpv
              rcases List.mem_append.1 hpv with h1 | h1
              · exact hE p v h1
              · rw [List.mem_singleton] at h1
                rw [Prod.mk.injEq] at h1
                obtain ⟨rfl, rfl⟩ := h1
                exact ⟨rfl, hsibcov⟩)
            (fun p v hpv => List.mem_append_left _ hpv)
            (Or.inr (List.mem_append_right _ (List.mem_cons_self _ _)))
          refine ⟨E', ?_, hE', hC'⟩
          simp only [genProofLoopF, if_neg hppne, if_pos hdir, hstep0]
          nth_rewrite 2 [List.append_assoc]
          exact hrec
        · rw [if_neg hpush] at hstep0
          have hsacc : pos - sibling_offset h ∈ S ∨
              (pos - sibling_offset h, f (pos - sibling_offset h)) ∈ E := by
            push_neg at hpush
            obtain ⟨_, hpe⟩ := hpush
            by_cases hinp : (pos - sibling_offset h,
                f (pos - sibling_offset h)) ∈ proof0 ++ E
            · rcases List.mem_append.1 hinp with h1 | h1
              · have hcon := hp0 _ h1
                replace hcon : pos - sibling_offset h < lo := hcon
                omega
              · exact Or.inr h1
            · exact Or.inl (hpe hinp)
          obtain ⟨E', hrec, hE', hC'⟩ := hcontinue E hE
            (fun p v hpv => hpv)
            (by
              rcases hsacc with hA | hA
              · exact Or.inl hA
              · exact Or.inr hA)
          refine ⟨E', ?_, hE', hC'⟩
          simp only [genProofLoopF, if_neg hppne, if_pos hdir, hstep0]
          exact hrec
      · -- `pos` is a left child
        have hdir' : ¬ pos_height_in_tree pos < pos_height_in_tree (pos + 1) := by
          rw [hhtpos]
          exact hdir
        obtain ⟨l1, l2, l3, l4, l5, l6⟩ :=
          left_child_pack (m + 1) lo hs pos hlopos hpos2 hdir'
        rw [hhtpos] at l1 l2 l3 l4 l5 l6
        have hso : sibling_offset h = 2 ^ (h + 1) - 1 := rfl
        have hpo : parent_offset h = 2 ^ (h + 1) := rfl
        have h2h : 2 ≤ 2 ^ (h + 1) := two_le_two_pow_succ h
        have hsib2 : pos_height_in_tree (pos + sibling_offset h) = h := by
          rw [hso]
          exact l2
        have hpar3 : pos_height_in_tree (pos + parent_offset h) = h + 1 := by
          rw [hpo]
          exact l3
        have hpar4 : inSpan (pos + parent_offset h) pos := by
          rw [hpo]
          exact l4
        have hpar5 : inSpan (pos + parent_offset h) (pos + sibling_offset h) := by
          rw [hpo, hso]
          exact l5
        have hsib6 : pos_height_in_tree (pos + sibling_offset h) <
            pos_height_in_tree (pos + sibling_offset h + 1) := by
          rw [hso]
          exact l6
        have hsiblt2 : pos + sibling_offset h < peak := by omega
        have hsiblo : lo ≤ pos + sibling_offset h := by omega
        have hsible : pos + sibling_offset h ≤ lo + (2 ^ (m + 2) - 2) := by omega
        have hparle : pos + parent_offset h ≤ peak := by omega
        have hparht : pos < pos + parent_offset h := by omega
        have hsibv := hstore (pos + sibling_offset h) (by omega)
        have hsibOfpos : sibOf pos = pos + sibling_offset h := by
          simp only [sibOf]
          rw [if_neg hdir', hhtpos, hso]
        have hsc_eq : ∀ c ∈ coverOf S lo (m + 1), sibOf c = pos →
            c = pos + sibling_offset h := by
          intro c hc hceq
          obtain ⟨hc1, hc2⟩ := hcov_bounds c hc
          have hcu := sibOf_eq_unique (m + 1) lo hs pos c hlopos hpos2 hc1 hc2
            hceq
          rw [hcu, hsibOfpos]
        have hwit_step : ∀ c ∈ coverOf S lo (m + 1), inSpan (sibOf c) pos →
            ¬ sibOf c = pos → inSpan (sibOf c) (pos + parent_offset h) := by
          intro c hc hin hne
          obtain ⟨hc1, hc2⟩ := hcov_bounds c hc
          obtain ⟨_, hsc2, hsc3, _, _, _, _, _⟩ :=
            sib_par_pack (m + 1) lo hs c hc1 hc2
          have hstep := inSpan_anc_step (m + 1) lo hs (sibOf c) pos hsc2
            (by omega) hin (fun hp => hne hp.symm) hdir'
          rw [hhtpos] at hstep
          rw [hpo]
          exact hstep
        -- the pending-sibling step when the processed entry is the sibling
        have hwit_sib : ∀ c ∈ coverOf S lo (m + 1),
            inSpan (sibOf c) (pos + sibling_offset h) →
            ¬ sibOf c = pos + sibling_offset h →
            inSpan (sibOf c) (pos + parent_offset h) := by
          intro c hc hin hne
          obtain ⟨h1', h2'⟩ := hin
          show pos + parent_offset h ≤ sibOf c ∧
            sibOf c + 2 ≤ pos + parent_offset h +
              2 ^ (pos_height_in_tree (sibOf c) + 1)
          omega
        have hcontinue : ∀ (W2' : List (ℕ × ℕ)) (E2 : List (ℕ × T)),
            queueMeasure peak (W2' ++ P) + (peak - pos) < fuel →
            (∀ e ∈ W2', e.2 = h ∧ pos_height_in_tree e.1 = h ∧ lo ≤ e.1 ∧
              e.1 < peak) →
            List.Pairwise (· < ·) (W2'.map Prod.fst) →
            (∀ ew ∈ W2', pos + sibling_offset h < ew.1) →
            (∀ ep ∈ P, ∀ ew ∈ W2', ep.1 < ew.1) →
            (h = 0 → ∀ e ∈ W2', e.1 ∈ S) →
            (∀ e ∈ W2' ++ P, ∃ x ∈ S, inSpan e.1 x) →
            (∀ x ∈ S, (∃ e ∈ W2' ++ P, inSpan e.1 x) ∨
              inSpan (pos + parent_offset h) x) →
            (∀ p v, (p, v) ∈ E2 → v = f p ∧ p ∈ coverOf S lo (m + 1)) →
            (∀ c ∈ coverOf S lo (m + 1), c ∈ S ∨ (c, f c) ∈ E2 ∨
              (∃ e ∈ W2' ++ P, inSpan (sibOf c) e.1) ∨
              inSpan (sibOf c) (pos + parent_offset h)) →
            ∃ E', genProofLoopF s S peak fuel
                (if pos + parent_offset h < peak then
                  (W2' ++ P) ++ [(pos + parent_offset h, h + 1)]
                 else W2' ++ P) (proof0 ++ E2) =
                .ok (proof0 ++ E') ∧
              (∀ p v, (p, v) ∈ E' → v = f p ∧ p ∈ coverOf S lo (m + 1)) ∧
              (∀ c ∈ coverOf S lo (m + 1), c ∈ S ∨ (c, f c) ∈ E') := by
          intro W2' E2 hm' hW' hWs2' hWgt' hPW' hW0' hSmeet' hScov' hE2 hpend'
          by_cases hparlt : pos + parent_offset h < peak
          · rw [if_pos hparlt]
            have hnewpend : ∀ c ∈ coverOf S lo (m + 1), c ∈ S ∨
                (c, f c) ∈ E2 ∨
                ∃ e2 ∈ W2' ++ (P ++ [(pos + parent_offset h, h + 1)]),
                  inSpan (sibOf c) e2.1 := by
              intro c hc
              rcases hpend' c hc with h1 | h2' | ⟨e, he, hin⟩ | hin
              · exact Or.inl h1
              · exact Or.inr (Or.inl h2')
              · rcases List.mem_append.1 he with heW | heP
                · exact Or.inr (Or.inr ⟨e, List.mem_append_left _ heW, hin⟩)
                · exact Or.inr (Or.inr ⟨e, List.mem_append_right _
                    (List.mem_append_left _ heP), hin⟩)
              · exact Or.inr (Or.inr ⟨(pos + parent_offset h, h + 1),
                  List.mem_append_right _ (List.mem_append_right _
                    (List.mem_cons_self _ _)), hin⟩)
            have hm2 : queueMeasure peak
                (W2' ++ (P ++ [(pos + parent_offset h, h + 1)])) < fuel := by
              rw [queueMeasure_append, queueMeasure_append,
                queueMeasure_singleton]
              rw [queueMeasure_append] at hm'
              omega
            have hP2x : ∀ e ∈ P ++ [(pos + parent_offset h, h + 1)],
                e.2 = h + 1 ∧ pos_height_in_tree e.1 = h + 1 ∧ lo ≤ e.1 ∧
                  e.1 < peak := by
              intro e hep
              rcases List.mem_append.1 hep with h1 | h1
              · exact hP e h1
              · rw [List.mem_singleton] at h1
                rw [h1]
                exact ⟨rfl, hpar3, by omega, hparlt⟩
            have hPs2 : List.Pairwise (· < ·)
                ((P ++ [(pos + parent_offset h, h + 1)]).map Prod.fst) := by
              rw [List.map_append, List.pairwise_append]
              refine ⟨hPs, by simp, ?_⟩
              intro a ha b hb
              rw [List.mem_map] at ha
              obtain ⟨ep, hep, rfl⟩ := ha
              simp only [List.map_cons, List.map_nil, List.mem_singleton]
                at hb
              have hplt := hPW ep hep (pos, h) (List.mem_cons_self _ _)
              replace hplt : ep.1 < pos := hplt
              omega
            have hPW2 : ∀ ep ∈ P ++ [(pos + parent_offset h, h + 1)],
                ∀ ew ∈ W2', ep.1 < ew.1 := by
              intro ep hep ew hew
              rcases List.mem_append.1 hep with h1 | h1
              · exact hPW' ep h1 ew hew
              · rw [List.mem_singleton] at h1
                subst h1
                obtain ⟨_, hewht, _, _⟩ := hW' ew hew
                have := hWgt' ew hew
                by_contra hcon
                have hewe : ew.1 = pos + parent_offset h := by omega
                rw [hewe] at hewht
                omega
            have hdisj2 : ∀ ep ∈ P ++ [(pos + parent_offset h, h + 1)],
                ∀ ew ∈ W2', ¬ inSpan ep.1 ew.1 := by
              intro ep hep ew hew hcon
              obtain ⟨hc1, _⟩ := hcon
              have := hPW2 ep hep ew hew
              omega
            have hSmeet2 : ∀ e ∈ W2' ++ (P ++ [(pos + parent_offset h, h + 1)]),
                ∃ x ∈ S, inSpan e.1 x := by
              intro e hep
              rcases List.mem_append.1 hep with h1 | h1
              · exact hSmeet' e (List.mem_append_left _ h1)
              · rcases List.mem_append.1 h1 with h1' | h1'
                · exact hSmeet' e (List.mem_append_right _ h1')
                · rw [List.mem_singleton] at h1'
                  rw [h1']
                  exact ⟨x0, hx0S, inSpan_trans (m + 1) lo hs
                    (pos + parent_offset h) pos x0 (by omega) (by omega)
                    hpar4 hx0in⟩
            have hScov2 : ∀ x ∈ S,
                ∃ e ∈ W2' ++ (P ++ [(pos + parent_offset h, h + 1)]),
                  inSpan e.1 x := by
              intro x hxS
              rcases hScov' x hxS with ⟨e, he, hein⟩ | hein
              · rcases List.mem_append.1 he with heW | heP
                · exact ⟨e, List.mem_append_left _ heW, hein⟩
                · exact ⟨e, List.mem_append_right _ (List.mem_append_left _
                    heP), hein⟩
              · exact ⟨(pos + parent_offset h, h + 1), List.mem_append_right _
                  (List.mem_append_right _ (List.mem_cons_self _ _)), hein⟩
            cases W2' with
            | nil =>
              obtain ⟨E', hrec, hE', hC'⟩ := ih
                (P ++ [(pos + parent_offset h, h + 1)]) [] (h + 1) proof0 E2
                hp0
                (by rw [List.append_nil]; simpa using hm2)
                (fun _ => rfl) hP2x
                (fun e hee => absurd hee (List.not_mem_nil e))
                hPs2 (by simp)
                (fun ep hep => absurd hep (List.not_mem_nil ep))
                (fun ep hep => absurd hep (List.not_mem_nil ep))
                (fun hc => absurd hc (Nat.succ_ne_zero h))
                (by rw [List.append_nil]; simpa using hSmeet2)
                (by
                  intro x hxS
                  obtain ⟨e, he, hein⟩ := hScov2 x hxS
                  rw [List.nil_append] at he
                  refine ⟨e, ?_, hein⟩
                  rw [List.append_nil]
                  exact he)
                hE2
                (by
                  intro c hc
                  rcases hnewpend c hc with h1 | h2' | ⟨e2, he2, hin2⟩
                  · exact Or.inl h1
                  · exact Or.inr (Or.inl h2')
                  · rw [List.nil_append] at he2
                    refine Or.inr (Or.inr ⟨e2, ?_, hin2⟩)
                    rw [List.append_nil]
                    exact he2)
              refine ⟨E', ?_, hE', hC'⟩
              rw [List.append_nil] at hrec
              simpa using hrec
            | cons w0 W3 =>
              obtain ⟨E', hrec, hE', hC'⟩ := ih (w0 :: W3)
                (P ++ [(pos + parent_offset h, h + 1)]) h proof0 E2 hp0 hm2
                (fun hc => absurd hc (List.cons_ne_nil _ _))
                hW' hP2x hWs2' hPs2 hPW2 hdisj2 hW0' hSmeet2 hScov2 hE2
                hnewpend
              refine ⟨E', ?_, hE', hC'⟩
              rw [List.append_assoc]
              exact hrec
          · rw [if_neg hparlt]
            have hpareq : pos + parent_offset h = peak := by omega
            have hW2nil : W2' = [] := by
              cases W2' with
              | nil => rfl
              | cons a rest =>
                have h1' := hWgt' a (List.mem_cons_self _ _)
                obtain ⟨_, _, _, h4'⟩ := hW' a (List.mem_cons_self _ _)
                omega
            have hhm : h + 1 = m + 1 := by
              rw [hpareq, hpeakht] at hpar3
              omega
            have hPnil : P = [] := by
              cases P with
              | nil => rfl
              | cons a rest =>
                obtain ⟨_, haht, halo, halt⟩ := hP a (List.mem_cons_self _ _)
                replace haht : pos_height_in_tree a.1 = h + 1 := haht
                replace halo : lo ≤ a.1 := halo
                replace halt : a.1 < peak := halt
                have hac : pos_height_in_tree a.1 =
                    pos_height_in_tree (a.1 - lo) :=
                  span_ht_coord (m + 1) lo hs a.1 halo (by omega)
                have := ht_lt_span (m + 1) (a.1 - lo) (by omega)
                omega
            subst hW2nil
            subst hPnil
            have hq0 : queueMeasure peak (([] : List (ℕ × ℕ)) ++ []) = 0 := rfl
            obtain ⟨fl, rfl⟩ : ∃ fl, fuel = fl + 1 := ⟨fuel - 1, by omega⟩
            refine ⟨E2, by simp [genProofLoopF], hE2, ?_⟩
            intro c hc
            rcases hpend' c hc with h1 | h2' | ⟨e, he, _⟩ | hin
            · exact Or.inl h1
            · exact Or.inr h2'
            · exact absurd he (List.not_mem_nil e)
            · exfalso
              rw [hpareq] at hin
              obtain ⟨hw1, _⟩ := hin
              obtain ⟨hc1, hc2⟩ := hcov_bounds c hc
              obtain ⟨_, _, hsc3, _, _, _, _, _⟩ :=
                sib_par_pack (m + 1) lo hs c hc1 hc2
              exact hsibne_peak c hc (by omega)
        -- decide whether the sibling is next in the queue
        by_cases hconsume : ∃ wh2 W3, W2 = (pos + sibling_offset h, wh2) :: W3
        · -- the sibling is consumed from the queue front
          obtain ⟨wh2, W3, rfl⟩ := hconsume
          have hstep0 : genSibStep s S (proof0 ++ E)
              (((pos + sibling_offset h, wh2) :: W3) ++ P)
              (pos + sibling_offset h) h = .ok (W3 ++ P, proof0 ++ E) := by
            rw [List.cons_append]
            exact genSibStep_consume s S (proof0 ++ E) (W3 ++ P)
              (pos + sibling_offset h) wh2 h
          rw [List.cons_append] at hm
          rw [queueMeasure_cons] at hm
          replace hm : peak + 1 - pos + (peak + 1 - (pos + sibling_offset h) +
            queueMeasure peak (W3 ++ P)) < fuel + 1 := hm
          have hsibS : h = 0 → pos + sibling_offset h ∈ S := by
            intro h0
            exact hW0 h0 (pos + sibling_offset h, wh2)
              (List.mem_cons_of_mem _ (List.mem_cons_self _ _))
          obtain ⟨xs, hxsS, hxsin⟩ := hSmeet (pos + sibling_offset h, wh2)
            (List.mem_append_left _
              (List.mem_cons_of_mem _ (List.mem_cons_self _ _)))
          replace hxsin : inSpan (pos + sibling_offset h) xs := hxsin
          have hWgt3 : ∀ ew ∈ W3, pos + sibling_offset h < ew.1 := by
            intro ew hew
            rw [List.map_cons, List.pairwise_cons] at hWstail
            exact hWstail.1 ew.1 (List.mem_map_of_mem Prod.fst hew)
          obtain ⟨E', hrec, hE', hC'⟩ := hcontinue W3 E
            (by omega)
            (fun e hee => hW e (List.mem_cons_of_mem _
              (List.mem_cons_of_mem _ hee)))
            (by
              rw [List.map_cons, List.pairwise_cons] at hWstail
              exact hWstail.2)
            hWgt3
            (fun ep hep ew hew => hPW ep hep ew (List.mem_cons_of_mem _
              (List.mem_cons_of_mem _ hew)))
            (fun h0 e hee => hW0 h0 e (List.mem_cons_of_mem _
              (List.mem_cons_of_mem _ hee)))
            (fun e hee => hSmeet e (by
              rcases List.mem_append.1 hee with h1 | h1
              · exact List.mem_append_left _ (List.mem_cons_of_mem _
                  (List.mem_cons_of_mem _ h1))
              · exact List.mem_append_right _ h1))
            (by
              intro x hxS
              obtain ⟨e, he, hein⟩ := hScov x hxS
              rcases List.mem_append.1 he with heW | heP
              · rcases List.mem_cons.1 heW with he1 | he2
                · right
                  rw [he1] at hein
                  exact inSpan_trans (m + 1) lo hs (pos + parent_offset h)
                    pos x (by omega) (by omega) hpar4 hein
                · rcases List.mem_cons.1 he2 with he3 | he4
                  · right
                    rw [he3] at hein
                    exact inSpan_trans (m + 1) lo hs (pos + parent_offset h)
                      (pos + sibling_offset h) x (by omega) (by omega)
                      hpar5 hein
                  · exact Or.inl ⟨e, List.mem_append_left _ he4, hein⟩
              · exact Or.inl ⟨e, List.mem_append_right _ heP, hein⟩)
            hE
            (by
              intro c hc
              rcases hpend c hc with h1 | h2' | ⟨e, he, hin⟩
              · exact Or.inl h1
              · exact Or.inr (Or.inl h2')
              · rcases List.mem_append.1 he with heW | heP
                · rcases List.mem_cons.1 heW with he1 | he2
                  · -- witness was the processed entry
                    by_cases hce : sibOf c = pos
                    · have hcs := hsc_eq c hc hce
                      rcases Nat.eq_zero_or_pos h with h0 | hposh
                      · exact Or.inl (by rw [hcs]; exact hsibS h0)
                      · exfalso
                        refine coverOf_S_free S (m + 1) lo hs c hc ?_ xs hxsS
                          ?_
                        · rw [hcs, hsib2]
                          omega
                        · rw [hcs]
                          exact hxsin
                    · rw [he1] at hin
                      exact Or.inr (Or.inr (Or.inr (hwit_step c hc hin hce)))
                  · rcases List.mem_cons.1 he2 with he3 | he4
                    · -- witness was the consumed sibling
                      by_cases hce : sibOf c = pos + sibling_offset h
                      · -- then `c` is the processed entry itself
                        have hcu : c = sibOf (pos + sibling_offset h) := by
                          obtain ⟨hc1, hc2⟩ := hcov_bounds c hc
                          exact sibOf_eq_unique (m + 1) lo hs
                            (pos + sibling_offset h) c hsiblo (by omega) hc1
                            hc2 hce
                        have hsibsib : sibOf (pos + sibling_offset h) = pos := by
                          simp only [sibOf]
                          rw [if_pos hsib6, hsib2, hso]
                          omega
                        rw [hsibsib] at hcu
                        rcases Nat.eq_zero_or_pos h with h0 | hposh
                        · refine Or.inl ?_
                          rw [hcu]
                          exact hW0 h0 (pos, h) (List.mem_cons_self _ _)
                        · exfalso
                          refine coverOf_S_free S (m + 1) lo hs c hc ?_ x0
                            hx0S ?_
                          · rw [hcu, hhtpos]
                            omega
                          · rw [hcu]
                            exact hx0in
                      · rw [he3] at hin
                        exact Or.inr (Or.inr (Or.inr (hwit_sib c hc hin hce)))
                    · exact Or.inr (Or.inr (Or.inl ⟨e,
                        List.mem_append_left _ he4, hin⟩))
                · exact Or.inr (Or.inr (Or.inl ⟨e,
                    List.mem_append_right _ heP, hin⟩)))
          refine ⟨E', ?_, hE', hC'⟩
          simp only [genProofLoopF, if_neg hppne, if_neg hdir, hstep0]
          exact hrec
        · -- the sibling is not queued: it is fetched from the store
          have hWgt2 : ∀ ew ∈ W2, pos + sibling_offset h < ew.1 := by
            intro ew hew
            by_contra hcon
            have hewgt := hWs' ew hew
            obtain ⟨hew2, hewht, hewlo, hewlt⟩ := hW ew
              (List.mem_cons_of_mem _ hew)
            replace hewht : pos_height_in_tree ew.1 = h := hewht
            have hin : inSpan (pos + sibling_offset h) ew.1 := by
              show ew.1 ≤ pos + sibling_offset h ∧
                pos + sibling_offset h + 2 ≤ ew.1 +
                  2 ^ (pos_height_in_tree (pos + sibling_offset h) + 1)
              rw [hsib2]
              omega
            have hewe := (inSpan_ht_le (m + 1) lo hs (pos + sibling_offset h)
              ew.1 hsiblo hsible hin).2 (by omega)
            cases W2 with
            | nil => exact absurd hew (List.not_mem_nil ew)
            | cons w0 W3 =>
              obtain ⟨wp, wh⟩ := w0
              rcases List.mem_cons.1 hew with he1 | he2
              · refine hconsume ⟨wh, W3, ?_⟩
                rw [he1] at hewe
                replace hewe : wp = pos + sibling_offset h := hewe
                rw [hewe]
              · have hwl : wp < ew.1 := by
                  rw [List.map_cons, List.pairwise_cons] at hWstail
                  exact hWstail.1 ew.1 (List.mem_map_of_mem Prod.fst he2)
                have hwgt := hWs' (wp, wh) (List.mem_cons_self _ _)
                replace hwgt : pos < wp := hwgt
                obtain ⟨_, hwht, _, _⟩ := hW (wp, wh)
                  (List.mem_cons_of_mem _ (List.mem_cons_self _ _))
                replace hwht : pos_height_in_tree wp = h := hwht
                have hin2 : inSpan (pos + sibling_offset h) wp := by
                  show wp ≤ pos + sibling_offset h ∧
                    pos + sibling_offset h + 2 ≤ wp +
                      2 ^ (pos_height_in_tree (pos + sibling_offset h) + 1)
                  rw [hsib2]
                  omega
                have := (inSpan_ht_le (m + 1) lo hs (pos + sibling_offset h)
                  wp hsiblo hsible hin2).2 (by omega)
                omega
          have hhead : ∀ q hh2, (W2 ++ P).head? = some (q, hh2) →
              ¬ q = pos + sibling_offset h ∧
                ¬ is_descendant_pos (pos + sibling_offset h) q = true := by
            intro q hh2 hq
            have hqmem := head?_mem _ _ hq
            rcases List.mem_append.1 hqmem with hqW | hqP
            · have hqgt := hWgt2 (q, hh2) hqW
              replace hqgt : pos + sibling_offset h < q := hqgt
              constructor
              · intro hqe
                omega
              · rw [is_descendant_pos_iff]
                intro hqin
                obtain ⟨hq1, _⟩ := hqin
                omega
            · obtain ⟨_, hqht, hqlo, hqlt⟩ := hP _ hqP
              replace hqht : pos_height_in_tree q = h + 1 := hqht
              replace hqlo : lo ≤ q := hqlo
              replace hqlt : q < peak := hqlt
              constructor
              · intro hqe
                rw [hqe] at hqht
                rw [hsib2] at hqht
                omega
              · rw [is_descendant_pos_iff]
                intro hqin
                have hle := (inSpan_ht_le (m + 1) lo hs
                  (pos + sibling_offset h) q hsiblo hsible hqin).1
                rw [hsib2, hqht] at hle
                omega
          have hsfree : 0 < h → ∀ x ∈ S,
              ¬ inSpan (pos + sibling_offset h) x := by
            intro hpos0 x hxS hxin
            obtain ⟨e, he, hein⟩ := hScov x hxS
            rcases List.mem_append.1 he with heW | heP
            · rcases List.mem_cons.1 heW with he1 | he2
              · rw [he1] at hein
                rcases inSpan_overlap (m + 1) lo hs pos
                    (pos + sibling_offset h) x hlopos (by omega) hsiblo hsible
                    hein hxin with hns | hns
                · have := (inSpan_ht_le (m + 1) lo hs pos
                    (pos + sibling_offset h) hlopos (by omega) hns).2
                    (by omega)
                  omega
                · have := (inSpan_ht_le (m + 1) lo hs (pos + sibling_offset h)
                    pos hsiblo hsible hns).2 (by omega)
                  omega
              · obtain ⟨_, heht, helo, helt⟩ := hW _ (List.mem_cons_of_mem _ he2)
                have hegt := hWgt2 e he2
                rcases inSpan_overlap (m + 1) lo hs e.1
                    (pos + sibling_offset h) x helo (by omega) hsiblo hsible
                    hein hxin with hns | hns
                · have := (inSpan_ht_le (m + 1) lo hs e.1
                    (pos + sibling_offset h) helo (by omega) hns).2 (by omega)
                  omega
                · obtain ⟨hc1, _⟩ := hns
                  omega
            · obtain ⟨_, heht, helo, helt⟩ := hP _ heP
              have hlt2 := hPW _ heP (pos, h) (List.mem_cons_self _ _)
              replace hlt2 : e.1 < pos := hlt2
              rcases inSpan_overlap (m + 1) lo hs e.1
                  (pos + sibling_offset h) x helo (by omega) hsiblo hsible
                  hein hxin with hns | hns
              · obtain ⟨hc1, _⟩ := hns
                omega
              · have := (inSpan_ht_le (m + 1) lo hs (pos + sibling_offset h)
                  e.1 hsiblo hsible hns).1
                omega
          have hsibcov : pos + sibling_offset h ∈ coverOf S lo (m + 1) := by
            refine coverOf_mem_emit S (m + 1) lo (pos + sibling_offset h)
              (pos + parent_offset h) hs (by omega) (by omega) hpar5
              (by omega) ?_ ?_
            · exact ⟨x0, hx0S, inSpan_trans (m + 1) lo hs
                (pos + parent_offset h) pos x0 (by omega) (by omega) hpar4
                hx0in⟩
            · rcases Nat.eq_zero_or_pos h with h0 | hpos0
              · left
                omega
              · right
                exact hsfree hpos0
          have hstep0 := genSibStep_emit s S (proof0 ++ E) (W2 ++ P)
            (pos + sibling_offset h) h (f (pos + sibling_offset h)) hsibv hhead
          by_cases hpush : h = 0 ∨ (¬ (pos + sibling_offset h,
              f (pos + sibling_offset h)) ∈ (proof0 ++ E) ∧
              ¬ pos + sibling_offset h ∈ S)
          · rw [if_pos hpush] at hstep0
            obtain ⟨E', hrec, hE', hC'⟩ := hcontinue W2
              (E ++ [(pos + sibling_offset h, f (pos + sibling_offset h))])
              (by omega)
              (fun e hee => hW e (List.mem_cons_of_mem _ hee))
              hWstail hWgt2
              (fun ep hep ew hew => hPW ep hep ew (List.mem_cons_of_mem _ hew))
              (fun h0 e hee => hW0 h0 e (List.mem_cons_of_mem _ hee))
              (fun e hee => hSmeet e (by
                rcases List.mem_append.1 hee with h1 | h1
                · exact List.mem_append_left _ (List.mem_cons_of_mem _ h1)
                · exact List.mem_append_right _ h1))
              (by
                intro x hxS
                obtain ⟨e, he, hein⟩ := hScov x hxS
                rcases List.mem_append.1 he with heW | heP
                · rcases List.mem_cons.1 heW with he1 | he2
                  · right
                    rw [he1] at hein
                    exact inSpan_trans (m + 1) lo hs (pos + parent_offset h)
                      pos x (by omega) (by omega) hpar4 hein
                  · exact Or.inl ⟨e, List.mem_append_left _ he2, hein⟩
                · exact Or.inl ⟨e, List.mem_append_right _ heP, hein⟩)
              (by
                intro p v hpv
                rcases List.mem_append.1 hpv with h1 | h1
                · exact hE p v h1
                · rw [List.mem_singleton] at h1
                  rw [Prod.mk.injEq] at h1
                  obtain ⟨rfl, rfl⟩ := h1
                  exact ⟨rfl, hsibcov⟩)
              (by
                intro c hc
                rcases hpend c hc with h1 | h2' | ⟨e, he, hin⟩
                · exact Or.inl h1
                · exact Or.inr (Or.inl (List.mem_append_left _ h2'))
                · rcases List.mem_append.1 he with heW | heP
                  · rcases List.mem_cons.1 heW with he1 | he2
                    · by_cases hce : sibOf c = pos
                      · have hcs := hsc_eq c hc hce
                        refine Or.inr (Or.inl ?_)
                        rw [hcs]
                        exact List.mem_append_right _ (List.mem_cons_self _ _)
                      · rw [he1] at hin
                        exact Or.inr (Or.inr (Or.inr (hwit_step c hc hin hce)))
                    · exact Or.inr (Or.inr (Or.inl ⟨e,
                        List.mem_append_left _ he2, hin⟩))
                  · exact Or.inr (Or.inr (Or.inl ⟨e,
                      List.mem_append_right _ heP, hin⟩)))
            refine ⟨E', ?_, hE', hC'⟩
            simp only [genProofLoopF, if_neg hppne, if_neg hdir, hstep0]
            nth_rewrite 2 [List.append_assoc]
            exact hrec
          · rw [if_neg hpush] at hstep0
            have hsacc : pos + sibling_offset h ∈ S ∨
                (pos + sibling_offset h, f (pos + sibling_offset h)) ∈ E := by
              push_neg at hpush
              obtain ⟨_, hpe⟩ := hpush
              by_cases hinp : (pos + sibling_offset h,
                  f (pos + sibling_offset h)) ∈ proof0 ++ E
              · rcases List.mem_append.1 hinp with h1 | h1
                · have hcon := hp0 _ h1
                  replace hcon : pos + sibling_offset h < lo := hcon
                  omega
                · exact Or.inr h1
              · exact Or.inl (hpe hinp)
            obtain ⟨E', hrec, hE', hC'⟩ := hcontinue W2 E
              (by omega)
              (fun e hee => hW e (List.mem_cons_of_mem _ hee))
              hWstail hWgt2
              (fun ep hep ew hew => hPW ep hep ew (List.mem_cons_of_mem _ hew))
              (fun h0 e hee => hW0 h0 e (List.mem_cons_of_mem _ hee))
              (fun e hee => hSmeet e (by
                rcases List.mem_append.1 hee with h1 | h1
                · exact List.mem_append_left _ (List.mem_cons_of_mem _ h1)
                · exact List.mem_append_right _ h1))
              (by
                intro x hxS
                obtain ⟨e, he, hein⟩ := hScov x hxS
                rcases List.mem_append.1 he with heW | heP
                · rcases List.mem_cons.1 heW with he1 | he2
                  · right
                    rw [he1] at hein
                    exact inSpan_trans (m + 1) lo hs (pos + parent_offset h)
                      pos x (by omega) (by omega) hpar4 hein
                  · exact Or.inl ⟨e, List.mem_append_left _ he2, hein⟩
                · exact Or.inl ⟨e, List.mem_append_right _ heP, hein⟩)
              hE
              (by
                intro c hc
                rcases hpend c hc with h1 | h2' | ⟨e, he, hin⟩
                · exact Or.inl h1
                · exact Or.inr (Or.inl h2')
                · rcases List.mem_append.1 he with heW | heP
                  · rcases List.mem_cons.1 heW with he1 | he2
                    · by_cases hce : sibOf c = pos
                      · have hcs := hsc_eq c hc hce
                        rcases hsacc with hA | hA
                        · exact Or.inl (by rw [hcs]; exact hA)
                        · exact Or.inr (Or.inl (by rw [hcs]; exact hA))
                      · rw [he1] at hin
                        exact Or.inr (Or.inr (Or.inr (hwit_step c hc hin hce)))
                    · exact Or.inr (Or.inr (Or.inl ⟨e,
                        List.mem_append_left _ he2, hin⟩))
                  · exact Or.inr (Or.inr (Or.inl ⟨e,
                      List.mem_append_right _ heP, hin⟩)))
            refine ⟨E', ?_, hE', hC'⟩
            simp only [genProofLoopF, if_neg hppne, if_neg hdir, hstep0]
            exact hrec

theorem map_fst_pairs {α : Type} (l : List ℕ) (g : ℕ → α) :
    (l.map fun p => (p, g p)).map Prod.fst = l := by
  induction l with
  | nil => rfl
  | cons a r ih => simp [ih]

theorem coverOf_nil : ∀ (k lo : ℕ), coverOf [] lo k = [lo + (2 ^ (k + 1) - 2)]
  | 0, lo => by rw [coverOf_zero]; norm_num
  | (k + 1), lo => by rw [coverOf_succ]; simp

/-- Exact characterization of `gen_proof_for_peak` on a peak's span: with
`S` the sorted claimed leaf positions under the peak, the call succeeds and
appends exactly value-correct entries of the minimal sibling cover, with
every cover element either claimed or emitted. -/
theorem gen_proof_for_peak_exact {T : Type} [DecidableEq T] (s : MMRState T)
    (f : ℕ → T)
    (hstore : ∀ p, p < s.store.length → s.store.get? p = some (f p))
    (S : List ℕ) (lo k peak : ℕ)
    (hpk : peak = lo + (2 ^ (k + 1) - 2)) (hlt : peak < s.store.length)
    (hs : ∀ q, q ≤ 2 ^ (k + 1) - 2 →
      pos_height_in_tree (lo + q) = pos_height_in_tree q)
    (hSlv : ∀ p ∈ S, lo ≤ p ∧ p ≤ peak ∧ pos_height_in_tree p = 0)
    (hSsorted : List.Pairwise (· < ·) S)
    (proof0 : List (ℕ × T)) (hp0 : ∀ e ∈ proof0, e.1 < lo) :
    ∃ E, gen_proof_for_peak s proof0 S peak = .ok (proof0 ++ E) ∧
      (∀ p v, (p, v) ∈ E → v = f p ∧ p ∈ coverOf S lo k) ∧
      (∀ c ∈ coverOf S lo k, c ∈ S ∨ (c, f c) ∈ E) := by
  by_cases h1 : S = [peak]
  · refine ⟨[], by simp only [gen_proof_for_peak, if_pos h1,
      List.append_nil], ?_, ?_⟩
    · intro p v hpv
      exact absurd hpv (List.not_mem_nil _)
    · have hhpk : pos_height_in_tree peak = k := by
        rw [hpk]
        exact span_peak_ht k lo hs
      have h0 : pos_height_in_tree peak = 0 :=
        (hSlv peak (by rw [h1]; exact List.mem_cons_self _ _)).2.2
      have hk0 : k = 0 := by omega
      subst hk0
      have h21 : (2 : ℕ) ^ (0 + 1) - 2 = 0 := by norm_num
      have hpl : peak = lo := by omega
      intro c hc
      rw [coverOf_zero, List.mem_singleton] at hc
      subst hc
      left
      rw [h1, hpl]
      exact List.mem_singleton.2 rfl
  · by_cases h2 : S = []
    · subst h2
      have hpeakv := hstore peak hlt
      refine ⟨[(peak, f peak)], ?_, ?_, ?_⟩
      · have hpeakv2 : s.store[peak]? = some (f peak) := by
          rw [← List.get?_eq_getElem?]
          exact hpeakv
        simp [gen_proof_for_peak, if_neg h1, hpeakv2]
      · intro p v hpv
        rw [List.mem_singleton, Prod.mk.injEq] at hpv
        obtain ⟨rfl, rfl⟩ := hpv
        refine ⟨rfl, ?_⟩
        rw [coverOf_nil, hpk]
        exact List.mem_singleton.2 rfl
      · intro c hc
        rw [coverOf_nil, List.mem_singleton] at hc
        subst hc
        right
        rw [← hpk]
        exact List.mem_singleton.2 rfl
    · obtain ⟨p0, hp0S⟩ : ∃ p, p ∈ S := by
        cases S with
        | nil => exact absurd rfl h2
        | cons a l => exact ⟨a, List.mem_cons_self _ _⟩
      have hk1 : 1 ≤ k := by
        by_contra hk0
        replace hk0 : k = 0 := by omega
        subst hk0
        have h21 : (2 : ℕ) ^ (0 + 1) - 2 = 0 := by norm_num
        have hps : ∀ p ∈ S, p = peak := by
          intro p hp
          obtain ⟨ha, hb, _⟩ := hSlv p hp
          omega
        cases S with
        | nil => exact h2 rfl
        | cons a l =>
          cases l with
          | nil =>
            refine h1 ?_
            rw [hps a (List.mem_cons_self _ _)]
          | cons b l2 =>
            have hab : a < b := by
              rw [List.pairwise_cons] at hSsorted
              exact hSsorted.1 b (List.mem_cons_self _ _)
            have ha := hps a (List.mem_cons_self _ _)
            have hb := hps b (List.mem_cons_of_mem _ (List.mem_cons_self _ _))
            omega
      have hhpk : pos_height_in_tree peak = k := by
        rw [hpk]
        exact span_peak_ht k lo hs
      have hSlt : ∀ p ∈ S, p < peak := by
        intro p hp
        obtain ⟨ha, hb, hc⟩ := hSlv p hp
        rcases Nat.lt_or_ge p peak with hlt' | hge
        · exact hlt'
        · exfalso
          have hpe : p = peak := by omega
          rw [hpe] at hc
          omega
      obtain ⟨E', hrec, hE', hC'⟩ := genProofLoop_exact s f hstore S lo k peak
        hk1 hpk hlt hs hSlv ((S.length + 1) * (peak + 2))
        (S.map fun p => (p, pos_height_in_tree p)) [] 0 proof0 [] hp0
        (by
          rw [List.append_nil]
          have hle := queueMeasure_le_len peak
            (S.map fun p => (p, pos_height_in_tree p))
          rw [List.length_map] at hle
          have hmul : S.length * (peak + 1) ≤ S.length * (peak + 2) :=
            Nat.mul_le_mul_left _ (by omega)
          have hexp : (S.length + 1) * (peak + 2) =
              S.length * (peak + 2) + (peak + 2) := by rw [Nat.succ_mul]
          omega)
        (fun _ => rfl)
        (by
          intro e hee
          rw [List.mem_map] at hee
          obtain ⟨p, hpS, rfl⟩ := hee
          obtain ⟨ha, hb, hc⟩ := hSlv p hpS
          exact ⟨hc, hc, ha, hSlt p hpS⟩)
        (fun e hee => absurd hee (List.not_mem_nil e))
        (by rw [map_fst_pairs]; exact hSsorted)
        (by simp)
        (fun ep hep => absurd hep (List.not_mem_nil ep))
        (fun ep hep => absurd hep (List.not_mem_nil ep))
        (by
          intro _ e hee
          rw [List.mem_map] at hee
          obtain ⟨p, hpS, rfl⟩ := hee
          exact hpS)
        (by
          intro e hee
          rw [List.append_nil, List.mem_map] at hee
          obtain ⟨p, hpS, rfl⟩ := hee
          exact ⟨p, hpS, inSpan_self p⟩)
        (by
          intro x hxS
          refine ⟨(x, pos_height_in_tree x), ?_, inSpan_self x⟩
          rw [List.append_nil]
          exact List.mem_map_of_mem _ hxS)
        (fun p v hpv => absurd hpv (List.not_mem_nil _))
        (by
          intro c hc
          rcases coverOf_sib_meets S k lo hs
            (fun x hx _ _ => (hSlv x hx).2.2)
            ⟨p0, hp0S, (hSlv p0 hp0S).1, by
              have := (hSlv p0 hp0S).2.1
              omega⟩
            c hc with h1' | ⟨x, hxS, hxin⟩
          · exact Or.inl h1'
          · refine Or.inr (Or.inr ⟨(x, pos_height_in_tree x), ?_, hxin⟩)
            rw [List.append_nil]
            exact List.mem_map_of_mem _ hxS)
      refine ⟨E', ?_, hE', hC'⟩
      simp only [gen_proof_for_peak, if_neg h1, if_neg h2]
      rw [List.append_nil, List.append_nil] at hrec
      exact hrec

theorem c9_ancestry_size_errors_witness :
    (exTwo.mmr_size = mmr_size_of_leaf_count 2 ∧
      (4 : ℕ) = mmr_size_of_leaf_count 3 ∧ store_complete exTwo ∧
      exTwo.mmr_size < 4) ∧
    ((1 ≤ exTwo.mmr_size → get_ancestor_peaks_and_root Tree.node exTwo 4 =
        .err .AncestorRootNotPredecessor) ∧
      gen_ancestry_proof Tree.node exTwo 4 = .err .GenProofForInvalidNodes) :=
  ⟨⟨by decide, by decide, rfl, by decide⟩,
    c9_ancestry_size_errors Tree.node exTwo 2 3 4 (by decide) (by decide) rfl
      (by decide)⟩

end Mmr
